import Mathlib

/-! # Acts: the combinatorial trajectory store (`MultiTrajectory`)

A shallow embedding of `Core/include/Acts/EventData/MultiTrajectory.hpp`
and proofs about it.

Conventions of the embedding.

* `size_t` values are natural numbers; `SIZE_MAX` is `2 ^ 64 - 1`.
* `IndexData::IndexType` is `uint16_t`: every store into such a field is taken
  modulo `65536`, exactly where the source narrows a `size_t`.
* An Eigen array with a fixed number of rows and a dynamic number of columns is
  a list of columns, each column a list of scalars. The source only stores and
  copies scalars (it never computes with them), so scalars are integers.
* `conservativeResize` leaves the new columns uninitialised; their content is
  an explicit argument (`Junk`) over which every theorem quantifies.
* A read the source performs without any check (`std::vector::operator[]`,
  `Eigen::DenseBase::col`) has no defined result outside the container; such a
  read yields `Fault.undefinedBehaviour`.
-/

namespace Acts

/-- The scalar type of all arenas (`double` in the source, only stored and copied). -/
abbrev Scalar := Int

/-- A `const Surface&`: the identity of the referenced surface. -/
abbrev Surface := Nat

/-- The largest `size_t`; the default `iprevious` of `addPoint`. -/
def SIZE_MAX : Nat := 18446744073709551615

/-- The largest `uint16_t`. -/
def UINT16_MAX : Nat := 65535

/-- Narrowing conversion of a `size_t` to `uint16_t`. -/
def toUInt16 (x : Nat) : Nat := x % 65536

/-- Ways in which a call can fail to produce a value. `undefinedBehaviour` is
what the unchecked container accesses of the source amount to outside the
container. The other three are the error conditions named by the
specification; no function of the source produces them. -/
inductive Fault where
  | undefinedBehaviour
  | IndexOutOfRange
  | CapacityExceeded
  | SlotNotPresent
  deriving DecidableEq, Repr

deriving instance DecidableEq for Except

/-- Uninitialised memory handed out by a resize: the scalar found at a given
column and row. -/
abbrev Junk := Nat → Nat → Scalar

namespace detail_lt

/-- The type `GrowableColumns<Eigen::Array<Scalar, Size, Dynamic>, kSizeIncrement>`:
`data` is the list of columns, every column has `Size` rows. -/
structure GrowableColumns (Size kSizeIncrement : Nat) where
  data : List (List Scalar)
  deriving DecidableEq, Repr

namespace GrowableColumns

variable {Size kSizeIncrement : Nat}

/-- The member `data.cols()`. -/
def cols (g : GrowableColumns Size kSizeIncrement) : Nat := g.data.length

/-- The call `data.conservativeResize(Eigen::NoChange, n)`: the first `n` columns that
exist are kept, columns created by the call hold uninitialised scalars. -/
def conservativeResize (g : GrowableColumns Size kSizeIncrement) (n : Nat) (junk : Junk) :
    GrowableColumns Size kSizeIncrement :=
  ⟨g.data.take n ++
    (List.range (n - g.data.length)).map
      (fun j => (List.range Size).map (junk (g.data.length + j)))⟩

/-- The loop of `ensureCol`, `while (data.cols() <= index) resize(cols + kSizeIncrement)`,
run for at most `fuel` iterations, on counts without an upper end. This is the loop as
`addPoint` runs it, with the number of points as `index`; on the machine integers of
the source it is `ensureColMachine` below, and the two agree as long as the grown count
fits `Eigen::Index` (`ensureColMachine_eq_ensureCol`). -/
def ensureColLoop (index : Nat) (junk : Junk) :
    Nat → GrowableColumns Size kSizeIncrement → GrowableColumns Size kSizeIncrement
  | 0, g => g
  | fuel + 1, g =>
    if g.cols ≤ index then
      ensureColLoop index junk fuel (g.conservativeResize (g.cols + kSizeIncrement) junk)
    else g

/-- The storage after `ensureCol(index)`; the returned view is column `index` of it.
Each iteration adds `kSizeIncrement` columns, so for a positive increment the loop
leaves by its own condition within `index + 1` iterations
(`ensureCol_cols_gt` below). -/
def ensureCol (g : GrowableColumns Size kSizeIncrement) (index : Nat) (junk : Junk) :
    GrowableColumns Size kSizeIncrement :=
  ensureColLoop index junk (index + 1) g

/-- Read-only `col(index)`: no check in the source, so nothing is defined
outside the storage. -/
def col (g : GrowableColumns Size kSizeIncrement) (index : Nat) : Except Fault (List Scalar) :=
  match g.data[index]? with
  | some c => .ok c
  | none => .error .undefinedBehaviour

/-- A write through the view `col(index)`: column `index` becomes `f` of its
old content. -/
def modifyCol (g : GrowableColumns Size kSizeIncrement) (index : Nat)
    (f : List Scalar → List Scalar) : GrowableColumns Size kSizeIncrement :=
  match g.data[index]? with
  | some c => ⟨g.data.set index (f c)⟩
  | none => g

/-- The call `col(index).setZero()`: all `Size` rows of the column become zero. -/
def setZero (g : GrowableColumns Size kSizeIncrement) (index : Nat) :
    GrowableColumns Size kSizeIncrement :=
  g.modifyCol index (fun _ => List.replicate Size 0)

end GrowableColumns

/-- The assignment `v.head<n>() = x` on a column `v`. -/
def assignHead (n : Nat) (x : Fin n → Scalar) (v : List Scalar) : List Scalar :=
  (List.range v.length).map (fun r => if h : r < n then x ⟨r, h⟩ else v.getD r 0)

/-- The assignment `Map(v).topLeftCorner<n, n>() = x` on a column `v` mapped as a
column-major `Size x Size` matrix: entry `(r, c)` lives at `r + Size * c`. -/
def assignTopLeftCorner (Size n : Nat) (x : Fin n → Fin n → Scalar) (v : List Scalar) :
    List Scalar :=
  (List.range v.length).map (fun k =>
    if h : k % Size < n ∧ k / Size < n then x ⟨k % Size, h.1⟩ ⟨k / Size, h.2⟩
    else v.getD k 0)

/-- The type `Types<Size>::CovarianceMap`: an `Eigen::Map` of a flat column as a
column-major `Size x Size` matrix. -/
structure CovarianceMap (Size : Nat) where
  data : List Scalar
  deriving DecidableEq, Repr

/-- Entry `(r, c)` of a mapped matrix. -/
def CovarianceMap.coeff {Size : Nat} (m : CovarianceMap Size) (r c : Fin Size) : Scalar :=
  m.data.getD (r.val + Size * c.val) 0

/-- The block `v.head(n)` of a column: its first `n` rows; Eigen requires
`n <= v.size()`. -/
def head (v : List Scalar) (n : Nat) : Except Fault (List Scalar) :=
  if n ≤ v.length then .ok (v.take n) else .error .undefinedBehaviour

/-- The block `m.topLeftCorner(r, c)` of a mapped matrix, as the list of its `c`
columns of `r` rows each; Eigen requires `r, c <= Size`. -/
def CovarianceMap.topLeftCorner {Size : Nat} (m : CovarianceMap Size) (r c : Nat) :
    Except Fault (List (List Scalar)) :=
  if r ≤ Size ∧ c ≤ Size then
    .ok ((List.range c).map (fun j => (List.range r).map (fun i => m.data.getD (i + Size * j) 0)))
  else .error .undefinedBehaviour

/-- The constant `IndexData::kInvalid`. -/
def kInvalid : Nat := UINT16_MAX

/-- The record `IndexData`; all index fields are `uint16_t`. -/
structure IndexData where
  surface : Surface
  iprevious : Nat := kInvalid
  ipredicted : Nat := kInvalid
  ifiltered : Nat := kInvalid
  ismoothed : Nat := kInvalid
  iuncalibrated : Nat := kInvalid
  icalibrated : Nat := kInvalid
  measdim : Nat := 0
  deriving DecidableEq, Repr

end detail_lt

open detail_lt

/-- Modelled from the spec: `TrackParametersBase` (its header is not part of the
sources at hand). Per call the store consumes a surface reference, a parameter
vector with `nparams = ParVector_t::RowsAtCompileTime` rows and an optional
`nparams x nparams` covariance matrix (`covariance()` may return `nullptr`). -/
structure TrackParametersBase (nparams : Nat) where
  parameters : Fin nparams → Scalar
  covariance : Option (Fin nparams → Fin nparams → Scalar)
  referenceSurface : Surface

/-- The enumerator `MultiTrajectory::ParametersSize`. -/
abbrev ParametersSize : Nat := 6

/-- The enumerator `MultiTrajectory::MeasurementSizeMax`. -/
abbrev MeasurementSizeMax : Nat := 2

/-- The enumerator `Types::SizeIncrement`. -/
abbrev SizeIncrement : Nat := 8

/-- The class `MultiTrajectory`: the index and the four arenas. -/
structure MultiTrajectory where
  m_index : List IndexData := []
  m_params : GrowableColumns ParametersSize SizeIncrement := ⟨[]⟩
  m_cov : GrowableColumns (ParametersSize * ParametersSize) SizeIncrement := ⟨[]⟩
  m_meas : GrowableColumns MeasurementSizeMax SizeIncrement := ⟨[]⟩
  m_measCov : GrowableColumns (MeasurementSizeMax * MeasurementSizeMax) SizeIncrement := ⟨[]⟩
  deriving DecidableEq, Repr

/-- The class `detail_lt::TrackStateProxy<ParametersSize, MeasurementSizeMax, ReadOnly>`,
the only instantiation the store hands out: the trajectory it refers to, the
index of the point and a copy of its index record. -/
structure detail_lt.TrackStateProxy where
  m_traj : MultiTrajectory
  m_istate : Nat
  m_data : IndexData
  deriving DecidableEq, Repr

namespace MultiTrajectory

/-- The function `MultiTrajectory::addPoint`: the returned index and the store
afterwards. `junkParams` and `junkCov` are the uninitialised contents of the
columns the two arenas may allocate. -/
def addPoint {nparams : Nat} (self : MultiTrajectory) (trackParameters : TrackParametersBase nparams)
    (iprevious : Nat) (junkParams junkCov : Junk) : Nat × MultiTrajectory :=
  let ipredicted := self.m_index.length
  let params0 := (self.m_params.ensureCol ipredicted junkParams).setZero ipredicted
  let params1 := params0.modifyCol ipredicted (assignHead nparams trackParameters.parameters)
  let cov0 := (self.m_cov.ensureCol ipredicted junkCov).setZero ipredicted
  let cov1 :=
    match trackParameters.covariance with
    | some cov => cov0.modifyCol ipredicted (assignTopLeftCorner ParametersSize nparams cov)
    | none => cov0
  let p0 : IndexData := { surface := trackParameters.referenceSurface }
  let p1 : IndexData := if iprevious ≠ SIZE_MAX then { p0 with iprevious := toUInt16 iprevious } else p0
  let p2 : IndexData := { p1 with ipredicted := toUInt16 ipredicted }
  let index := self.m_index ++ [p2]
  (index.length - 1, { self with m_index := index, m_params := params1, m_cov := cov1 })

/-- The call `MultiTrajectory::getPoint(istate)`, that is the constructor of `TrackStateProxy`:
`m_data` is a copy of `m_index[istate]`, read without a bounds check. -/
def getPoint (self : MultiTrajectory) (istate : Nat) : Except Fault (TrackStateProxy) :=
  match self.m_index[istate]? with
  | some d => .ok ⟨self, istate, d⟩
  | none => .error .undefinedBehaviour

/-- The function `MultiTrajectory::visitBackwards`, run for at most `fuel` iterations of its
`while (true)` loop; `none` when the loop has not left after `fuel` iterations.
The visitor is a function of its own state and the read-only view it is called
with; the result is the visitor state after the last call. -/
def visitBackwards {σ : Type} (self : MultiTrajectory) (callable : σ → TrackStateProxy → σ) :
    Nat → Nat → σ → Option (Except Fault σ)
  | 0, _, _ => none
  | fuel + 1, iendpoint, acc =>
    match self.getPoint iendpoint with
    | .error e => some (.error e)
    | .ok p =>
      let acc1 := callable acc p
      match self.m_index[iendpoint]? with
      | none => some (.error .undefinedBehaviour)
      | some d =>
        if d.iprevious = kInvalid then some (.ok acc1)
        else visitBackwards self callable fuel d.iprevious acc1

end MultiTrajectory

namespace detail_lt.TrackStateProxy

/-- The member `index()`. -/
def index (p : TrackStateProxy) : Nat := p.m_istate

/-- The member `referenceSurface()`. -/
def referenceSurface (p : TrackStateProxy) : Surface := p.m_data.surface

/-- The member `hasPredicted()`. -/
def hasPredicted (p : TrackStateProxy) : Bool := p.m_data.ipredicted != kInvalid

/-- The member `hasFiltered()`. -/
def hasFiltered (p : TrackStateProxy) : Bool := p.m_data.ifiltered != kInvalid

/-- The member `hasSmoothed()`. -/
def hasSmoothed (p : TrackStateProxy) : Bool := p.m_data.ismoothed != kInvalid

/-- The member `hasUncalibrated()`. -/
def hasUncalibrated (p : TrackStateProxy) : Bool := p.m_data.iuncalibrated != kInvalid

/-- The member `hasCalibrated()`. -/
def hasCalibrated (p : TrackStateProxy) : Bool := p.m_data.icalibrated != kInvalid

/-- The member `parameters()`. -/
def parameters (p : TrackStateProxy) : Except Fault (List Scalar) :=
  let idx :=
    if p.hasSmoothed then p.m_data.ismoothed
    else if p.hasFiltered then p.m_data.ifiltered
    else p.m_data.ipredicted
  p.m_traj.m_params.col idx

/-- The member `covariance()`. -/
def covariance (p : TrackStateProxy) : Except Fault (CovarianceMap ParametersSize) :=
  let idx :=
    if p.hasSmoothed then p.m_data.ismoothed
    else if p.hasFiltered then p.m_data.ifiltered
    else p.m_data.ipredicted
  (p.m_traj.m_cov.col idx).map CovarianceMap.mk

/-- The member `predicted()`. -/
def predicted (p : TrackStateProxy) : Except Fault (List Scalar) :=
  p.m_traj.m_params.col p.m_data.ipredicted

/-- The member `predictedCovariance()`. -/
def predictedCovariance (p : TrackStateProxy) : Except Fault (CovarianceMap ParametersSize) :=
  (p.m_traj.m_cov.col p.m_data.ipredicted).map CovarianceMap.mk

/-- The member `filtered()`. -/
def filtered (p : TrackStateProxy) : Except Fault (List Scalar) :=
  p.m_traj.m_params.col p.m_data.ifiltered

/-- The member `filteredCovariance()`. -/
def filteredCovariance (p : TrackStateProxy) : Except Fault (CovarianceMap ParametersSize) :=
  (p.m_traj.m_cov.col p.m_data.ifiltered).map CovarianceMap.mk

/-- The member `smoothed()`. -/
def smoothed (p : TrackStateProxy) : Except Fault (List Scalar) :=
  p.m_traj.m_params.col p.m_data.ismoothed

/-- The member `smoothedCovariance()`. -/
def smoothedCovariance (p : TrackStateProxy) : Except Fault (CovarianceMap ParametersSize) :=
  (p.m_traj.m_cov.col p.m_data.ismoothed).map CovarianceMap.mk

/-- The member `uncalibrated()`. -/
def uncalibrated (p : TrackStateProxy) : Except Fault (List Scalar) :=
  p.m_traj.m_meas.col p.m_data.iuncalibrated

/-- The member `uncalibratedCovariance()`. -/
def uncalibratedCovariance (p : TrackStateProxy) :
    Except Fault (CovarianceMap MeasurementSizeMax) :=
  (p.m_traj.m_measCov.col p.m_data.iuncalibrated).map CovarianceMap.mk

/-- The member `effectiveUncalibrated()`. -/
def effectiveUncalibrated (p : TrackStateProxy) : Except Fault (List Scalar) :=
  p.uncalibrated.bind (fun v => head v p.m_data.measdim)

/-- The member `effectiveUncalibratedCovariance()`. -/
def effectiveUncalibratedCovariance (p : TrackStateProxy) : Except Fault (List (List Scalar)) :=
  p.uncalibratedCovariance.bind (fun m => m.topLeftCorner p.m_data.measdim p.m_data.measdim)

/-- The member `calibrated()`. -/
def calibrated (p : TrackStateProxy) : Except Fault (List Scalar) :=
  p.m_traj.m_meas.col p.m_data.icalibrated

/-- The member `calibratedCovariance()`. -/
def calibratedCovariance (p : TrackStateProxy) :
    Except Fault (CovarianceMap MeasurementSizeMax) :=
  (p.m_traj.m_measCov.col p.m_data.icalibrated).map CovarianceMap.mk

/-- The member `effectiveCalibrated()`. -/
def effectiveCalibrated (p : TrackStateProxy) : Except Fault (List Scalar) :=
  p.calibrated.bind (fun v => head v p.m_data.measdim)

/-- The member `effectiveCalibratedCovariance()`. -/
def effectiveCalibratedCovariance (p : TrackStateProxy) : Except Fault (List (List Scalar)) :=
  p.calibratedCovariance.bind (fun m => m.topLeftCorner p.m_data.measdim p.m_data.measdim)

end detail_lt.TrackStateProxy

/-! ### Writable views

With `ReadOnly = false` the twelve accessors return writable `Eigen::Map`s; a visitor
of `applyBackwards` changes the store by assigning coefficients through them (the
`effective...` members are blocks of four of these maps). The record `m_data` of a
view is a private copy and the view has no other mutating member, so coefficient
writes are all a visitor can do to the store through the view. -/

/-- The accessors of a view that return a map onto an arena column. -/
inductive Accessor where
  | parameters
  | covariance
  | predicted
  | predictedCovariance
  | filtered
  | filteredCovariance
  | smoothed
  | smoothedCovariance
  | uncalibrated
  | uncalibratedCovariance
  | calibrated
  | calibratedCovariance
  deriving DecidableEq, Repr

/-- The four arenas of the store. -/
inductive Arena where
  | params
  | cov
  | meas
  | measCov
  deriving DecidableEq, Repr

/-- The arena an accessor maps. -/
def Accessor.arena : Accessor → Arena
  | .parameters | .predicted | .filtered | .smoothed => .params
  | .covariance | .predictedCovariance | .filteredCovariance | .smoothedCovariance => .cov
  | .uncalibrated | .calibrated => .meas
  | .uncalibratedCovariance | .calibratedCovariance => .measCov

/-- The column an accessor maps, for the view `p`. -/
def Accessor.slot (p : TrackStateProxy) : Accessor → Nat
  | .parameters | .covariance =>
    if p.hasSmoothed then p.m_data.ismoothed
    else if p.hasFiltered then p.m_data.ifiltered
    else p.m_data.ipredicted
  | .predicted | .predictedCovariance => p.m_data.ipredicted
  | .filtered | .filteredCovariance => p.m_data.ifiltered
  | .smoothed | .smoothedCovariance => p.m_data.ismoothed
  | .uncalibrated | .uncalibratedCovariance => p.m_data.iuncalibrated
  | .calibrated | .calibratedCovariance => p.m_data.icalibrated

/-- One assignment `view.accessor()(pos) = value` to a coefficient of a mapped column
(`pos` is the position in the flat column). -/
structure Write where
  accessor : Accessor
  pos : Nat
  value : Scalar
  deriving DecidableEq, Repr

/-- An assignment to coefficient `pos` of column `slot`; nothing is defined when the
column or the coefficient is outside the storage. -/
def detail_lt.GrowableColumns.writeCoeff {Size kSizeIncrement : Nat}
    (g : GrowableColumns Size kSizeIncrement) (slot pos : Nat) (value : Scalar) :
    Except Fault (GrowableColumns Size kSizeIncrement) :=
  match g.data[slot]? with
  | some c => if pos < c.length then .ok ⟨g.data.set slot (c.set pos value)⟩
    else .error .undefinedBehaviour
  | none => .error .undefinedBehaviour

namespace MultiTrajectory

/-- The store after one coefficient write made through the view `p`. -/
def applyWrite (self : MultiTrajectory) (p : TrackStateProxy) (w : Write) :
    Except Fault MultiTrajectory :=
  match w.accessor.arena with
  | .params =>
    (self.m_params.writeCoeff (w.accessor.slot p) w.pos w.value).map
      (fun g => { self with m_params := g })
  | .cov =>
    (self.m_cov.writeCoeff (w.accessor.slot p) w.pos w.value).map
      (fun g => { self with m_cov := g })
  | .meas =>
    (self.m_meas.writeCoeff (w.accessor.slot p) w.pos w.value).map
      (fun g => { self with m_meas := g })
  | .measCov =>
    (self.m_measCov.writeCoeff (w.accessor.slot p) w.pos w.value).map
      (fun g => { self with m_measCov := g })

/-- The store after a sequence of coefficient writes made through the view `p`. -/
def applyWrites (self : MultiTrajectory) (p : TrackStateProxy) :
    List Write → Except Fault MultiTrajectory
  | [] => .ok self
  | w :: ws =>
    match self.applyWrite p w with
    | .ok s1 => applyWrites s1 p ws
    | .error e => .error e

/-- The function `MultiTrajectory::applyBackwards`, run for at most `fuel` iterations of its
`while (true)` loop; `none` when the loop has not left after `fuel` iterations.
The visitor is a function of its own state and the writable view it is called
with; it returns its new state and the coefficient writes it makes through the
view. The result is the visitor state after the last call and the store. -/
def applyBackwards {σ : Type} (callable : σ → TrackStateProxy → σ × List Write) :
    Nat → MultiTrajectory → Nat → σ → Option (Except Fault (σ × MultiTrajectory))
  | 0, _, _, _ => none
  | fuel + 1, self, iendpoint, acc =>
    match self.getPoint iendpoint with
    | .error e => some (.error e)
    | .ok p =>
      match self.applyWrites p (callable acc p).2 with
      | .error e => some (.error e)
      | .ok self1 =>
        match self1.m_index[iendpoint]? with
        | none => some (.error .undefinedBehaviour)
        | some d =>
          if d.iprevious = kInvalid then some (.ok ((callable acc p).1, self1))
          else applyBackwards callable fuel self1 d.iprevious (callable acc p).1

end MultiTrajectory

/-- One call of `addPoint`: its two arguments and the uninitialised memory the
two arenas would hand out if the call grows them. -/
structure AddPointCall (nparams : Nat) where
  trackParameters : TrackParametersBase nparams
  iprevious : Nat
  junkParams : Junk
  junkCov : Junk

namespace MultiTrajectory

/-- The store after a call of `addPoint`. -/
def afterCall {nparams : Nat} (self : MultiTrajectory) (c : AddPointCall nparams) : MultiTrajectory :=
  (self.addPoint c.trackParameters c.iprevious c.junkParams c.junkCov).2

/-- A sequence of `addPoint` calls: the returned indices in call order and the
final store. -/
def addPoints {nparams : Nat} : MultiTrajectory → List (AddPointCall nparams) → List Nat × MultiTrajectory
  | s, [] => ([], s)
  | s, c :: cs =>
    let r := s.addPoint c.trackParameters c.iprevious c.junkParams c.junkCov
    let rest := addPoints r.2 cs
    (r.1 :: rest.1, rest.2)

end MultiTrajectory

end Acts

namespace Acts

open detail_lt

/-! ## Verification scaffolding: the index record written by one call -/

/-- The index record `addPoint` appends when the store holds `n` points. -/
def newIndexData {nparams : Nat} (c : AddPointCall nparams) (n : Nat) : IndexData :=
  { surface := c.trackParameters.referenceSurface
    iprevious := if c.iprevious ≠ SIZE_MAX then toUInt16 c.iprevious else kInvalid
    ipredicted := toUInt16 n }

/-- The index records appended by a sequence of calls on a store of `n` points. -/
def recordsFrom {nparams : Nat} : Nat → List (AddPointCall nparams) → List IndexData
  | _, [] => []
  | n, c :: cs => newIndexData c n :: recordsFrom (n + 1) cs

/-- The root point of the end-to-end scenario: parameters `[1,0,0,0,0,0]`, no
covariance, no parent. -/
def rootCall : AddPointCall 6 :=
  ⟨⟨fun i => if i.val = 0 then 1 else 0, none, 0⟩, SIZE_MAX, fun _ _ => 0, fun _ _ => 0⟩

/-- The child of the end-to-end scenario: parameters `[1,1,0,0,0,0]`, parent 0. -/
def childCall : AddPointCall 6 :=
  ⟨⟨fun i => if i.val ≤ 1 then 1 else 0, none, 1⟩, 0, fun _ _ => 0, fun _ _ => 0⟩

/-- A call with five parameters and a covariance matrix, parent 0. -/
def covCall : AddPointCall 5 :=
  ⟨⟨fun i => i.val + 1, some (fun r c => 10 * r.val + c.val + 1), 2⟩, 0, fun c r => 100 * c + r,
    fun c r => 100 * c + r⟩

/-- The store of the end-to-end scenario: a root and its child. -/
def twoPointStore : MultiTrajectory := (({} : MultiTrajectory).addPoints [rootCall, childCall]).2

/-- A store holding 65535 points, all roots. -/
def fullStore : MultiTrajectory :=
  (({} : MultiTrajectory).addPoints (List.replicate 65535 rootCall)).2

/-- A call that names point 0 as its parent; made on the empty store, the point
it creates is point 0 itself. -/
def selfParentCall : AddPointCall 6 :=
  ⟨⟨fun i => if i.val = 0 then 1 else 0, none, 0⟩, 0, fun _ _ => 0, fun _ _ => 0⟩

/-- A call that names point 65535 as its parent. -/
def lateChildCall : AddPointCall 6 :=
  ⟨⟨fun i => if i.val ≤ 1 then 1 else 0, none, 1⟩, 65535, fun _ _ => 0, fun _ _ => 0⟩

/-- A third point: parameters `[1,1,1,0,0,0]`, parent 1. -/
def grandChildCall : AddPointCall 6 :=
  ⟨⟨fun i => if i.val ≤ 2 then 1 else 0, none, 2⟩, 1, fun _ _ => 0, fun _ _ => 0⟩

/-- A view of point 0 of a three-point store whose record names column 0 as
predicted, column 1 as filtered and column 2 as smoothed. -/
def bestEstimateView : TrackStateProxy :=
  ⟨(({} : MultiTrajectory).addPoints [rootCall, childCall, grandChildCall]).2, 0,
    { surface := 0, ipredicted := 0, ifiltered := 1, ismoothed := 2 }⟩

/-- Eight calls; they fill the first chunk of eight columns of both arenas, so
the next call grows the arenas. -/
def eightCalls : List (AddPointCall 6) :=
  [rootCall, childCall, grandChildCall, childCall, grandChildCall, rootCall, childCall,
    grandChildCall]

/-- 65536 roots followed by a point with parameters `[1,1,0,0,0,0]` and parent
65535. -/
def lateCalls : List (AddPointCall 6) := List.replicate 65536 rootCall ++ [lateChildCall]

/-- The store built by `lateCalls`: 65537 points. -/
def lateStore : MultiTrajectory := (({} : MultiTrajectory).addPoints lateCalls).2

/-- The index record of a point with a one-dimensional measurement: uncalibrated in
column 0, calibrated in column 1 of the measurement arenas. -/
def measuredRecord : IndexData :=
  { surface := 0, ipredicted := 0, iuncalibrated := 0, icalibrated := 1, measdim := 1 }

/-- A store holding the point `measuredRecord` and two measurement columns. -/
def measuredStore : MultiTrajectory :=
  { m_index := [measuredRecord], m_meas := ⟨[[5, 6], [7, 8]]⟩,
    m_measCov := ⟨[[1, 2, 3, 4], [11, 12, 13, 14]]⟩ }

/-- The view of the point of `measuredStore`. -/
def measuredView : TrackStateProxy := ⟨measuredStore, 0, measuredRecord⟩

/-- A visitor of `applyBackwards` instrumented to record, next to its own state, the
index of every view it is called with. -/
def traced {σ : Type} (g : σ → TrackStateProxy → σ × List Write) :
    σ × List Nat → TrackStateProxy → (σ × List Nat) × List Write :=
  fun a v => (((g a.1 v).1, a.2 ++ [v.index]), (g a.1 v).2)

/-- The indices recorded by an instrumented traversal. -/
def passedIndices {σ : Type} :
    Option (Except Fault ((σ × List Nat) × MultiTrajectory)) → Option (Except Fault (List Nat)) :=
  Option.map (Except.map (fun r => r.1.2))

/-- The number of rows of column `slot` of an arena, if the column exists. -/
def colLength (s : MultiTrajectory) : Arena → Nat → Option Nat
  | .params, slot => (s.m_params.data[slot]?).map List.length
  | .cov, slot => (s.m_cov.data[slot]?).map List.length
  | .meas, slot => (s.m_meas.data[slot]?).map List.length
  | .measCov, slot => (s.m_measCov.data[slot]?).map List.length

/-- The write `w`, made through the view `v`, addresses a coefficient that exists in
the store `s`. -/
def Write.InBounds (s : MultiTrajectory) (v : TrackStateProxy) (w : Write) : Prop :=
  ∃ n, colLength s w.accessor.arena (w.accessor.slot v) = some n ∧ w.pos < n

/-- A visitor that sets row 0 of the predicted parameters of the first two points
to 9 and writes nothing elsewhere. -/
def markPredicted : Unit → TrackStateProxy → Unit × List Write :=
  fun _ v => ((), if v.m_data.ipredicted < 2 then [⟨.predicted, 0, 9⟩] else [])

/-- The visitor that, at point `q`, assigns `x` to row `pos` of `filtered()` and
writes nothing at any other point. -/
def writeFilteredAt (q pos : Nat) (x : Scalar) : Unit → TrackStateProxy → Unit × List Write :=
  fun _ v => ((), if v.index = q then [⟨.filtered, pos, x⟩] else [])

/-- The visitor that, at point `q`, assigns `x` to row `pos` of `predicted()` and
writes nothing at any other point. -/
def writePredictedAt (q pos : Nat) (x : Scalar) : Unit → TrackStateProxy → Unit × List Write :=
  fun _ v => ((), if v.index = q then [⟨.predicted, pos, x⟩] else [])

/-- The visitor that sets row 0 of `predicted()` to 9 at every point it is called
with. -/
def overwritePredicted : Unit → TrackStateProxy → Unit × List Write :=
  fun _ _ => ((), [⟨.predicted, 0, 9⟩])

/-- A store with two branches sharing a parent: points 1 and 2 are both created
with parent 0. -/
def sharedParentStore : MultiTrajectory :=
  (({} : MultiTrajectory).addPoints [rootCall, childCall, childCall]).2

/-- The arenas hold a column for every point. -/
def ArenasCover (s : MultiTrajectory) : Prop :=
  s.m_index.length ≤ s.m_params.cols ∧ s.m_index.length ≤ s.m_cov.cols

/-- The visitor that records the index of every view it is called with. -/
def collectIndices : List Nat → TrackStateProxy → List Nat :=
  fun acc v => acc ++ [v.index]

/-- The visitor that records every view it is called with. -/
def collectViews : List TrackStateProxy → TrackStateProxy → List TrackStateProxy :=
  fun acc v => acc ++ [v]

/-- Every stored previous link is the sentinel or points to a smaller index. -/
def LinksDecrease (s : MultiTrajectory) : Prop :=
  ∀ (k : Nat) (d : IndexData), s.m_index[k]? = some d → d.iprevious = kInvalid ∨ d.iprevious < k

/-- The chain `p, parent(p), parent(parent(p)), ...` up to a root, where `parents`
lists the parent argument given at the creation of each point (`SIZE_MAX` for none). -/
inductive IsParentChain (parents : List Nat) : Nat → List Nat → Prop where
  | root (p : Nat) : parents[p]? = some SIZE_MAX → IsParentChain parents p [p]
  | step (p q : Nat) (rest : List Nat) : parents[p]? = some q → q ≠ SIZE_MAX →
      IsParentChain parents q rest → IsParentChain parents p (p :: rest)

/-! ## Binning data (`Core/include/Acts/Utilities/BinningData.hpp`)

Conventions of this part. A `float` is an exact rational, and the arithmetic on floats
is exact: it is the arithmetic of the source wherever the result of an operation is a
float again (`representable`), and rounding is not part of the embedding. The value
handed to the two boundary searches over a vector is a `FloatValue`, which also has
not-a-number and the infinities, and whose comparisons with not-a-number are all false. A `size_t` is a natural
number; a subtraction that goes below zero and the increment of a caller-supplied bin
wrap modulo `2 ^ 64` as in the source, while sums and products of bin counts are taken
without wrap (every bin is backed by a stored boundary). An `int` holds the result of a float conversion:
a quotient that is outside the range of `int`, or a division by zero, converts to a
value the embedding leaves unspecified (an argument over which theorems quantify);
the conversion of a bin count to `int` is taken as exact, as the source assumes by
keeping bins in an `int`. -/

/-- Modelled from the spec: the enumeration `BinningType` of `BinningType.hpp`, a
header that is not among the sources; its enumerators are the two `BinningData`
uses. -/
inductive BinningType where
  | equidistant
  | arbitrary
  deriving DecidableEq, Repr

/-- Modelled from the spec: the enumeration `BinningOption` of `BinningType.hpp`, a
header that is not among the sources; its enumerators are the two `BinningData`
uses. -/
inductive BinningOption where
  | «open»
  | closed
  deriving DecidableEq, Repr

/-- A `float` handed to a boundary search as the value to look up: not-a-number, an
infinity, or a finite value, which is an exact rational. -/
inductive FloatValue where
  | nan
  | negInf
  | finite (q : Rat)
  | posInf
  deriving DecidableEq, Repr

namespace FloatValue

/-- The comparison `value <= x` with a finite `x`; false for not-a-number. -/
def le : FloatValue → Rat → Prop
  | nan, _ => False
  | negInf, _ => True
  | finite q, x => q ≤ x
  | posInf, _ => False

/-- The comparison `value >= x` with a finite `x`; false for not-a-number. -/
def ge : FloatValue → Rat → Prop
  | nan, _ => False
  | negInf, _ => False
  | finite q, x => q ≥ x
  | posInf, _ => True

/-- The comparison `value < x`, which is also `x > value`, with a finite `x`; false
for not-a-number. -/
def lt : FloatValue → Rat → Prop
  | nan, _ => False
  | negInf, _ => True
  | finite q, x => q < x
  | posInf, _ => False

/-- The comparison `value == x` with a finite `x`; false for not-a-number. -/
def eq : FloatValue → Rat → Prop
  | nan, _ => False
  | negInf, _ => False
  | finite q, x => q = x
  | posInf, _ => False

instance decidableLe : (value : FloatValue) → (x : Rat) → Decidable (value.le x)
  | nan, _ => isFalse id
  | negInf, _ => isTrue trivial
  | finite q, x => inferInstanceAs (Decidable (q ≤ x))
  | posInf, _ => isFalse id

instance decidableGe : (value : FloatValue) → (x : Rat) → Decidable (value.ge x)
  | nan, _ => isFalse id
  | negInf, _ => isFalse id
  | finite q, x => inferInstanceAs (Decidable (q ≥ x))
  | posInf, _ => isTrue trivial

instance decidableLt : (value : FloatValue) → (x : Rat) → Decidable (value.lt x)
  | nan, _ => isFalse id
  | negInf, _ => isTrue trivial
  | finite q, x => inferInstanceAs (Decidable (q < x))
  | posInf, _ => isFalse id

instance decidableEq : (value : FloatValue) → (x : Rat) → Decidable (value.eq x)
  | nan, _ => isFalse id
  | negInf, _ => isFalse id
  | finite q, x => inferInstanceAs (Decidable (q = x))
  | posInf, _ => isFalse id

end FloatValue

/-- A finite value as a `float`. -/
instance : Coe Rat FloatValue := ⟨FloatValue.finite⟩

/-- A numeral as a `float`. -/
instance {n : Nat} [OfNat Rat n] : OfNat FloatValue n := ⟨FloatValue.finite (OfNat.ofNat n)⟩

/-- A finite value of the type `float` (IEEE binary32): `m * 2 ^ e` for an integer `m`
with `|m| < 2 ^ 24` and an exponent `-149 ≤ e ≤ 104`. An arithmetic operation on floats
whose exact result is such a value returns it, without rounding. -/
def representable (q : Rat) : Bool :=
  (List.range 254).any fun i : Nat =>
    let scaled : Rat := q * ((2 ^ 149 : Nat) : Rat) / ((2 ^ i : Nat) : Rat)
    scaled.den == 1 && scaled.num.natAbs < 16777216

/-- The float operations of the constructor for equidistant binning are exact for the
arguments `bBins`, `bMin`, `bMax`: the arguments, the difference `bMax - bMin`, the
count as a float, the step, and for every `ib` up to `bBins` the float `ib`, the product
`ib * step` and the boundary `bMin + ib * step` are floats; so is `ib * (bMax - bMin)`,
which makes `bMin + ib * (bMax - bMin) / bBins` the same float as the boundary. -/
def exactEquidistant (bBins : Nat) (bMin bMax : Rat) : Bool :=
  let step : Rat := (bMax - bMin) / (bBins : Rat)
  representable bMin && representable bMax && representable (bMax - bMin) &&
  representable (bBins : Rat) && representable step &&
  (List.range (bBins + 1)).all fun ib : Nat =>
    representable (ib : Rat) && representable ((ib : Rat) * step) &&
    representable (bMin + (ib : Rat) * step) && representable ((ib : Rat) * (bMax - bMin))

/-- The float operations of `searchEquidistantWithBoundary` are exact at `value` for
the binning of `bBins` bins from `bMin` to `bMax`: `value`, the difference
`value - min` and its quotient by the step are floats. -/
def exactSearch (bBins : Nat) (bMin bMax value : Rat) : Bool :=
  representable value && representable (value - bMin) &&
  representable ((value - bMin) / ((bMax - bMin) / (bBins : Rat)))

/-- Subtraction of two `size_t`: below zero it wraps modulo `2 ^ 64`. -/
def sizeSub (a b : Nat) : Nat := if b ≤ a then a - b else a + 18446744073709551616 - b

/-- Addition of two `size_t`. -/
def sizeAdd (a b : Nat) : Nat := (a + b) % 18446744073709551616

/-- Conversion of an `int` to `size_t`. -/
def sizeOfInt (i : Int) : Nat := (i % 18446744073709551616).toNat

/-- Truncation of a rational toward zero. -/
def truncate (q : Rat) : Int := if 0 ≤ q then Rat.floor q else -Rat.floor (-q)

/-- The conversion `int(num / den)` of a float quotient: truncation toward zero when
the quotient exists and fits an `int`, an unspecified value otherwise. -/
def quotientToInt (num den : Rat) (unspecified : Rat → Rat → Int) : Int :=
  if den = 0 then unspecified num den
  else if -2147483648 ≤ truncate (num / den) ∧ truncate (num / den) ≤ 2147483647 then
    truncate (num / den)
  else unspecified num den

/-- The data members of a `BinningData` other than `subBinningData` and other than
`binvalue` (which only selects a coordinate in `value()`); `m_functionPtr` is
determined by `type` and `m_bins`. -/
structure BinningFields where
  type : BinningType
  option : BinningOption
  min : Rat
  max : Rat
  step : Rat
  zdim : Bool
  subBinningAdditive : Bool
  m_bins : Nat
  m_boundaries : List Rat
  m_totalBins : Nat
  m_totalBoundaries : List Rat
  deriving DecidableEq, Repr

/-- The class `BinningData`: its data members and, when `subBinningData` is not null,
the sub binning it owns. -/
inductive BinningData where
  | single (fields : BinningFields)
  | withSub (fields : BinningFields) (sub : BinningData)
  deriving DecidableEq, Repr

/-- What a constructor of `BinningData` can end in instead of an object. -/
inductive ConstructionFailure where
  | undefinedBehaviour
  | assertionFailure
  deriving DecidableEq, Repr

namespace BinningData

/-- The data members of the object. -/
def fields : BinningData → BinningFields
  | single f => f
  | withSub f _ => f

/-- The member `subBinningData`. -/
def subBinningData : BinningData → Option BinningData
  | single _ => none
  | withSub _ sub => some sub

/-- An object from its data members and its `subBinningData`. -/
def make (f : BinningFields) : Option BinningData → BinningData
  | none => single f
  | some sub => withSub f sub

/-- The member `bins()`. -/
def bins (self : BinningData) : Nat := self.fields.m_totalBins

/-- The member `boundaries()`. -/
def boundaries (self : BinningData) : List Rat :=
  match self.subBinningData with
  | some _ => self.fields.m_totalBoundaries
  | none => self.fields.m_boundaries

/-- The member `decrement(bin)`: the returned flag and the new value of `bin`. -/
def decrement (self : BinningData) (bin : Nat) : Bool × Nat :=
  let sbin := bin
  let bin1 :=
    if bin > 0 then bin - 1
    else (if self.fields.option = .«open» then bin else sizeSub self.fields.m_bins 1)
  (sbin != bin1, bin1)

/-- The member `increment(bin)`: the returned flag and the new value of `bin`. -/
def increment (self : BinningData) (bin : Nat) : Bool × Nat :=
  let sbin := bin
  let bin1 :=
    if sizeAdd bin 1 < self.fields.m_bins then sizeAdd bin 1
    else (if self.fields.option = .«open» then bin else 0)
  (sbin != bin1, bin1)

/-- The member `neighbourRange(bin)`. -/
def neighbourRange (self : BinningData) (bin : Nat) : List Nat :=
  let dec := self.decrement bin
  let inc := self.increment bin
  if dec.1 && inc.1 then [dec.2, bin, inc.2]
  else if dec.1 || inc.1 then [dec.2, inc.2]
  else [bin]

/-- The static function `searchEquidistantWithBoundary`. The quotient that is converted
to `int` is the exact one, which is the float quotient of the source where the
difference and the quotient are floats (`exactSearch`). -/
def searchEquidistantWithBoundary (value : Rat) (bData : BinningData)
    (unspecified : Rat → Rat → Int) : Nat :=
  let bin : Int := quotientToInt (value - bData.fields.min) bData.fields.step unspecified
  if bData.fields.option = .closed ∧ value < bData.fields.min then sizeSub bData.fields.m_bins 1
  else if bData.fields.option = .closed ∧ value > bData.fields.max then 0
  else
    let bin1 : Int :=
      if bin < 0 then
        (if bData.fields.option = .«open» then 0 else ((sizeSub bData.fields.m_bins 1 : Nat) : Int))
      else bin
    if bin1 ≤ ((sizeSub bData.fields.m_bins 1 : Nat) : Int) then sizeOfInt bin1
    else (if bData.fields.option = .«open» then sizeSub bData.fields.m_bins 1 else 0)

/-- The loop of `searchInVectorWithBoundary`: the iterator walks the boundaries and
`bin` counts them until a boundary greater than `value` is met. -/
def searchInVectorLoop (value : FloatValue) : List Rat → Nat → Nat
  | [], bin => bin
  | x :: rest, bin => if value.lt x then bin else searchInVectorLoop value rest (bin + 1)

/-- The static function `searchInVectorWithBoundary`. The read `m_boundaries[0]` is
unchecked in the source; the only constructor that selects this function asserts that
there are at least two boundaries. -/
def searchInVectorWithBoundary (value : FloatValue) (bData : BinningData) : Nat :=
  if value.le (bData.fields.m_boundaries.getD 0 0) then
    (if bData.fields.option = .closed then sizeSub bData.fields.m_bins 1 else 0)
  else if value.ge bData.fields.max then
    (if bData.fields.option = .closed then 0 else sizeSub bData.fields.m_bins 1)
  else sizeSub (searchInVectorLoop value bData.fields.m_boundaries 0) 1

/-- The loop `while (nabove - nbelow > 1)` of `binarySearchWithBoundary`, run for at
most `fuel` iterations. -/
def binarySearchLoop (value : FloatValue) (boundaries : List Rat) : Nat → Nat → Nat → Nat
  | 0, _, nbelow => sizeSub nbelow 1
  | fuel + 1, nabove, nbelow =>
    if sizeSub nabove nbelow > 1 then
      if value.eq (boundaries.getD (sizeSub ((nabove + nbelow) / 2) 1) 0) then
        sizeSub ((nabove + nbelow) / 2) 1
      else if value.lt (boundaries.getD (sizeSub ((nabove + nbelow) / 2) 1) 0) then
        binarySearchLoop value boundaries fuel ((nabove + nbelow) / 2) nbelow
      else binarySearchLoop value boundaries fuel nabove ((nabove + nbelow) / 2)
    else sizeSub nbelow 1

/-- The static function `binarySearchWithBoundary`. Every iteration of its loop
shrinks `nabove - nbelow`, so as many iterations as there are boundaries suffice
(`binarySearchLoop_fuel` below). -/
def binarySearchWithBoundary (value : FloatValue) (bData : BinningData) : Nat :=
  if value.le (bData.fields.m_boundaries.getD 0 0) then
    (if bData.fields.option = .closed then sizeSub bData.fields.m_bins 1 else 0)
  else if value.ge bData.fields.max then
    (if bData.fields.option = .closed then 0 else sizeSub bData.fields.m_boundaries.length 2)
  else
    binarySearchLoop value bData.fields.m_boundaries bData.fields.m_boundaries.length
      bData.fields.m_boundaries.length 0

/-- The call `(*m_functionPtr)(value, *this)` for a finite `value`: the constructors,
the copy constructor and the assignment all set the pointer from `type` and `m_bins`. -/
def m_functionPtr (self : BinningData) (unspecified : Rat → Rat → Int) (value : Rat) : Nat :=
  match self.fields.type with
  | .equidistant => searchEquidistantWithBoundary value self unspecified
  | .arbitrary =>
    if self.fields.m_bins < 50 then searchInVectorWithBoundary value self
    else binarySearchWithBoundary value self

/-- The member `searchWithSubStructure(value)` of an object whose `subBinningData` is
`sub`; `subSearch` is the call `subBinningData->search`. -/
def searchWithSubStructure (self sub : BinningData) (subSearch : Rat → Nat)
    (unspecified : Rat → Rat → Int) (value : Rat) : Nat :=
  let masterbin := self.m_functionPtr unspecified value
  if self.fields.subBinningAdditive then masterbin + subSearch value
  else
    let gvalue := value - (masterbin : Rat) * (sub.fields.max - sub.fields.min)
    masterbin * sub.bins + subSearch gvalue

/-- The member `search(value)`. -/
def search : BinningData → (Rat → Rat → Int) → Rat → Nat
  | single f, unspecified, value =>
    if f.zdim then 0 else (single f).m_functionPtr unspecified value
  | withSub f sub, unspecified, value =>
    if f.zdim then 0
    else searchWithSubStructure (withSub f sub) sub (search sub unspecified) unspecified value

/-- The loop of the additive branch of `checkSubStructure` over the master
boundaries: a boundary equal to the first sub boundary (within `10e-10`) has the sub
boundaries inserted at the front and the next master boundary skipped; when there is
no next boundary the iterator is incremented past the end. -/
def additiveLoop (sBinMin : Rat) (subBinBoundaries : List Rat) :
    List Rat → List Rat → Except ConstructionFailure (List Rat)
  | [], total => .ok total
  | [x], total =>
    if |x - sBinMin| < 1 / 1000000000 then .error .undefinedBehaviour else .ok (total ++ [x])
  | x :: y :: rest, total =>
    if |x - sBinMin| < 1 / 1000000000 then
      additiveLoop sBinMin subBinBoundaries rest (subBinBoundaries ++ total)
    else additiveLoop sBinMin subBinBoundaries (y :: rest) (total ++ [x])

/-- The member `checkSubStructure()`, run at the end of a constructor on the members
set so far. -/
def checkSubStructure (f : BinningFields) :
    Option BinningData → Except ConstructionFailure BinningFields
  | none => .ok f
  | some sub =>
    if f.subBinningAdditive then
      match sub.boundaries with
      | [] => .error .undefinedBehaviour
      | sBinMin :: subRest =>
        (additiveLoop sBinMin (sBinMin :: subRest) f.m_boundaries []).map (fun total =>
          { f with
            m_totalBins := sizeSub (f.m_bins + sub.bins) 1
            m_totalBoundaries := total.insertionSort (fun a b => a ≤ b) })
    else
      .ok { f with
        m_totalBins := f.m_bins * sub.bins
        m_totalBoundaries :=
          (f.min :: (List.range f.m_bins).flatMap (fun ib : Nat =>
            (sub.boundaries.drop 1).map (fun sb => (ib : Rat) * f.step + sb))).insertionSort
              (fun a b => a ≤ b) }

/-- The constructor for equidistant binning. For `bBins = 0` the step is a float
infinity or NaN, which is outside this embedding (the rational quotient is 0 then). -/
def equidistant (bOption : BinningOption) (bBins : Nat) (bMin bMax : Rat)
    (sBinData : Option BinningData) (sBinAdditive : Bool) :
    Except ConstructionFailure BinningData :=
  (checkSubStructure
    { type := .equidistant, option := bOption, min := bMin, max := bMax,
      step := (bMax - bMin) / (bBins : Rat), zdim := bBins == 1,
      subBinningAdditive := sBinAdditive, m_bins := bBins,
      m_boundaries := (List.range (bBins + 1)).map
        (fun ib : Nat => bMin + (ib : Rat) * ((bMax - bMin) / (bBins : Rat))),
      m_totalBins := bBins, m_totalBoundaries := [] }
    sBinData).map (fun f => make f sBinData)

/-- The constructor for arbitrary binning. -/
def arbitrary (bOption : BinningOption) (bBoundaries : List Rat)
    (sBinData : Option BinningData) : Except ConstructionFailure BinningData :=
  if bBoundaries.length > 1 then
    (checkSubStructure
      { type := .arbitrary, option := bOption, min := bBoundaries.getD 0 0,
        max := bBoundaries.getD (bBoundaries.length - 1) 0, step := 0,
        zdim := bBoundaries.length == 2, subBinningAdditive := true,
        m_bins := sizeSub bBoundaries.length 1, m_boundaries := bBoundaries,
        m_totalBins := sizeSub bBoundaries.length 1, m_totalBoundaries := bBoundaries }
      sBinData).map (fun f => make f sBinData)
  else .error .assertionFailure

/-- The member `center(bin)`: the guard compares `bin` with the number of boundaries,
and the two reads `bvals[bin]` and `bvals[bin + 1]` are unchecked. Under the guard
`bin + 1` does not wrap. -/
def center (self : BinningData) (bin : Nat) : Except Fault Rat :=
  if bin < self.boundaries.length then
    match self.boundaries[bin]?, self.boundaries[bin + 1]? with
    | some lo, some hi => .ok (1 / 2 * (lo + hi))
    | _, _ => .error .undefinedBehaviour
  else .ok 0

end BinningData

/-- Modelled from the spec: a `BoundarySurfaceT<TrackingVolume>` of
`BoundarySurfaceT.hpp`, a header that is not among the sources: the object a pointer of
`boundarySurfaces()` points to, given by its own address and the address of the
surface that `surfaceRepresentation()` refers to. -/
structure BoundarySurfaceT where
  address : Nat
  surfaceRepresentation : Nat
  deriving DecidableEq, Repr

/-- Modelled from the spec: the part of `TrackingVolume` (`TrackingVolume.hpp` is not
among the sources) that `compatibleBoundaries` uses: the vector `boundarySurfaces()`
of shared pointers, none of them null, in its order. -/
structure TrackingVolume where
  boundarySurfaces : List BoundarySurfaceT
  deriving DecidableEq, Repr

namespace TrackingVolume

/-- The loop of `compatibleBoundaries` over `boundarySurfaces()`; `excludeObject` is
the pointer `options.startObject`, `none` when it is null. -/
def compatibleBoundariesLoop (excludeObject : Option Nat) :
    List BoundarySurfaceT → List BoundarySurfaceT → List BoundarySurfaceT
  | [], nonExcludedBoundaries => nonExcludedBoundaries
  | bSurface :: rest, nonExcludedBoundaries =>
    if excludeObject.isSome && (excludeObject == some bSurface.surfaceRepresentation) then
      compatibleBoundariesLoop excludeObject rest nonExcludedBoundaries
    else compatibleBoundariesLoop excludeObject rest (nonExcludedBoundaries ++ [bSurface])

/-- The member template `compatibleBoundaries(parameters, options, corrfnc, sorter)`;
`startObject` reads the member `options.startObject` of the template parameter
`options_t`, and `sorter` is the callable of type `sorter_t`. -/
def compatibleBoundaries {parameters_t options_t corrector_t result_t : Type}
    (self : TrackingVolume) (parameters : parameters_t) (options : options_t)
    (startObject : options_t → Option Nat) (corrfnc : corrector_t)
    (sorter : List BoundarySurfaceT → parameters_t → options_t → corrector_t → result_t) :
    result_t :=
  sorter (compatibleBoundariesLoop (startObject options) self.boundarySurfaces []) parameters
    options corrfnc

end TrackingVolume

end Acts

/-! ## The telescope detector element
(`Examples/Detectors/TelescopeDetector/.../TelescopeDetectorElement.hpp`) -/

namespace ActsExamples.Telescope

open Acts

/-- An `Acts::Transform3`; the element only stores transforms and hands them back. -/
abbrev Transform3 := Nat

/-- The struct `TelescopeDetectorElement::ContextType`; `iov` is an `unsigned int`. -/
structure ContextType where
  iov : Nat := 0
  deriving DecidableEq, Repr

/-- The data members of `TelescopeDetectorElement` that `transform`,
`nominalTransform` and `addAlignedTransform` use; a null pointer is `none`. -/
structure TelescopeDetectorElement where
  m_elementTransform : Option Transform3 := none
  m_alignedTransforms : List (Option Transform3) := []
  deriving DecidableEq, Repr

namespace TelescopeDetectorElement

/-- The member `nominalTransform(gctx)`: `*m_elementTransform`. -/
def nominalTransform (self : TelescopeDetectorElement) (_gctx : ContextType) :
    Except Fault Transform3 :=
  match self.m_elementTransform with
  | some t => .ok t
  | none => .error .undefinedBehaviour

/-- The member `transform(gctx)`, for a geometry context that holds a `ContextType`:
the pointer at `m_alignedTransforms[iov]` is read without a bounds check and
dereferenced without a null check. -/
def transform (self : TelescopeDetectorElement) (gctx : ContextType) : Except Fault Transform3 :=
  if self.m_alignedTransforms.length ≠ 0 then
    match self.m_alignedTransforms[gctx.iov]? with
    | some (some t) => .ok t
    | some none => .error .undefinedBehaviour
    | none => .error .undefinedBehaviour
  else self.nominalTransform gctx

/-- The loop `for (unsigned int ic = cios; ic <= iov; ++ic) push_back(nullptr)` of
`addAlignedTransform`, run for at most `fuel` iterations. -/
def addAlignedTransformLoop (iov : Nat) :
    Nat → Nat → List (Option Transform3) → Option (List (Option Transform3))
  | 0, _, _ => none
  | fuel + 1, ic, transforms =>
    if ic ≤ iov then addAlignedTransformLoop iov fuel ((ic + 1) % 4294967296) (transforms ++ [none])
    else some transforms

/-- The member `addAlignedTransform(alignedTransform, iov)`; `none` when the loop has
not left after `fuel` iterations. -/
def addAlignedTransform (self : TelescopeDetectorElement) (alignedTransform : Option Transform3)
    (iov : Nat) (fuel : Nat) : Option (Except Fault TelescopeDetectorElement) :=
  (addAlignedTransformLoop iov fuel (self.m_alignedTransforms.length % 4294967296)
    self.m_alignedTransforms).map (fun transforms =>
      if iov < transforms.length then
        .ok { self with m_alignedTransforms := transforms.set iov alignedTransform }
      else .error .undefinedBehaviour)

/-- The member `alignedTransforms()`. -/
def alignedTransforms (self : TelescopeDetectorElement) : List (Option Transform3) :=
  self.m_alignedTransforms

end TelescopeDetectorElement

/-- An element with nominal transform 100 and no aligned transform. -/
def nominalElement : TelescopeDetectorElement :=
  { m_elementTransform := some 100, m_alignedTransforms := [] }

/-- The element `nominalElement` after `addAlignedTransform(7, 1)`: the transform 7
for interval of validity 1, a null pointer for interval 0. -/
def alignedAtOne : TelescopeDetectorElement :=
  { m_elementTransform := some 100, m_alignedTransforms := [none, some 7] }

/-- An element that holds 4294967296 aligned transforms, all of them null. -/
def crowdedElement : TelescopeDetectorElement :=
  { m_elementTransform := some 100, m_alignedTransforms := List.replicate 4294967296 none }

end ActsExamples.Telescope

namespace Acts

open detail_lt

/-- A closed binning with three bins of width one. -/
def closedThree : BinningData :=
  .single
    { type := .equidistant, option := .closed, min := 0, max := 3, step := 1, zdim := false,
      subBinningAdditive := false, m_bins := 3, m_boundaries := [0, 1, 2, 3], m_totalBins := 3,
      m_totalBoundaries := [] }

/-- An open binning with three bins of width one. -/
def openThree : BinningData :=
  .single
    { type := .equidistant, option := .«open», min := 0, max := 3, step := 1, zdim := false,
      subBinningAdditive := false, m_bins := 3, m_boundaries := [0, 1, 2, 3], m_totalBins := 3,
      m_totalBoundaries := [] }

/-- The boundaries 0, 1, 3, 6 of three bins of unequal width. -/
def unevenBoundaries : List Rat := [0, 1, 3, 6]

/-- The closed binning that the constructor for arbitrary binning makes of
`unevenBoundaries`. -/
def closedUneven : BinningData :=
  .single
    { type := .arbitrary, option := .closed, min := 0, max := 6, step := 0, zdim := false,
      subBinningAdditive := true, m_bins := 3, m_boundaries := [0, 1, 3, 6], m_totalBins := 3,
      m_totalBoundaries := [0, 1, 3, 6] }

/-- Two bins of width one half on the interval from 0 to 1, as the constructor for
equidistant binning makes them. -/
def halfBins : BinningData :=
  .single
    { type := .equidistant, option := .«open», min := 0, max := 1, step := 1 / 2, zdim := false,
      subBinningAdditive := false, m_bins := 2, m_boundaries := [0, 1 / 2, 1], m_totalBins := 2,
      m_totalBoundaries := [] }

/-- Four closed bins of width one on the interval from 0 to 4, each divided by
`halfBins` (multiplicative sub binning), as the constructor for equidistant binning
makes them. -/
def fourTimesTwo : BinningData :=
  .withSub
    { type := .equidistant, option := .closed, min := 0, max := 4, step := 1, zdim := false,
      subBinningAdditive := false, m_bins := 4, m_boundaries := [0, 1, 2, 3, 4],
      m_totalBins := 8, m_totalBoundaries := [0, 1 / 2, 1, 3 / 2, 2, 5 / 2, 3, 7 / 2, 4] }
    halfBins

/-- A conversion of out-of-range quotients that gives the least `int`. -/
def leastInt : Rat → Rat → Int := fun _ _ => -2147483648

/-- Two closed bins of width one on the interval from 0 to 2, as the constructor for
equidistant binning makes them. -/
def closedTwo : BinningData :=
  .single
    { type := .equidistant, option := .closed, min := 0, max := 2, step := 1, zdim := false,
      subBinningAdditive := false, m_bins := 2, m_boundaries := [0, 1, 2], m_totalBins := 2,
      m_totalBoundaries := [] }

/-- Two bins of width one half on the interval from 1/2 to 3/2, as the constructor for
equidistant binning makes them. -/
def shiftedHalves : BinningData :=
  .single
    { type := .equidistant, option := .«open», min := 1 / 2, max := 3 / 2, step := 1 / 2,
      zdim := false, subBinningAdditive := false, m_bins := 2, m_boundaries := [1 / 2, 1, 3 / 2],
      m_totalBins := 2, m_totalBoundaries := [] }

/-- Two bins of width one on the interval from 0 to 2 with the additive sub binning
`shiftedHalves`, whose first boundary is no boundary of the two bins, as the
constructor for equidistant binning makes them. -/
def misplacedSub : BinningData :=
  .withSub
    { type := .equidistant, option := .«open», min := 0, max := 2, step := 1, zdim := false,
      subBinningAdditive := true, m_bins := 2, m_boundaries := [0, 1, 2], m_totalBins := 3,
      m_totalBoundaries := [0, 1, 2] }
    shiftedHalves

/-- Two bins of width one on the interval from 0 to 2 with the additive sub binning
`halfBins` in place of the first bin, as the constructor for equidistant binning makes
them. -/
def firstBinHalved : BinningData :=
  .withSub
    { type := .equidistant, option := .«open», min := 0, max := 2, step := 1, zdim := false,
      subBinningAdditive := true, m_bins := 2, m_boundaries := [0, 1, 2], m_totalBins := 3,
      m_totalBoundaries := [0, 1 / 2, 1, 2] }
    halfBins

/-- The boundaries 0, 1, 2 of two bins of width one. -/
def twoUnitBoundaries : List Rat := [0, 1, 2]

/-- The closed binning that the constructor for arbitrary binning makes of
`twoUnitBoundaries`. -/
def closedTwoArbitrary : BinningData :=
  .single
    { type := .arbitrary, option := .closed, min := 0, max := 2, step := 0, zdim := false,
      subBinningAdditive := true, m_bins := 2, m_boundaries := [0, 1, 2], m_totalBins := 2,
      m_totalBoundaries := [0, 1, 2] }

/-- The open binning that the constructor for arbitrary binning makes of
`twoUnitBoundaries`. -/
def openTwoArbitrary : BinningData :=
  .single
    { type := .arbitrary, option := .«open», min := 0, max := 2, step := 0, zdim := false,
      subBinningAdditive := true, m_bins := 2, m_boundaries := [0, 1, 2], m_totalBins := 2,
      m_totalBoundaries := [0, 1, 2] }

/-- Two open bins of width one on the interval from 0 to 2, as the constructor for
equidistant binning makes them. -/
def openTwo : BinningData :=
  .single
    { type := .equidistant, option := .«open», min := 0, max := 2, step := 1, zdim := false,
      subBinningAdditive := false, m_bins := 2, m_boundaries := [0, 1, 2], m_totalBins := 2,
      m_totalBoundaries := [] }

/-! ## The growable arena -/

namespace detail_lt.GrowableColumns

variable {Size kSizeIncrement : Nat}

theorem conservativeResize_data_of_le (g : GrowableColumns Size kSizeIncrement) (n : Nat)
    (junk : Junk) (h : g.cols ≤ n) :
    (g.conservativeResize n junk).data =
      g.data ++ (List.range (n - g.data.length)).map
        (fun j => (List.range Size).map (junk (g.data.length + j))) := by
  unfold conservativeResize
  rw [List.take_of_length_le h]

theorem conservativeResize_cols (g : GrowableColumns Size kSizeIncrement) (n : Nat)
    (junk : Junk) (h : g.cols ≤ n) : (g.conservativeResize n junk).cols = n := by
  unfold cols at *
  rw [conservativeResize_data_of_le g n junk h]
  simp
  omega

/-- Growth keeps every existing column. -/
theorem ensureColLoop_prefix (index : Nat) (junk : Junk) (fuel : Nat) :
    ∀ g : GrowableColumns Size kSizeIncrement,
      ∃ extra, (ensureColLoop index junk fuel g).data = g.data ++ extra := by
  induction fuel with
  | zero => intro g; exact ⟨[], by simp [ensureColLoop]⟩
  | succ fuel ih =>
    intro g
    unfold ensureColLoop
    split
    · obtain ⟨extra, he⟩ := ih (g.conservativeResize (g.cols + kSizeIncrement) junk)
      rw [he, conservativeResize_data_of_le g _ junk (Nat.le_add_right _ _)]
      exact ⟨_, List.append_assoc _ _ _⟩
    · exact ⟨[], by simp⟩

/-- With enough fuel the loop leaves by its own condition. -/
theorem ensureColLoop_cols_gt (index : Nat) (junk : Junk) (hk : 0 < kSizeIncrement) (fuel : Nat) :
    ∀ g : GrowableColumns Size kSizeIncrement, index < g.cols + fuel →
      index < (ensureColLoop index junk fuel g).cols := by
  induction fuel with
  | zero => intro g h; simpa [ensureColLoop] using h
  | succ fuel ih =>
    intro g h
    unfold ensureColLoop
    split
    · apply ih
      rw [conservativeResize_cols g _ junk (Nat.le_add_right _ _)]
      omega
    · omega

theorem ensureCol_cols_gt (g : GrowableColumns Size kSizeIncrement) (index : Nat) (junk : Junk)
    (hk : 0 < kSizeIncrement) : index < (g.ensureCol index junk).cols :=
  ensureColLoop_cols_gt index junk hk (index + 1) g (by omega)

theorem ensureCol_prefix (g : GrowableColumns Size kSizeIncrement) (index : Nat) (junk : Junk) :
    ∃ extra, (g.ensureCol index junk).data = g.data ++ extra :=
  ensureColLoop_prefix index junk (index + 1) g

theorem modifyCol_data_length (g : GrowableColumns Size kSizeIncrement) (index : Nat)
    (f : List Scalar → List Scalar) : (g.modifyCol index f).data.length = g.data.length := by
  unfold modifyCol
  split <;> simp

theorem modifyCol_getElem?_self (g : GrowableColumns Size kSizeIncrement) (index : Nat)
    (f : List Scalar → List Scalar) (c : List Scalar) (h : g.data[index]? = some c) :
    (g.modifyCol index f).data[index]? = some (f c) := by
  have hlt : index < g.data.length := (List.getElem?_eq_some.mp h).1
  unfold modifyCol
  rw [h]
  simp [List.getElem?_set, hlt]

theorem modifyCol_getElem?_ne (g : GrowableColumns Size kSizeIncrement) (index j : Nat)
    (f : List Scalar → List Scalar) (h : index ≠ j) :
    (g.modifyCol index f).data[j]? = g.data[j]? := by
  unfold modifyCol
  split
  · simp [List.getElem?_set, h]
  · rfl

/-- After `ensureCol(index).setZero()` column `index` exists and is all zero. -/
theorem setZero_ensureCol_getElem? (g : GrowableColumns Size kSizeIncrement) (index : Nat)
    (junk : Junk) (hk : 0 < kSizeIncrement) :
    ((g.ensureCol index junk).setZero index).data[index]? = some (List.replicate Size 0) := by
  have hlt : index < (g.ensureCol index junk).data.length := ensureCol_cols_gt g index junk hk
  unfold setZero
  exact modifyCol_getElem?_self _ index _ _ (List.getElem?_eq_getElem hlt)

end detail_lt.GrowableColumns

/-! ## One call of `addPoint` -/

namespace MultiTrajectory

variable {nparams : Nat}

theorem addPoint_fst (s : MultiTrajectory) (tp : TrackParametersBase nparams) (iprevious : Nat)
    (jp jc : Junk) : (s.addPoint tp iprevious jp jc).1 = s.m_index.length := by
  simp [addPoint]

theorem addPoint_m_index (s : MultiTrajectory) (c : AddPointCall nparams) :
    (s.afterCall c).m_index = s.m_index ++ [newIndexData c s.m_index.length] := by
  unfold afterCall addPoint newIndexData
  by_cases h : c.iprevious = SIZE_MAX <;> simp [h]

theorem addPoint_m_params (s : MultiTrajectory) (c : AddPointCall nparams) :
    (s.afterCall c).m_params.data[s.m_index.length]? =
      some (assignHead nparams c.trackParameters.parameters (List.replicate ParametersSize 0)) := by
  unfold afterCall addPoint
  exact GrowableColumns.modifyCol_getElem?_self _ _ _ _
    (GrowableColumns.setZero_ensureCol_getElem? _ _ _ (by decide))

theorem addPoint_m_cov (s : MultiTrajectory) (c : AddPointCall nparams) :
    (s.afterCall c).m_cov.data[s.m_index.length]? =
      some (match c.trackParameters.covariance with
        | some cov => assignTopLeftCorner ParametersSize nparams cov
            (List.replicate (ParametersSize * ParametersSize) 0)
        | none => List.replicate (ParametersSize * ParametersSize) 0) := by
  unfold afterCall addPoint
  cases hc : c.trackParameters.covariance with
  | none => exact GrowableColumns.setZero_ensureCol_getElem? _ _ _ (by decide)
  | some cov =>
    exact GrowableColumns.modifyCol_getElem?_self _ _ _ _
      (GrowableColumns.setZero_ensureCol_getElem? _ _ _ (by decide))

theorem addPoint_m_meas (s : MultiTrajectory) (c : AddPointCall nparams) :
    (s.afterCall c).m_meas = s.m_meas ∧ (s.afterCall c).m_measCov = s.m_measCov := by
  simp [afterCall, addPoint]

/-! ## Sequences of calls -/

theorem addPoints_snd_m_index (calls : List (AddPointCall nparams)) :
    ∀ s : MultiTrajectory,
      (s.addPoints calls).2.m_index = s.m_index ++ recordsFrom s.m_index.length calls := by
  induction calls with
  | nil => intro s; simp [addPoints, recordsFrom]
  | cons c cs ih =>
    intro s
    have h1 := addPoint_m_index s c
    unfold afterCall at h1
    simp only [addPoints, recordsFrom]
    rw [ih, h1]
    simp

theorem addPoints_fst (calls : List (AddPointCall nparams)) :
    ∀ s : MultiTrajectory, (s.addPoints calls).1 = List.range' s.m_index.length calls.length := by
  induction calls with
  | nil => intro s; simp [addPoints]
  | cons c cs ih =>
    intro s
    have h1 := addPoint_m_index s c
    unfold afterCall at h1
    simp only [addPoints, List.length_cons, List.range'_succ]
    rw [ih, h1, addPoint_fst]
    simp

theorem recordsFrom_length (calls : List (AddPointCall nparams)) :
    ∀ n, (recordsFrom n calls).length = calls.length := by
  induction calls with
  | nil => intro n; rfl
  | cons c cs ih => intro n; simp [recordsFrom, ih]

theorem recordsFrom_getElem? (calls : List (AddPointCall nparams)) :
    ∀ n k, (recordsFrom n calls)[k]? = (calls[k]?).map (fun c => newIndexData c (n + k)) := by
  induction calls with
  | nil => intro n k; simp [recordsFrom]
  | cons c cs ih =>
    intro n k
    cases k with
    | zero => simp [recordsFrom]
    | succ k =>
      simp only [recordsFrom, List.getElem?_cons_succ]
      rw [ih]
      congr 1
      funext c
      congr 1
      omega

/-- The index of the store built from the empty store by `calls`. -/
theorem addPoints_default_getElem? (calls : List (AddPointCall nparams)) (k : Nat) :
    (({} : MultiTrajectory).addPoints calls).2.m_index[k]? =
      (calls[k]?).map (fun c => newIndexData c k) := by
  rw [addPoints_snd_m_index]
  simp [recordsFrom_getElem?]

theorem addPoints_default_length (calls : List (AddPointCall nparams)) :
    (({} : MultiTrajectory).addPoints calls).2.m_index.length = calls.length := by
  rw [addPoints_snd_m_index]
  simp [recordsFrom_length]

/-- Claim C1: on an initially empty store the k-th `addPoint` call (counting from 0)
returns `k`, so the returned indices are 0, 1, 2, ... without gaps; after the first
`k` calls the index holds `k` records; and every single call, on any store, adds
exactly one index record. -/
theorem addPoint_returns_consecutive_indices (calls : List (AddPointCall nparams)) :
    (({} : MultiTrajectory).addPoints calls).1 = List.range calls.length ∧
    (∀ k, (({} : MultiTrajectory).addPoints (calls.take k)).2.m_index.length
        = min k calls.length) ∧
    (∀ (s : MultiTrajectory) (c : AddPointCall nparams),
        (s.addPoint c.trackParameters c.iprevious c.junkParams c.junkCov).1 = s.m_index.length ∧
        (s.addPoint c.trackParameters c.iprevious c.junkParams c.junkCov).2.m_index.length
          = s.m_index.length + 1) := by
  refine ⟨?_, ?_, ?_⟩
  · rw [addPoints_fst, List.range_eq_range']
    rfl
  · intro k
    rw [addPoints_default_length, List.length_take]
  · intro s c
    refine ⟨addPoint_fst _ _ _ _ _, ?_⟩
    have h := addPoint_m_index s c
    unfold afterCall at h
    rw [h]
    simp

theorem getPoint_eq_ok (s : MultiTrajectory) (i : Nat) (d : IndexData)
    (h : s.m_index[i]? = some d) : s.getPoint i = .ok ⟨s, i, d⟩ := by
  unfold getPoint
  rw [h]

/-- The view of the point a call has just created. -/
theorem addPoint_getPoint (s : MultiTrajectory) (c : AddPointCall nparams) :
    (s.afterCall c).getPoint s.m_index.length =
      .ok ⟨s.afterCall c, s.m_index.length, newIndexData c s.m_index.length⟩ := by
  apply getPoint_eq_ok
  rw [addPoint_m_index]
  exact List.getElem?_concat_length _ _

theorem toUInt16_of_lt (n : Nat) (h : n < 65536) : toUInt16 n = n :=
  Nat.mod_eq_of_lt h

theorem fullStore_length : fullStore.m_index.length = 65535 := by
  unfold fullStore
  rw [addPoints_default_length, List.length_replicate]

/-- Claim C2, counterexample: on a store of 65535 points `addPoint` returns 65535 and
the point it has just created reports `hasPredicted() == false`, because the
predicted slot 65535 narrowed to `uint16_t` is the sentinel `kInvalid`. -/
theorem hasPredicted_false_for_point_65535 :
    (fullStore.addPoint rootCall.trackParameters rootCall.iprevious rootCall.junkParams
        rootCall.junkCov).1 = 65535 ∧
    ((fullStore.afterCall rootCall).getPoint 65535).map TrackStateProxy.hasPredicted
      = .ok false := by
  refine ⟨?_, ?_⟩
  · rw [addPoint_fst, fullStore_length]
  · have h := addPoint_getPoint fullStore rootCall
    rw [fullStore_length] at h
    rw [h]
    rfl

/-- Claim C2, amended: for every `addPoint` call made while the store holds fewer than
65535 points, the view of the returned index exists and its `hasPredicted()` is true. -/
theorem hasPredicted_after_addPoint (s : MultiTrajectory) (c : AddPointCall nparams)
    (hsize : s.m_index.length < 65535) :
    ∃ p, (s.afterCall c).getPoint
          (s.addPoint c.trackParameters c.iprevious c.junkParams c.junkCov).1 = .ok p ∧
      p.hasPredicted = true ∧ p.m_data.ipredicted ≠ UINT16_MAX := by
  refine ⟨_, by rw [addPoint_fst]; exact addPoint_getPoint s c, ?_, ?_⟩
  · have h : toUInt16 s.m_index.length = s.m_index.length := toUInt16_of_lt _ (by omega)
    simp only [TrackStateProxy.hasPredicted, newIndexData, h, kInvalid, UINT16_MAX]
    simp
    omega
  · have h : toUInt16 s.m_index.length = s.m_index.length := toUInt16_of_lt _ (by omega)
    simp only [newIndexData, h, UINT16_MAX]
    omega

/-- Claim C2, witness: the child added to the one-point store of the scenario. -/
theorem hasPredicted_after_addPoint_witness :
    (({} : MultiTrajectory).afterCall rootCall).m_index.length < 65535 ∧
    ∃ p, ((({} : MultiTrajectory).afterCall rootCall).afterCall childCall).getPoint
          ((({} : MultiTrajectory).afterCall rootCall).addPoint childCall.trackParameters
            childCall.iprevious childCall.junkParams childCall.junkCov).1 = .ok p ∧
      p.hasPredicted = true ∧ p.m_data.ipredicted ≠ UINT16_MAX :=
  ⟨by decide, hasPredicted_after_addPoint _ childCall (by decide)⟩

/-- The view `predicted()` of the point a call has just created, in a store of fewer
than 65536 points. -/
theorem addPoint_predicted (s : MultiTrajectory) (c : AddPointCall nparams)
    (hsize : s.m_index.length < 65536) :
    TrackStateProxy.predicted ⟨s.afterCall c, s.m_index.length, newIndexData c s.m_index.length⟩
      = .ok (assignHead nparams c.trackParameters.parameters (List.replicate ParametersSize 0)) := by
  simp only [TrackStateProxy.predicted, newIndexData, toUInt16_of_lt _ hsize,
    GrowableColumns.col]
  rw [addPoint_m_params]

theorem addPoint_predictedCovariance (s : MultiTrajectory) (c : AddPointCall nparams)
    (hsize : s.m_index.length < 65536) :
    TrackStateProxy.predictedCovariance
        ⟨s.afterCall c, s.m_index.length, newIndexData c s.m_index.length⟩
      = .ok ⟨match c.trackParameters.covariance with
        | some cov => assignTopLeftCorner ParametersSize nparams cov
            (List.replicate (ParametersSize * ParametersSize) 0)
        | none => List.replicate (ParametersSize * ParametersSize) 0⟩ := by
  simp only [TrackStateProxy.predictedCovariance, newIndexData, toUInt16_of_lt _ hsize,
    GrowableColumns.col]
  rw [addPoint_m_cov]
  rfl

theorem assignHead_length (n : Nat) (x : Fin n → Scalar) (v : List Scalar) :
    (assignHead n x v).length = v.length := by
  simp [assignHead]

theorem assignHead_getElem? (n : Nat) (x : Fin n → Scalar) (v : List Scalar) (r : Nat)
    (hr : r < v.length) :
    (assignHead n x v)[r]? = some (if h : r < n then x ⟨r, h⟩ else v.getD r 0) := by
  simp [assignHead, List.getElem?_range hr]

theorem assignTopLeftCorner_length (Size n : Nat) (x : Fin n → Fin n → Scalar) (v : List Scalar) :
    (assignTopLeftCorner Size n x v).length = v.length := by
  simp [assignTopLeftCorner]

theorem assignTopLeftCorner_getElem? (Size n : Nat) (x : Fin n → Fin n → Scalar)
    (v : List Scalar) (k : Nat) (hk : k < v.length) :
    (assignTopLeftCorner Size n x v)[k]? =
      some (if h : k % Size < n ∧ k / Size < n then x ⟨k % Size, h.1⟩ ⟨k / Size, h.2⟩
        else v.getD k 0) := by
  simp [assignTopLeftCorner, List.getElem?_range hk]

/-- Claim C3: for every `addPoint` call made while the store holds fewer than 65535
points, with a parameter vector of `nparams <= 6` rows, `predicted()` of the returned
point has 6 rows, its first `nparams` rows are the input vector and all remaining
rows are zero. -/
theorem predicted_is_zero_padded_input (s : MultiTrajectory) (c : AddPointCall nparams)
    (hsize : s.m_index.length < 65535) (hn : nparams ≤ ParametersSize) :
    ∃ p v, (s.afterCall c).getPoint
          (s.addPoint c.trackParameters c.iprevious c.junkParams c.junkCov).1 = .ok p ∧
      p.predicted = .ok v ∧ v.length = ParametersSize ∧
      (∀ r : Fin nparams, v[r.val]? = some (c.trackParameters.parameters r)) ∧
      (∀ r, nparams ≤ r → r < ParametersSize → v[r]? = some 0) := by
  refine ⟨_, _, by rw [addPoint_fst]; exact addPoint_getPoint s c,
    addPoint_predicted s c (by omega), ?_, ?_, ?_⟩
  · rw [assignHead_length, List.length_replicate]
  · intro r
    have hr : r.val < (List.replicate ParametersSize (0 : Scalar)).length := by
      rw [List.length_replicate]; exact lt_of_lt_of_le r.isLt hn
    rw [assignHead_getElem? _ _ _ _ hr]
    simp
  · intro r hr1 hr2
    have hr : r < (List.replicate ParametersSize (0 : Scalar)).length := by
      rw [List.length_replicate]; exact hr2
    rw [assignHead_getElem? _ _ _ _ hr]
    have h1 : ¬ r < nparams := by omega
    simp only [h1, dite_false, List.getD_eq_getElem?_getD, List.getElem?_replicate]
    simp [hr2]

/-- Claim C3, witness: a call with five parameters on a one-point store. -/
theorem predicted_is_zero_padded_input_witness :
    (({} : MultiTrajectory).afterCall rootCall).m_index.length < 65535 ∧ 5 ≤ ParametersSize ∧
    ∃ p v, ((({} : MultiTrajectory).afterCall rootCall).afterCall covCall).getPoint
          ((({} : MultiTrajectory).afterCall rootCall).addPoint covCall.trackParameters
            covCall.iprevious covCall.junkParams covCall.junkCov).1 = .ok p ∧
      p.predicted = .ok v ∧ v.length = ParametersSize ∧
      (∀ r : Fin 5, v[r.val]? = some (covCall.trackParameters.parameters r)) ∧
      (∀ r, 5 ≤ r → r < ParametersSize → v[r]? = some 0) :=
  ⟨by decide, by decide, predicted_is_zero_padded_input _ covCall (by decide) (by decide)⟩

/-- Entry `(i, j)` of a column-major `6 x 6` map lives at flat position `i + 6 * j`. -/
theorem flat_index_facts (i j : Fin ParametersSize) :
    (i.val + ParametersSize * j.val) % ParametersSize = i.val ∧
    (i.val + ParametersSize * j.val) / ParametersSize = j.val ∧
    i.val + ParametersSize * j.val < ParametersSize * ParametersSize := by
  have hi := i.isLt
  have hj := j.isLt
  simp only [ParametersSize] at *
  omega

/-- Claim C4: for every `addPoint` call made while the store holds fewer than 65535
points, `predictedCovariance()` of the returned point is a `6 x 6` map that is all
zero when no covariance is supplied; when a covariance `C` (`nparams x nparams`,
`nparams <= 6`) is supplied, entry `(i, j)` of the map is `C(i, j)` inside the
top-left block and zero outside of it. -/
theorem predictedCovariance_is_zero_padded_input (s : MultiTrajectory) (c : AddPointCall nparams)
    (hsize : s.m_index.length < 65535) (hn : nparams ≤ ParametersSize) :
    ∃ p m, (s.afterCall c).getPoint
          (s.addPoint c.trackParameters c.iprevious c.junkParams c.junkCov).1 = .ok p ∧
      p.predictedCovariance = .ok m ∧
      m.data.length = ParametersSize * ParametersSize ∧
      (c.trackParameters.covariance = none → ∀ i j : Fin ParametersSize, m.coeff i j = 0) ∧
      (∀ C, c.trackParameters.covariance = some C →
        (∀ i j : Fin nparams,
          m.coeff ⟨i.val, lt_of_lt_of_le i.isLt hn⟩ ⟨j.val, lt_of_lt_of_le j.isLt hn⟩ = C i j) ∧
        (∀ i j : Fin ParametersSize, ¬ (i.val < nparams ∧ j.val < nparams) → m.coeff i j = 0)) := by
  refine ⟨_, _, by rw [addPoint_fst]; exact addPoint_getPoint s c,
    addPoint_predictedCovariance s c (by omega), ?_, ?_, ?_⟩
  · cases c.trackParameters.covariance with
    | none => simp
    | some C => simp [assignTopLeftCorner_length]
  · intro hnone i j
    rw [hnone]
    obtain ⟨-, -, h3⟩ := flat_index_facts i j
    simp only [CovarianceMap.coeff, List.getD_eq_getElem?_getD, List.getElem?_replicate]
    simp [h3]
  · intro C hsome
    rw [hsome]
    have key : ∀ i j : Fin ParametersSize,
        (assignTopLeftCorner ParametersSize nparams C
          (List.replicate (ParametersSize * ParametersSize) 0)).getD
            (i.val + ParametersSize * j.val) 0
          = if h : i.val < nparams ∧ j.val < nparams then C ⟨i.val, h.1⟩ ⟨j.val, h.2⟩ else 0 := by
      intro i j
      obtain ⟨h1, h2, h3⟩ := flat_index_facts i j
      have hk : i.val + ParametersSize * j.val
          < (List.replicate (ParametersSize * ParametersSize) (0 : Scalar)).length := by
        rw [List.length_replicate]; exact h3
      rw [List.getD_eq_getElem?_getD, assignTopLeftCorner_getElem? _ _ _ _ _ hk]
      simp only [Option.getD_some, h1, h2]
      split
      · rfl
      · simp only [List.getD_eq_getElem?_getD, List.getElem?_replicate]
        simp [h3]
    refine ⟨?_, ?_⟩
    · intro i j
      have hk := key ⟨i.val, lt_of_lt_of_le i.isLt hn⟩ ⟨j.val, lt_of_lt_of_le j.isLt hn⟩
      simp only [CovarianceMap.coeff]
      rw [hk]
      simp [i.isLt, j.isLt]
    · intro i j hij
      simp only [CovarianceMap.coeff]
      rw [key]
      simp [hij]

/-- Claim C4, witness: a call with a `5 x 5` covariance on a one-point store. -/
theorem predictedCovariance_is_zero_padded_input_witness :
    (({} : MultiTrajectory).afterCall rootCall).m_index.length < 65535 ∧
    ∃ (hn : 5 ≤ ParametersSize),
    ∃ p m, ((({} : MultiTrajectory).afterCall rootCall).afterCall covCall).getPoint
          ((({} : MultiTrajectory).afterCall rootCall).addPoint covCall.trackParameters
            covCall.iprevious covCall.junkParams covCall.junkCov).1 = .ok p ∧
      p.predictedCovariance = .ok m ∧
      m.data.length = ParametersSize * ParametersSize ∧
      (covCall.trackParameters.covariance = none → ∀ i j : Fin ParametersSize, m.coeff i j = 0) ∧
      (∀ C, covCall.trackParameters.covariance = some C →
        (∀ i j : Fin 5,
          m.coeff ⟨i.val, lt_of_lt_of_le i.isLt hn⟩ ⟨j.val, lt_of_lt_of_le j.isLt hn⟩ = C i j) ∧
        (∀ i j : Fin ParametersSize, ¬ (i.val < 5 ∧ j.val < 5) → m.coeff i j = 0)) :=
  ⟨by decide, by decide,
    predictedCovariance_is_zero_padded_input _ covCall (by decide) (by decide)⟩

theorem twoPointStore_length : twoPointStore.m_index.length = 2 := by
  unfold twoPointStore
  rw [addPoints_default_length]
  rfl

/-- Claim C5, counterexample: in the store of the end-to-end scenario (two points)
`getPoint(2)` does not fail with `IndexOutOfRange`: the constructor of the view reads
`m_index[2]` without any check, which is outside the vector. -/
theorem getPoint_past_the_end_is_unchecked :
    twoPointStore.m_index.length = 2 ∧
    twoPointStore.getPoint 2 ≠ .error .IndexOutOfRange ∧
    twoPointStore.getPoint 2 = .error .undefinedBehaviour := by
  have h : twoPointStore.m_index[2]? = none :=
    List.getElem?_eq_none (le_of_eq twoPointStore_length)
  have h2 : twoPointStore.getPoint 2 = .error .undefinedBehaviour := by
    unfold getPoint
    rw [h]
  refine ⟨twoPointStore_length, ?_, h2⟩
  rw [h2]
  intro hne
  cases hne

/-- Claim C5, amended: `getPoint(index)` returns the view bound to index record
`index` whenever `index` is below the number of points; for any other index the
source makes an unchecked access past the end of `m_index`, whose behaviour is
undefined, and in no case is an `IndexOutOfRange` error raised. -/
theorem getPoint_defined_iff_in_range (s : MultiTrajectory) (index : Nat) :
    (s.getPoint index =
      if h : index < s.m_index.length then .ok ⟨s, index, s.m_index[index]⟩
      else .error .undefinedBehaviour) ∧
    ((∃ p, s.getPoint index = .ok p) ↔ index < s.m_index.length) ∧
    s.getPoint index ≠ .error .IndexOutOfRange := by
  by_cases h : index < s.m_index.length
  · have h1 : s.getPoint index = .ok ⟨s, index, s.m_index[index]⟩ :=
      getPoint_eq_ok s index _ (List.getElem?_eq_getElem h)
    refine ⟨by rw [h1]; simp [h], ⟨fun _ => h, fun _ => ⟨_, h1⟩⟩, ?_⟩
    rw [h1]
    intro hne
    cases hne
  · have h0 : s.m_index[index]? = none := List.getElem?_eq_none (by omega)
    have h1 : s.getPoint index = .error .undefinedBehaviour := by
      unfold getPoint
      rw [h0]
    refine ⟨by rw [h1]; simp [h], ⟨?_, fun h2 => absurd h2 h⟩, ?_⟩
    · rintro ⟨p, hp⟩
      rw [h1] at hp
      cases hp
    · rw [h1]
      intro hne
      cases hne

/-- Claim C6, counterexample: on a store whose 16-bit slot capacity is exhausted
(65535 points) `addPoint` does not fail and does not leave the store unchanged: it
returns 65535, appends a record, and that record holds the sentinel as its
predicted slot. -/
theorem addPoint_on_full_store_succeeds :
    fullStore.m_index.length = 65535 ∧
    (fullStore.addPoint rootCall.trackParameters rootCall.iprevious rootCall.junkParams
        rootCall.junkCov).1 = 65535 ∧
    (fullStore.addPoint rootCall.trackParameters rootCall.iprevious rootCall.junkParams
        rootCall.junkCov).2.m_index.length = 65536 ∧
    (fullStore.addPoint rootCall.trackParameters rootCall.iprevious rootCall.junkParams
        rootCall.junkCov).2 ≠ fullStore ∧
    ((fullStore.addPoint rootCall.trackParameters rootCall.iprevious rootCall.junkParams
        rootCall.junkCov).2.m_index[65535]?).map IndexData.ipredicted = some kInvalid := by
  have hi := addPoint_m_index fullStore rootCall
  unfold afterCall at hi
  have hlen : (fullStore.addPoint rootCall.trackParameters rootCall.iprevious
      rootCall.junkParams rootCall.junkCov).2.m_index.length = 65536 := by
    rw [hi, List.length_append, fullStore_length]
    rfl
  refine ⟨fullStore_length, by rw [addPoint_fst, fullStore_length], hlen, ?_, ?_⟩
  · intro heq
    rw [heq, fullStore_length] at hlen
    exact absurd hlen (by decide)
  · have hg := List.getElem?_concat_length fullStore.m_index
      (newIndexData rootCall fullStore.m_index.length)
    rw [← hi, fullStore_length] at hg
    rw [hg]
    rfl

/-- Claim C6, amended: `addPoint` has no failure path. Every call returns the number
of points held before it and appends exactly one index record, whose predicted slot
is that number narrowed to 16 bits; the stored slot is the returned index and differs
from the sentinel exactly when the store held fewer than 65535 points. -/
theorem addPoint_always_succeeds (s : MultiTrajectory) (c : AddPointCall nparams) :
    (s.addPoint c.trackParameters c.iprevious c.junkParams c.junkCov).1 = s.m_index.length ∧
    ∃ r, (s.addPoint c.trackParameters c.iprevious c.junkParams c.junkCov).2.m_index
          = s.m_index ++ [r] ∧
      r.ipredicted = s.m_index.length % 65536 ∧
      ((r.ipredicted = s.m_index.length ∧ r.ipredicted ≠ kInvalid) ↔
        s.m_index.length < 65535) := by
  refine ⟨addPoint_fst _ _ _ _ _, newIndexData c s.m_index.length, addPoint_m_index s c, rfl, ?_⟩
  simp only [newIndexData, toUInt16, kInvalid, UINT16_MAX]
  omega

/-- Claim C9: `parameters()` and `covariance()` follow the priority smoothed, then
filtered, then predicted: they equal `smoothed()` / `smoothedCovariance()` when
`hasSmoothed()`, otherwise `filtered()` / `filteredCovariance()` when `hasFiltered()`,
otherwise `predicted()` / `predictedCovariance()`; in particular with both filtered
and smoothed present they are the smoothed values. -/
theorem parameters_priority (p : TrackStateProxy) :
    (p.parameters =
      if p.hasSmoothed then p.smoothed else if p.hasFiltered then p.filtered else p.predicted) ∧
    (p.covariance =
      if p.hasSmoothed then p.smoothedCovariance
      else if p.hasFiltered then p.filteredCovariance else p.predictedCovariance) ∧
    (p.hasFiltered = true → p.hasSmoothed = true →
      p.parameters = p.smoothed ∧ p.covariance = p.smoothedCovariance) := by
  unfold TrackStateProxy.parameters TrackStateProxy.covariance TrackStateProxy.smoothed
    TrackStateProxy.filtered TrackStateProxy.predicted TrackStateProxy.smoothedCovariance
    TrackStateProxy.filteredCovariance TrackStateProxy.predictedCovariance
  refine ⟨?_, ?_, ?_⟩
  · by_cases hs : p.hasSmoothed = true
    · simp [hs]
    · by_cases hf : p.hasFiltered = true <;> simp [hs, hf]
  · by_cases hs : p.hasSmoothed = true
    · simp [hs]
    · by_cases hf : p.hasFiltered = true <;> simp [hs, hf]
  · intro _ hs
    simp [hs]

/-- Claim C9, witness: a view with filtered and smoothed both present reads the
smoothed column, which differs from the filtered one. -/
theorem parameters_priority_witness :
    bestEstimateView.hasFiltered = true ∧ bestEstimateView.hasSmoothed = true ∧
    (bestEstimateView.parameters = bestEstimateView.smoothed ∧
      bestEstimateView.covariance = bestEstimateView.smoothedCovariance) ∧
    bestEstimateView.parameters = .ok [1, 1, 1, 0, 0, 0] ∧
    bestEstimateView.filtered = .ok [1, 1, 0, 0, 0, 0] ∧
    bestEstimateView.predicted = .ok [1, 0, 0, 0, 0, 0] :=
  ⟨by decide, by decide, (parameters_priority bestEstimateView).2.2 (by decide) (by decide),
    by decide, by decide, by decide⟩

/-- Claim C10: `addPoint` only appends to the index: the index record of every
point `q` that existed before the call (surface, previous link, all five slots,
measurement dimension) is the same after the call, at the same index `q`, and the
number of records grows by one. -/
theorem addPoint_keeps_existing_records (s : MultiTrajectory) (c : AddPointCall nparams)
    (q : Nat) (hq : q < s.m_index.length) :
    (s.addPoint c.trackParameters c.iprevious c.junkParams c.junkCov).2.m_index[q]?
      = s.m_index[q]? ∧
    ((s.addPoint c.trackParameters c.iprevious c.junkParams c.junkCov).2.getPoint q).map
        (fun v => (v.index, v.m_data))
      = (s.getPoint q).map (fun v => (v.index, v.m_data)) ∧
    (∃ v, s.getPoint q = .ok v) ∧
    (s.addPoint c.trackParameters c.iprevious c.junkParams c.junkCov).2.m_index.length
      = s.m_index.length + 1 := by
  have hi := addPoint_m_index s c
  unfold afterCall at hi
  have h0 : s.m_index[q]? = some (s.m_index[q]) := List.getElem?_eq_getElem hq
  have h1 : (s.addPoint c.trackParameters c.iprevious c.junkParams c.junkCov).2.m_index[q]?
      = some (s.m_index[q]) := by
    rw [hi, List.getElem?_append_left hq, h0]
  refine ⟨by rw [h1, h0], ?_, ⟨_, getPoint_eq_ok s q _ h0⟩, by rw [hi]; simp⟩
  rw [getPoint_eq_ok _ q _ h1, getPoint_eq_ok s q _ h0]
  rfl

/-- Claim C10, witness: point 0 of the scenario when its child is added. -/
theorem addPoint_keeps_existing_records_witness :
    0 < (({} : MultiTrajectory).afterCall rootCall).m_index.length ∧
    (((({} : MultiTrajectory).afterCall rootCall).addPoint childCall.trackParameters
        childCall.iprevious childCall.junkParams childCall.junkCov).2.m_index[0]?
      = (({} : MultiTrajectory).afterCall rootCall).m_index[0]? ∧
    (((({} : MultiTrajectory).afterCall rootCall).addPoint childCall.trackParameters
        childCall.iprevious childCall.junkParams childCall.junkCov).2.getPoint 0).map
        (fun v => (v.index, v.m_data))
      = ((({} : MultiTrajectory).afterCall rootCall).getPoint 0).map
        (fun v => (v.index, v.m_data)) ∧
    (∃ v, (({} : MultiTrajectory).afterCall rootCall).getPoint 0 = .ok v) ∧
    ((({} : MultiTrajectory).afterCall rootCall).addPoint childCall.trackParameters
        childCall.iprevious childCall.junkParams childCall.junkCov).2.m_index.length
      = (({} : MultiTrajectory).afterCall rootCall).m_index.length + 1) :=
  ⟨by decide,
    addPoint_keeps_existing_records (({} : MultiTrajectory).afterCall rootCall) childCall 0
      (by decide)⟩

/-! ## Backward traversal -/

theorem visitBackwards_succ {σ : Type} (s : MultiTrajectory) (callable : σ → TrackStateProxy → σ)
    (fuel p : Nat) (acc : σ) (d : IndexData) (h : s.m_index[p]? = some d) :
    s.visitBackwards callable (fuel + 1) p acc =
      if d.iprevious = kInvalid then some (.ok (callable acc ⟨s, p, d⟩))
      else s.visitBackwards callable fuel d.iprevious (callable acc ⟨s, p, d⟩) := by
  rw [visitBackwards, getPoint_eq_ok s p d h]
  simp only [h]

/-- In a store whose links decrease, the traversal from any point `p` leaves its
loop within `p + 1` iterations, at a root, after visiting strictly decreasing
indices. -/
theorem visitBackwards_trace (s : MultiTrajectory) (hdec : LinksDecrease s) (fuel : Nat) :
    ∀ (p : Nat) (acc : List TrackStateProxy), p < s.m_index.length → p < fuel →
      ∃ views : List TrackStateProxy,
        s.visitBackwards collectViews fuel p acc = some (.ok (acc ++ views)) ∧
        views.length ≤ p + 1 ∧
        (∀ v ∈ views, s.getPoint v.index = .ok v ∧ v.index ≤ p) ∧
        views.Pairwise (fun a b => b.index < a.index) ∧
        (∃ v, views.getLast? = some v ∧ v.m_data.iprevious = kInvalid) := by
  induction fuel with
  | zero => intro p acc _ h; omega
  | succ fuel ih =>
    intro p acc hp hfuel
    have hd : s.m_index[p]? = some s.m_index[p] := List.getElem?_eq_getElem hp
    rw [visitBackwards_succ s _ fuel p acc _ hd]
    by_cases hroot : s.m_index[p].iprevious = kInvalid
    · refine ⟨[⟨s, p, s.m_index[p]⟩], by simp [hroot, collectViews], by simp, ?_, by simp,
        ⟨_, rfl, hroot⟩⟩
      intro v hv
      rw [List.mem_singleton] at hv
      subst hv
      exact ⟨getPoint_eq_ok s p _ hd, le_refl _⟩
    · have hlt : s.m_index[p].iprevious < p := (hdec p _ hd).resolve_left hroot
      obtain ⟨views, h1, h2, h3, h4, h5⟩ :=
        ih s.m_index[p].iprevious (collectViews acc ⟨s, p, s.m_index[p]⟩) (by omega) (by omega)
      refine ⟨⟨s, p, s.m_index[p]⟩ :: views, ?_, ?_, ?_, ?_, ?_⟩
      · simp only [hroot, if_false]
        rw [h1]
        simp [collectViews]
      · simp only [List.length_cons]
        omega
      · intro v hv
        rcases List.mem_cons.mp hv with hv | hv
        · subst hv
          exact ⟨getPoint_eq_ok s p _ hd, le_refl _⟩
        · exact ⟨(h3 v hv).1, by have := (h3 v hv).2; omega⟩
      · refine List.pairwise_cons.mpr ⟨?_, h4⟩
        intro v hv
        have := (h3 v hv).2
        show v.index < p
        omega
      · obtain ⟨v, hv1, hv2⟩ := h5
        refine ⟨v, ?_, hv2⟩
        cases views with
        | nil => simp at hv1
        | cons a l => simpa [List.getLast?_cons_cons] using hv1

/-- More fuel than needed does not change the result of a traversal. -/
theorem visitBackwards_fuel_mono {σ : Type} (s : MultiTrajectory)
    (callable : σ → TrackStateProxy → σ) (fuel : Nat) :
    ∀ (p : Nat) (acc : σ) (r : Except Fault σ),
      s.visitBackwards callable fuel p acc = some r →
      ∀ more, s.visitBackwards callable (fuel + more) p acc = some r := by
  induction fuel with
  | zero => intro p acc r h; simp [visitBackwards] at h
  | succ fuel ih =>
    intro p acc r h more
    have hs : fuel + 1 + more = (fuel + more) + 1 := by omega
    rw [hs]
    cases hd : s.m_index[p]? with
    | none =>
      simp only [visitBackwards, getPoint, hd] at h ⊢
      exact h
    | some d =>
      rw [visitBackwards_succ s _ _ p acc d hd] at h ⊢
      by_cases hroot : d.iprevious = kInvalid
      · simpa [hroot] using h
      · simp only [hroot, if_false] at h ⊢
        exact ih _ _ _ h more

/-- The stored links of a store built with parents that are absent or already
created. -/
theorem linksDecrease_of_valid_parents (calls : List (AddPointCall nparams))
    (hvalid : ∀ (k : Nat) (c : AddPointCall nparams), calls[k]? = some c →
      c.iprevious = SIZE_MAX ∨ c.iprevious < k) :
    LinksDecrease (({} : MultiTrajectory).addPoints calls).2 := by
  intro k d hd
  rw [addPoints_default_getElem?] at hd
  cases hc : calls[k]? with
  | none => rw [hc] at hd; cases hd
  | some c =>
    rw [hc] at hd
    have hd2 : newIndexData c k = d := Option.some.inj hd
    subst hd2
    rcases hvalid k c hc with h | h
    · left
      simp [newIndexData, h]
    · by_cases hmax : c.iprevious = SIZE_MAX
      · left
        simp [newIndexData, hmax]
      · right
        simp only [newIndexData, hmax, ne_eq, not_false_eq_true, if_true, toUInt16]
        exact lt_of_le_of_lt (Nat.mod_le _ _) h

/-- The traversal of a store built with valid parents below 65535, for any visitor. -/
theorem visitBackwards_parent_chain_aux {σ : Type} (calls : List (AddPointCall nparams))
    (hvalid : ∀ (k : Nat) (c : AddPointCall nparams), calls[k]? = some c →
      c.iprevious = SIZE_MAX ∨ (c.iprevious < k ∧ c.iprevious < 65535))
    (callable : σ → TrackStateProxy → σ) (fuel : Nat) :
    ∀ (p : Nat) (acc : σ), p < calls.length → p < fuel →
      ∃ views : List TrackStateProxy,
        IsParentChain (calls.map (fun c => c.iprevious)) p (views.map (fun v => v.index)) ∧
        (∀ v ∈ views, (({} : MultiTrajectory).addPoints calls).2.getPoint v.index = .ok v ∧
          v.index ≤ p) ∧
        views.Pairwise (fun a b => b.index < a.index) ∧
        (({} : MultiTrajectory).addPoints calls).2.visitBackwards callable fuel p acc
          = some (.ok (views.foldl callable acc)) ∧
        (∃ v, views.getLast? = some v ∧ v.m_data.iprevious = kInvalid) := by
  induction fuel with
  | zero => intro p acc _ h; omega
  | succ fuel ih =>
    intro p acc hp hfuel
    have hc : calls[p]? = some calls[p] := List.getElem?_eq_getElem hp
    have hd : (({} : MultiTrajectory).addPoints calls).2.m_index[p]?
        = some (newIndexData calls[p] p) := by
      rw [addPoints_default_getElem?, hc]
      rfl
    have hpar : (calls.map (fun c => c.iprevious))[p]? = some calls[p].iprevious := by
      rw [List.getElem?_map, hc]
      rfl
    rw [visitBackwards_succ _ _ fuel p acc _ hd]
    rcases hvalid p _ hc with hroot | ⟨hlt, hsmall⟩
    · have hk : (newIndexData calls[p] p).iprevious = kInvalid := by
        simp [newIndexData, hroot]
      refine ⟨[⟨(({} : MultiTrajectory).addPoints calls).2, p, newIndexData calls[p] p⟩], ?_, ?_, by simp, by simp [hk], ⟨_, rfl, hk⟩⟩
      · exact IsParentChain.root p (by rw [hpar, hroot])
      · intro v hv
        rw [List.mem_singleton] at hv
        subst hv
        exact ⟨getPoint_eq_ok _ p _ hd, le_refl _⟩
    · have hne : calls[p].iprevious ≠ SIZE_MAX := by
        simp only [SIZE_MAX]
        omega
      have hk : (newIndexData calls[p] p).iprevious = calls[p].iprevious := by
        simp only [newIndexData, hne, ne_eq, not_false_eq_true, if_true, toUInt16]
        omega
      have hk2 : (newIndexData calls[p] p).iprevious ≠ kInvalid := by
        rw [hk]
        simp only [kInvalid, UINT16_MAX]
        omega
      obtain ⟨views, h1, h2, h3, h4, h5⟩ :=
        ih calls[p].iprevious (callable acc ⟨(({} : MultiTrajectory).addPoints calls).2, p, newIndexData calls[p] p⟩) (by omega) (by omega)
      refine ⟨⟨(({} : MultiTrajectory).addPoints calls).2, p, newIndexData calls[p] p⟩ :: views, ?_, ?_, ?_, ?_, ?_⟩
      · exact IsParentChain.step p _ _ hpar hne h1
      · intro v hv
        rcases List.mem_cons.mp hv with hv | hv
        · subst hv
          exact ⟨getPoint_eq_ok _ p _ hd, le_refl _⟩
        · exact ⟨(h2 v hv).1, by have := (h2 v hv).2; omega⟩
      · refine List.pairwise_cons.mpr ⟨?_, h3⟩
        intro v hv
        have := (h2 v hv).2
        show v.index < p
        omega
      · rw [if_neg hk2, hk, h4]
        rfl
      · obtain ⟨v, hv1, hv2⟩ := h5
        refine ⟨v, ?_, hv2⟩
        cases views with
        | nil => simp at hv1
        | cons a l => simpa [List.getLast?_cons_cons] using hv1

/-- A store in which the last call names point 65535 as parent: the link is stored
as the sentinel, so the traversal from the last point visits that point only. -/
theorem visitBackwards_parent_65535 {σ : Type} (n : Nat) (c : AddPointCall nparams)
    (first : List (AddPointCall nparams)) (hlen : first.length = n) (hc : c.iprevious = 65535)
    (callable : σ → TrackStateProxy → σ) (fuel : Nat) (acc : σ) :
    ∃ v : TrackStateProxy, v.index = n ∧
      (({} : MultiTrajectory).addPoints (first ++ [c])).2.visitBackwards callable (fuel + 1) n acc
        = some (.ok (callable acc v)) := by
  have hd : (({} : MultiTrajectory).addPoints (first ++ [c])).2.m_index[n]?
      = some (newIndexData c n) := by
    rw [addPoints_default_getElem?, ← hlen, List.getElem?_concat_length]
    rfl
  refine ⟨⟨(({} : MultiTrajectory).addPoints (first ++ [c])).2, n, newIndexData c n⟩, rfl, ?_⟩
  rw [visitBackwards_succ _ _ fuel n acc _ hd]
  have hk : (newIndexData c n).iprevious = kInvalid := by
    simp only [newIndexData, hc]
    rfl
  simp [hk]

/-- Claim C7, counterexample: 65536 roots followed by a point created with parent
65535, the index of an already-created point. The chain of the last point is
`[65536, 65535]`, but `visitBackwards(65536)` calls the visitor on point 65536 only:
the parent 65535 narrowed to `uint16_t` is the sentinel that marks a root. -/
theorem visitBackwards_misses_parent_65535 :
    (∀ (k : Nat) (c : AddPointCall 6),
      (List.replicate 65536 rootCall ++ [lateChildCall])[k]? = some c →
      c.iprevious = SIZE_MAX ∨ c.iprevious < k) ∧
    IsParentChain ((List.replicate 65536 rootCall ++ [lateChildCall]).map (fun c => c.iprevious))
      65536 [65536, 65535] ∧
    (({} : MultiTrajectory).addPoints
      (List.replicate 65536 rootCall ++ [lateChildCall])).2.visitBackwards
        collectIndices 65537 65536 [] = some (.ok [65536]) := by
  have hlen : (List.replicate 65536 rootCall).length = 65536 := List.length_replicate _ _
  have hlast : (List.replicate 65536 rootCall ++ [lateChildCall])[65536]? = some lateChildCall := by
    have h := List.getElem?_concat_length (List.replicate 65536 rootCall) lateChildCall
    rw [hlen] at h
    exact h
  have hfirst : ∀ k, k < 65536 →
      (List.replicate 65536 rootCall ++ [lateChildCall])[k]? = some rootCall := by
    intro k hk
    rw [List.getElem?_append_left (by rw [hlen]; exact hk), List.getElem?_replicate, if_pos hk]
  refine ⟨?_, ?_, ?_⟩
  · intro k c hkc
    by_cases hk : k < 65536
    · rw [hfirst k hk] at hkc
      left
      rw [← Option.some.inj hkc]
      rfl
    · have hk2 : k = 65536 := by
        have hlt : k < (List.replicate 65536 rootCall ++ [lateChildCall]).length :=
          (List.getElem?_eq_some.mp hkc).1
        rw [List.length_append, hlen] at hlt
        simp only [List.length_singleton] at hlt
        omega
      subst hk2
      rw [hlast] at hkc
      right
      rw [← Option.some.inj hkc]
      decide
  · refine IsParentChain.step 65536 65535 [65535] ?_ (by decide) (IsParentChain.root 65535 ?_)
    · rw [List.getElem?_map, hlast]
      rfl
    · rw [List.getElem?_map, hfirst 65535 (by decide)]
      rfl
  · obtain ⟨v, hv, h⟩ := visitBackwards_parent_65535 65536 lateChildCall
      (List.replicate 65536 rootCall) hlen rfl collectIndices 65536 []
    rw [h]
    simp [collectIndices, hv]

/-- Claim C7, amended: in every store built by `addPoint` calls in which each given
parent is absent or the index of an already-created point below 65535, for every
point `p`, visitor and fuel above `p`: `visitBackwards(p, f)` terminates and has
called `f` on exactly the views of the chain `p, parent(p), parent(parent(p)), ...`
in that order, no point twice, and the last point visited is a root. -/
theorem visitBackwards_visits_parent_chain {σ : Type} (calls : List (AddPointCall nparams))
    (hvalid : ∀ (k : Nat) (c : AddPointCall nparams), calls[k]? = some c →
      c.iprevious = SIZE_MAX ∨ (c.iprevious < k ∧ c.iprevious < 65535))
    (p : Nat) (hp : p < calls.length) (callable : σ → TrackStateProxy → σ) (acc : σ)
    (fuel : Nat) (hfuel : p < fuel) :
    ∃ views : List TrackStateProxy,
      IsParentChain (calls.map (fun c => c.iprevious)) p (views.map (fun v => v.index)) ∧
      (views.map (fun v => v.index)).Nodup ∧
      (∀ v ∈ views, (({} : MultiTrajectory).addPoints calls).2.getPoint v.index = .ok v) ∧
      (({} : MultiTrajectory).addPoints calls).2.visitBackwards callable fuel p acc
        = some (.ok (views.foldl callable acc)) ∧
      (∃ v, views.getLast? = some v ∧ v.m_data.iprevious = kInvalid) := by
  obtain ⟨views, h1, h2, h3, h4, h5⟩ :=
    visitBackwards_parent_chain_aux calls hvalid callable fuel p acc hp hfuel
  refine ⟨views, h1, ?_, fun v hv => (h2 v hv).1, h4, h5⟩
  rw [List.Nodup, List.pairwise_map]
  exact h3.imp (fun hlt heq => by omega)

theorem scenario_parents_valid (k : Nat) (c : AddPointCall 6)
    (h : [rootCall, childCall][k]? = some c) :
    c.iprevious = SIZE_MAX ∨ (c.iprevious < k ∧ c.iprevious < 65535) := by
  match k with
  | 0 =>
    have h2 : rootCall = c := Option.some.inj h
    subst h2
    left
    rfl
  | 1 =>
    have h2 : childCall = c := Option.some.inj h
    subst h2
    right
    decide
  | k + 2 => cases h

/-- Claim C7, witness: in the end-to-end scenario `visitBackwards(1)` visits point 1, then point 0. -/
theorem visitBackwards_visits_parent_chain_witness :
    (∀ (k : Nat) (c : AddPointCall 6), [rootCall, childCall][k]? = some c →
      c.iprevious = SIZE_MAX ∨ (c.iprevious < k ∧ c.iprevious < 65535)) ∧
    1 < [rootCall, childCall].length ∧ 1 < 2 ∧
    (∃ views : List TrackStateProxy,
      IsParentChain ([rootCall, childCall].map (fun c => c.iprevious)) 1
        (views.map (fun v => v.index)) ∧
      (views.map (fun v => v.index)).Nodup ∧
      (∀ v ∈ views,
        (({} : MultiTrajectory).addPoints [rootCall, childCall]).2.getPoint v.index = .ok v) ∧
      (({} : MultiTrajectory).addPoints [rootCall, childCall]).2.visitBackwards
          collectIndices 2 1 [] = some (.ok (views.foldl collectIndices [])) ∧
      (∃ v, views.getLast? = some v ∧ v.m_data.iprevious = kInvalid)) ∧
    twoPointStore.visitBackwards collectIndices 2 1 [] = some (.ok [1, 0]) :=
  ⟨scenario_parents_valid, by decide, by decide,
    visitBackwards_visits_parent_chain [rootCall, childCall] scenario_parents_valid 1
      (by decide) collectIndices [] 2 (by decide),
    by decide⟩

theorem visitBackwards_self_parent_diverges {σ : Type} (callable : σ → TrackStateProxy → σ)
    (fuel : Nat) :
    ∀ acc : σ,
      (({} : MultiTrajectory).afterCall selfParentCall).visitBackwards callable fuel 0 acc
        = none := by
  induction fuel with
  | zero => intro acc; rfl
  | succ fuel ih =>
    intro acc
    have hd : (({} : MultiTrajectory).afterCall selfParentCall).m_index[0]?
        = some (newIndexData selfParentCall 0) := by
      rw [addPoint_m_index]
      rfl
    rw [visitBackwards_succ _ _ fuel 0 acc _ hd]
    have hk : (newIndexData selfParentCall 0).iprevious = 0 := by decide
    have hk2 : (newIndexData selfParentCall 0).iprevious ≠ kInvalid := by decide
    rw [if_neg hk2, hk]
    exact ih _

/-- Claim C8, counterexample: `addPoint` accepts the parent argument 0 on the empty
store. The point it creates is point 0 and its previous link is 0: a cycle. Following
previous from point 0 does not reach a root within one step (the number of points),
nor within any number of steps. -/
theorem self_parent_makes_cycle :
    (({} : MultiTrajectory).addPoint selfParentCall.trackParameters selfParentCall.iprevious
        selfParentCall.junkParams selfParentCall.junkCov).1 = 0 ∧
    (({} : MultiTrajectory).afterCall selfParentCall).m_index.length = 1 ∧
    ((({} : MultiTrajectory).afterCall selfParentCall).m_index[0]?).map IndexData.iprevious
      = some 0 ∧
    (({} : MultiTrajectory).afterCall selfParentCall).visitBackwards collectIndices 1 0 []
      = none ∧
    (∀ fuel, (({} : MultiTrajectory).afterCall selfParentCall).visitBackwards
      collectIndices fuel 0 [] = none) :=
  ⟨by decide, by decide, by decide, by decide,
    fun fuel => visitBackwards_self_parent_diverges collectIndices fuel []⟩

/-- Claim C8, amended: in every store built from the empty store by `addPoint` calls
whose parent argument is absent or the index of an already-created point, every
stored previous link is the root mark or a smaller index, and from every point `p`
following previous reaches a root: the traversal run for as many steps as there are
points terminates, visits pairwise distinct (strictly decreasing) points, at most as
many as the store holds, and ends at a point without previous link. -/
theorem previous_links_form_forest (calls : List (AddPointCall nparams))
    (hvalid : ∀ (k : Nat) (c : AddPointCall nparams), calls[k]? = some c →
      c.iprevious = SIZE_MAX ∨ c.iprevious < k)
    (p : Nat) (hp : p < calls.length) :
    (∀ (k : Nat) (d : IndexData),
      (({} : MultiTrajectory).addPoints calls).2.m_index[k]? = some d →
        d.iprevious = kInvalid ∨ d.iprevious < k) ∧
    ∃ views : List TrackStateProxy,
      (({} : MultiTrajectory).addPoints calls).2.visitBackwards collectViews
          (({} : MultiTrajectory).addPoints calls).2.m_index.length p []
        = some (.ok views) ∧
      views.length ≤ (({} : MultiTrajectory).addPoints calls).2.m_index.length ∧
      (∀ v ∈ views, (({} : MultiTrajectory).addPoints calls).2.getPoint v.index = .ok v) ∧
      views.Pairwise (fun a b => b.index < a.index) ∧
      (∃ v, views.getLast? = some v ∧ v.m_data.iprevious = kInvalid) := by
  have hdec := linksDecrease_of_valid_parents calls hvalid
  have hlen := addPoints_default_length calls
  refine ⟨hdec, ?_⟩
  obtain ⟨views, h1, h2, h3, h4, h5⟩ :=
    visitBackwards_trace _ hdec (p + 1) p [] (by rw [hlen]; exact hp) (by omega)
  refine ⟨views, ?_, by rw [hlen]; omega, fun v hv => (h3 v hv).1, h4, h5⟩
  have hm := visitBackwards_fuel_mono _ collectViews (p + 1) p [] _ h1 (calls.length - (p + 1))
  have hs : p + 1 + (calls.length - (p + 1)) = calls.length := by omega
  rw [hs] at hm
  rw [hlen, hm]
  simp

theorem scenario_parents_created (k : Nat) (c : AddPointCall 6)
    (h : [rootCall, childCall][k]? = some c) :
    c.iprevious = SIZE_MAX ∨ c.iprevious < k :=
  (scenario_parents_valid k c h).imp id (fun h2 => h2.1)

/-- Claim C8, witness: the end-to-end scenario, from point 1. -/
theorem previous_links_form_forest_witness :
    (∀ (k : Nat) (c : AddPointCall 6), [rootCall, childCall][k]? = some c →
      c.iprevious = SIZE_MAX ∨ c.iprevious < k) ∧
    1 < [rootCall, childCall].length ∧
    ((∀ (k : Nat) (d : IndexData),
      (({} : MultiTrajectory).addPoints [rootCall, childCall]).2.m_index[k]? = some d →
        d.iprevious = kInvalid ∨ d.iprevious < k) ∧
    ∃ views : List TrackStateProxy,
      (({} : MultiTrajectory).addPoints [rootCall, childCall]).2.visitBackwards collectViews
          (({} : MultiTrajectory).addPoints [rootCall, childCall]).2.m_index.length 1 []
        = some (.ok views) ∧
      views.length ≤ (({} : MultiTrajectory).addPoints [rootCall, childCall]).2.m_index.length ∧
      (∀ v ∈ views,
        (({} : MultiTrajectory).addPoints [rootCall, childCall]).2.getPoint v.index = .ok v) ∧
      views.Pairwise (fun a b => b.index < a.index) ∧
      (∃ v, views.getLast? = some v ∧ v.m_data.iprevious = kInvalid)) :=
  ⟨scenario_parents_created, by decide,
    previous_links_form_forest [rootCall, childCall] scenario_parents_created 1 (by decide)⟩

/-! ## Stored data across later calls -/

theorem afterCall_length (s : MultiTrajectory) (c : AddPointCall nparams) :
    (s.afterCall c).m_index.length = s.m_index.length + 1 := by
  rw [addPoint_m_index]
  simp

theorem addPoints_cons (s : MultiTrajectory) (c : AddPointCall nparams)
    (cs : List (AddPointCall nparams)) :
    (s.addPoints (c :: cs)).2 = ((s.afterCall c).addPoints cs).2 := rfl

/-- A call leaves every other existing column of the parameter arena as it is. -/
theorem afterCall_m_params_other (s : MultiTrajectory) (c : AddPointCall nparams) (j : Nat)
    (hj : j < s.m_params.cols) (hne : j ≠ s.m_index.length) :
    (s.afterCall c).m_params.data[j]? = s.m_params.data[j]? := by
  unfold afterCall addPoint
  simp only [GrowableColumns.setZero]
  rw [GrowableColumns.modifyCol_getElem?_ne _ _ _ _ (Ne.symm hne),
    GrowableColumns.modifyCol_getElem?_ne _ _ _ _ (Ne.symm hne)]
  obtain ⟨extra, he⟩ := GrowableColumns.ensureCol_prefix s.m_params s.m_index.length c.junkParams
  rw [he, List.getElem?_append_left hj]

/-- A call leaves every other existing column of the covariance arena as it is. -/
theorem afterCall_m_cov_other (s : MultiTrajectory) (c : AddPointCall nparams) (j : Nat)
    (hj : j < s.m_cov.cols) (hne : j ≠ s.m_index.length) :
    (s.afterCall c).m_cov.data[j]? = s.m_cov.data[j]? := by
  obtain ⟨extra, he⟩ := GrowableColumns.ensureCol_prefix s.m_cov s.m_index.length c.junkCov
  unfold afterCall addPoint
  simp only [GrowableColumns.setZero]
  cases c.trackParameters.covariance with
  | none =>
    simp only []
    rw [GrowableColumns.modifyCol_getElem?_ne _ _ _ _ (Ne.symm hne), he,
      List.getElem?_append_left hj]
  | some cov =>
    simp only []
    rw [GrowableColumns.modifyCol_getElem?_ne _ _ _ _ (Ne.symm hne),
      GrowableColumns.modifyCol_getElem?_ne _ _ _ _ (Ne.symm hne), he,
      List.getElem?_append_left hj]

theorem afterCall_arenasCover (s : MultiTrajectory) (c : AddPointCall nparams) :
    ArenasCover (s.afterCall c) := by
  have h1 : s.m_index.length < (s.afterCall c).m_params.cols :=
    lt_of_lt_of_le (Nat.lt_succ_self _)
      (Nat.succ_le_of_lt (List.getElem?_eq_some.mp (addPoint_m_params s c)).1)
  have h2 : s.m_index.length < (s.afterCall c).m_cov.cols :=
    lt_of_lt_of_le (Nat.lt_succ_self _)
      (Nat.succ_le_of_lt (List.getElem?_eq_some.mp (addPoint_m_cov s c)).1)
  unfold ArenasCover
  rw [afterCall_length]
  exact ⟨h1, h2⟩

theorem addPoints_arenasCover (calls : List (AddPointCall nparams)) :
    ∀ s : MultiTrajectory, ArenasCover s → ArenasCover (s.addPoints calls).2 := by
  induction calls with
  | nil => intro s h; exact h
  | cons c cs ih =>
    intro s _
    rw [addPoints_cons]
    exact ih _ (afterCall_arenasCover s c)

theorem default_arenasCover : ArenasCover ({} : MultiTrajectory) := by
  unfold ArenasCover
  exact ⟨Nat.zero_le _, Nat.zero_le _⟩

/-- Later calls leave the columns of the points that exist as they are. -/
theorem addPoints_columns_kept (calls : List (AddPointCall nparams)) :
    ∀ (s : MultiTrajectory) (j : Nat), ArenasCover s → j < s.m_index.length →
      (s.addPoints calls).2.m_params.data[j]? = s.m_params.data[j]? ∧
      (s.addPoints calls).2.m_cov.data[j]? = s.m_cov.data[j]? := by
  induction calls with
  | nil => intro s j _ _; exact ⟨rfl, rfl⟩
  | cons c cs ih =>
    intro s j hs hj
    rw [addPoints_cons]
    have h := ih (s.afterCall c) j (afterCall_arenasCover s c)
      (by rw [afterCall_length]; omega)
    rw [h.1, h.2]
    exact ⟨afterCall_m_params_other s c j (lt_of_lt_of_le hj hs.1) (by omega),
      afterCall_m_cov_other s c j (lt_of_lt_of_le hj hs.2) (by omega)⟩

/-- In a store built by a sequence of calls, column `k` of the two arenas holds what
call `k` wrote. -/
theorem addPoints_columns (calls : List (AddPointCall nparams)) :
    ∀ (s : MultiTrajectory) (k : Nat) (c : AddPointCall nparams), ArenasCover s →
      calls[k]? = some c →
      (s.addPoints calls).2.m_params.data[s.m_index.length + k]? =
        some (assignHead nparams c.trackParameters.parameters
          (List.replicate ParametersSize 0)) ∧
      (s.addPoints calls).2.m_cov.data[s.m_index.length + k]? =
        some (match c.trackParameters.covariance with
          | some cov => assignTopLeftCorner ParametersSize nparams cov
              (List.replicate (ParametersSize * ParametersSize) 0)
          | none => List.replicate (ParametersSize * ParametersSize) 0) := by
  induction calls with
  | nil => intro s k c _ h; cases h
  | cons c0 cs ih =>
    intro s k c hs hk
    rw [addPoints_cons]
    cases k with
    | zero =>
      rw [List.getElem?_cons_zero] at hk
      have hc : c0 = c := Option.some.inj hk
      subst hc
      have h := addPoints_columns_kept cs (s.afterCall c0) s.m_index.length
        (afterCall_arenasCover s c0) (by rw [afterCall_length]; omega)
      rw [Nat.add_zero, h.1, h.2]
      exact ⟨addPoint_m_params s c0, addPoint_m_cov s c0⟩
    | succ k =>
      rw [List.getElem?_cons_succ] at hk
      have h := ih (s.afterCall c0) k c (afterCall_arenasCover s c0) hk
      rw [afterCall_length] at h
      have hs2 : s.m_index.length + (k + 1) = s.m_index.length + 1 + k := by omega
      rw [hs2]
      exact h

theorem col_eq_ok {Size kSizeIncrement : Nat} (g : GrowableColumns Size kSizeIncrement)
    (i : Nat) (c : List Scalar) (h : g.data[i]? = some c) : g.col i = .ok c := by
  unfold GrowableColumns.col
  rw [h]

theorem toUInt16_le (n : Nat) : toUInt16 n ≤ n := Nat.mod_le _ _

/-- A call keeps what a view reads through a predicted slot below the number of
points. -/
theorem afterCall_preserves_reads (s : MultiTrajectory) (hcover : ArenasCover s)
    (c : AddPointCall nparams) (q : Nat) (d : IndexData)
    (hslot : d.ipredicted < s.m_index.length) :
    TrackStateProxy.predicted ⟨s, q, d⟩
      = .ok (s.m_params.data.getD d.ipredicted []) ∧
    TrackStateProxy.predicted ⟨s.afterCall c, q, d⟩
      = .ok (s.m_params.data.getD d.ipredicted []) ∧
    TrackStateProxy.predictedCovariance ⟨s, q, d⟩
      = .ok ⟨s.m_cov.data.getD d.ipredicted []⟩ ∧
    TrackStateProxy.predictedCovariance ⟨s.afterCall c, q, d⟩
      = .ok ⟨s.m_cov.data.getD d.ipredicted []⟩ := by
  have hp : d.ipredicted < s.m_params.data.length := lt_of_lt_of_le hslot hcover.1
  have hc : d.ipredicted < s.m_cov.data.length := lt_of_lt_of_le hslot hcover.2
  have h1 : s.m_params.data[d.ipredicted]? = some (s.m_params.data.getD d.ipredicted []) := by
    rw [List.getD_eq_getElem?_getD, List.getElem?_eq_getElem hp]
    rfl
  have h2 : s.m_cov.data[d.ipredicted]? = some (s.m_cov.data.getD d.ipredicted []) := by
    rw [List.getD_eq_getElem?_getD, List.getElem?_eq_getElem hc]
    rfl
  have h3 : (s.afterCall c).m_params.data[d.ipredicted]?
      = some (s.m_params.data.getD d.ipredicted []) := by
    rw [afterCall_m_params_other s c _ hp (by omega)]
    exact h1
  have h4 : (s.afterCall c).m_cov.data[d.ipredicted]?
      = some (s.m_cov.data.getD d.ipredicted []) := by
    rw [afterCall_m_cov_other s c _ hc (by omega)]
    exact h2
  refine ⟨col_eq_ok _ _ _ h1, col_eq_ok _ _ _ h3, ?_, ?_⟩
  · show Except.map CovarianceMap.mk (s.m_cov.col d.ipredicted) = _
    rw [col_eq_ok _ _ _ h2]
    rfl
  · show Except.map CovarianceMap.mk ((s.afterCall c).m_cov.col d.ipredicted) = _
    rw [col_eq_ok _ _ _ h4]
    rfl

/-- Claim C11: for every store built by `addPoint` calls and every point `q` of it, a
further `addPoint` call leaves what `predicted()` and `predictedCovariance()` of `q`
read unchanged, and both reads are defined before and after the call; this holds
whether or not the call grows the arenas (and also beyond 65535 points). -/
theorem addPoint_preserves_predicted (calls : List (AddPointCall nparams))
    (c : AddPointCall nparams) (q : Nat) (hq : q < calls.length) :
    ∃ v w x m,
      (({} : MultiTrajectory).addPoints calls).2.getPoint q = .ok v ∧
      ((({} : MultiTrajectory).addPoints calls).2.addPoint c.trackParameters c.iprevious
        c.junkParams c.junkCov).2.getPoint q = .ok w ∧
      v.predicted = .ok x ∧ w.predicted = .ok x ∧
      v.predictedCovariance = .ok m ∧ w.predictedCovariance = .ok m := by
  have hlen := addPoints_default_length calls
  have hcover := addPoints_arenasCover calls _ default_arenasCover
  have hd : (({} : MultiTrajectory).addPoints calls).2.m_index[q]?
      = some (newIndexData calls[q] q) := by
    rw [addPoints_default_getElem?, List.getElem?_eq_getElem hq]
    rfl
  have hd2 : ((({} : MultiTrajectory).addPoints calls).2.afterCall c).m_index[q]?
      = some (newIndexData calls[q] q) := by
    rw [addPoint_m_index, List.getElem?_append_left (by rw [hlen]; exact hq), hd]
  have hslot : (newIndexData calls[q] q).ipredicted
      < (({} : MultiTrajectory).addPoints calls).2.m_index.length := by
    rw [hlen]
    exact lt_of_le_of_lt (toUInt16_le q) hq
  obtain ⟨h1, h2, h3, h4⟩ := afterCall_preserves_reads _ hcover c q _ hslot
  exact ⟨_, _, _, _, getPoint_eq_ok _ q _ hd, getPoint_eq_ok _ q _ hd2, h1, h2, h3, h4⟩

/-- Claim C11, witness: the ninth call grows both arenas from 8 to 16 columns and
point 3 reads the same parameters before and after it. -/
theorem addPoint_preserves_predicted_witness :
    3 < eightCalls.length ∧
    (∃ v w x m,
      (({} : MultiTrajectory).addPoints eightCalls).2.getPoint 3 = .ok v ∧
      ((({} : MultiTrajectory).addPoints eightCalls).2.addPoint childCall.trackParameters
        childCall.iprevious childCall.junkParams childCall.junkCov).2.getPoint 3 = .ok w ∧
      v.predicted = .ok x ∧ w.predicted = .ok x ∧
      v.predictedCovariance = .ok m ∧ w.predictedCovariance = .ok m) ∧
    (({} : MultiTrajectory).addPoints eightCalls).2.m_params.cols = 8 ∧
    ((({} : MultiTrajectory).addPoints eightCalls).2.afterCall childCall).m_params.cols = 16 ∧
    ((({} : MultiTrajectory).addPoints eightCalls).2.afterCall childCall).m_cov.cols = 16 ∧
    (((({} : MultiTrajectory).addPoints eightCalls).2.afterCall childCall).getPoint 3).bind
      TrackStateProxy.predicted = .ok [1, 1, 0, 0, 0, 0] :=
  ⟨by decide, addPoint_preserves_predicted eightCalls childCall 3 (by decide),
    by decide, by decide, by decide, by decide⟩

/-! ## Slots at and beyond the 16-bit capacity -/

theorem lateCalls_length : lateCalls.length = 65537 := by
  unfold lateCalls
  rw [List.length_append, List.length_replicate]
  rfl

theorem lateCalls_first (k : Nat) (hk : k < 65536) : lateCalls[k]? = some rootCall := by
  unfold lateCalls
  rw [List.getElem?_append_left (by rw [List.length_replicate]; exact hk),
    List.getElem?_replicate, if_pos hk]

theorem lateCalls_last : lateCalls[65536]? = some lateChildCall := by
  have h := List.getElem?_concat_length (List.replicate 65536 rootCall) lateChildCall
  rw [List.length_replicate] at h
  exact h

theorem lateStore_index_first (k : Nat) (hk : k < 65536) :
    lateStore.m_index[k]? = some (newIndexData rootCall k) := by
  unfold lateStore
  rw [addPoints_default_getElem?, lateCalls_first k hk]
  rfl

theorem lateStore_index_last :
    lateStore.m_index[65536]? = some (newIndexData lateChildCall 65536) := by
  unfold lateStore
  rw [addPoints_default_getElem?, lateCalls_last]
  rfl

theorem lateStore_column_first (k : Nat) (hk : k < 65536) :
    lateStore.m_params.data[k]? = some [1, 0, 0, 0, 0, 0] := by
  have h := (addPoints_columns lateCalls ({} : MultiTrajectory) k rootCall default_arenasCover
    (lateCalls_first k hk)).1
  have h0 : ({} : MultiTrajectory).m_index.length + k = k := by
    show 0 + k = k
    omega
  rw [h0] at h
  unfold lateStore
  rw [h]
  rfl

theorem except_bind_ok {ε α β : Type} (a : α) (f : α → Except ε β) :
    (Except.ok a : Except ε α).bind f = f a := rfl

theorem except_map_ok {ε α β : Type} (a : α) (f : α → β) :
    (Except.ok a : Except ε α).map f = .ok (f a) := rfl

theorem predicted_of_view (s : MultiTrajectory) (i slot : Nat) (d : IndexData)
    (x : List Scalar) (hs : d.ipredicted = slot) (hx : s.m_params.data[slot]? = some x) :
    TrackStateProxy.predicted ⟨s, i, d⟩ = .ok x := by
  subst hs
  exact col_eq_ok _ _ _ hx

/-- Claim C12, counterexample: in a store of 65537 points the distinct points 0 and
65536 have the same predicted slot 0, and `predicted()` of point 65536 (created with
`[1,1,0,0,0,0]`) reads the column of point 0, `[1,0,0,0,0,0]`. -/
theorem predicted_slot_aliases_point_0 :
    lateStore.m_index.length = 65537 ∧
    (lateStore.m_index[0]?).map IndexData.ipredicted = some 0 ∧
    (lateStore.m_index[65536]?).map IndexData.ipredicted = some 0 ∧
    (lateStore.getPoint 0).bind TrackStateProxy.predicted = .ok [1, 0, 0, 0, 0, 0] ∧
    (lateStore.getPoint 65536).bind TrackStateProxy.predicted = .ok [1, 0, 0, 0, 0, 0] := by
  refine ⟨?_, ?_, ?_, ?_, ?_⟩
  · unfold lateStore
    rw [addPoints_default_length, lateCalls_length]
  · rw [lateStore_index_first 0 (by decide)]
    rfl
  · rw [lateStore_index_last]
    rfl
  · rw [getPoint_eq_ok _ 0 _ (lateStore_index_first 0 (by decide)), except_bind_ok]
    exact predicted_of_view _ _ 0 _ _ rfl (lateStore_column_first 0 (by decide))
  · rw [getPoint_eq_ok _ 65536 _ lateStore_index_last, except_bind_ok]
    exact predicted_of_view _ _ 0 _ _ rfl (lateStore_column_first 0 (by decide))

/-- Claim C12, amended: in every store built by at most 65536 `addPoint` calls, the
predicted slot of every point is its own index, so two distinct points have distinct
predicted slots. -/
theorem predicted_slots_distinct (calls : List (AddPointCall nparams))
    (hlen : calls.length ≤ 65536) (p q : Nat) (d e : IndexData) (hne : p ≠ q)
    (hp : (({} : MultiTrajectory).addPoints calls).2.m_index[p]? = some d)
    (hq : (({} : MultiTrajectory).addPoints calls).2.m_index[q]? = some e) :
    d.ipredicted = p ∧ e.ipredicted = q ∧ d.ipredicted ≠ e.ipredicted := by
  have key : ∀ (k : Nat) (r : IndexData),
      (({} : MultiTrajectory).addPoints calls).2.m_index[k]? = some r → r.ipredicted = k := by
    intro k r hk
    have hlt : k < calls.length := by
      have := (List.getElem?_eq_some.mp hk).1
      rw [addPoints_default_length] at this
      exact this
    rw [addPoints_default_getElem?, List.getElem?_eq_getElem hlt] at hk
    have hr : newIndexData calls[k] k = r := Option.some.inj hk
    rw [← hr]
    exact toUInt16_of_lt k (by omega)
  have h1 := key p d hp
  have h2 := key q e hq
  exact ⟨h1, h2, by rw [h1, h2]; exact hne⟩

theorem twoPointStore_index_0 :
    (({} : MultiTrajectory).addPoints [rootCall, childCall]).2.m_index[0]?
      = some (newIndexData rootCall 0) := by
  rw [addPoints_default_getElem?]
  rfl

theorem twoPointStore_index_1 :
    (({} : MultiTrajectory).addPoints [rootCall, childCall]).2.m_index[1]?
      = some (newIndexData childCall 1) := by
  rw [addPoints_default_getElem?]
  rfl

/-- Claim C12, witness: the two points of the end-to-end scenario. -/
theorem predicted_slots_distinct_witness :
    [rootCall, childCall].length ≤ 65536 ∧ 0 ≠ 1 ∧
    (({} : MultiTrajectory).addPoints [rootCall, childCall]).2.m_index[0]?
      = some (newIndexData rootCall 0) ∧
    (({} : MultiTrajectory).addPoints [rootCall, childCall]).2.m_index[1]?
      = some (newIndexData childCall 1) ∧
    ((newIndexData rootCall 0).ipredicted = 0 ∧ (newIndexData childCall 1).ipredicted = 1 ∧
      (newIndexData rootCall 0).ipredicted ≠ (newIndexData childCall 1).ipredicted) :=
  ⟨by decide, by decide, twoPointStore_index_0, twoPointStore_index_1,
    predicted_slots_distinct [rootCall, childCall] (by decide) 0 1 _ _ (by decide)
      twoPointStore_index_0 twoPointStore_index_1⟩

/-- Claim C13, counterexample: in a store of 65537 points, point 65535 has been
created with its predicted slot absent (`hasPredicted()` is false), and point 65536,
created with the parent argument 65535, is recorded with the invalid previous link
of a root. -/
theorem addPoint_record_wrong_at_65535 :
    (lateStore.getPoint 65535).map TrackStateProxy.hasPredicted = .ok false ∧
    (lateCalls[65536]?).map (fun c => c.iprevious) = some 65535 ∧
    (lateStore.getPoint 65536).map (fun v => v.m_data.iprevious) = .ok kInvalid := by
  refine ⟨?_, ?_, ?_⟩
  · rw [getPoint_eq_ok _ 65535 _ (lateStore_index_first 65535 (by decide))]
    rfl
  · rw [lateCalls_last]
    rfl
  · rw [getPoint_eq_ok _ 65536 _ lateStore_index_last]
    rfl

/-- Claim C13, amended: every point `k` of every store built by `addPoint` calls has
filtered, smoothed, uncalibrated and calibrated absent and measurement dimension 0
(hence at most `M = 2`); predicted is present, with slot `k`, when `k` is below
65535; the previous link is invalid (root) when no parent was given and is the given
parent when that parent is below 65535. -/
theorem addPoint_record (calls : List (AddPointCall nparams)) (k : Nat)
    (c : AddPointCall nparams) (hc : calls[k]? = some c) :
    ∃ v, (({} : MultiTrajectory).addPoints calls).2.getPoint k = .ok v ∧
      v.hasFiltered = false ∧ v.hasSmoothed = false ∧
      v.hasUncalibrated = false ∧ v.hasCalibrated = false ∧
      v.m_data.measdim = 0 ∧ v.m_data.measdim ≤ MeasurementSizeMax ∧
      (k < 65535 → v.hasPredicted = true ∧ v.m_data.ipredicted = k) ∧
      (c.iprevious = SIZE_MAX → v.m_data.iprevious = kInvalid) ∧
      (c.iprevious < 65535 → v.m_data.iprevious = c.iprevious) := by
  have hd : (({} : MultiTrajectory).addPoints calls).2.m_index[k]? = some (newIndexData c k) := by
    rw [addPoints_default_getElem?, hc]
    rfl
  refine ⟨_, getPoint_eq_ok _ k _ hd, rfl, rfl, rfl, rfl, rfl, Nat.zero_le _, ?_, ?_, ?_⟩
  · intro hk
    have h : toUInt16 k = k := toUInt16_of_lt k (by omega)
    refine ⟨?_, h⟩
    simp only [TrackStateProxy.hasPredicted, newIndexData, h, kInvalid, UINT16_MAX]
    simp
    omega
  · intro h
    simp [newIndexData, h]
  · intro h
    have hne : c.iprevious ≠ SIZE_MAX := by
      simp only [SIZE_MAX]
      omega
    simp only [newIndexData, hne, ne_eq, not_false_eq_true, if_true, toUInt16]
    omega

/-- Claim C13, witness: the child of the end-to-end scenario, created with parent 0. -/
theorem addPoint_record_witness :
    [rootCall, childCall][1]? = some childCall ∧
    ∃ v, (({} : MultiTrajectory).addPoints [rootCall, childCall]).2.getPoint 1 = .ok v ∧
      v.hasFiltered = false ∧ v.hasSmoothed = false ∧
      v.hasUncalibrated = false ∧ v.hasCalibrated = false ∧
      v.m_data.measdim = 0 ∧ v.m_data.measdim ≤ MeasurementSizeMax ∧
      (1 < 65535 → v.hasPredicted = true ∧ v.m_data.ipredicted = 1) ∧
      (childCall.iprevious = SIZE_MAX → v.m_data.iprevious = kInvalid) ∧
      (childCall.iprevious < 65535 → v.m_data.iprevious = childCall.iprevious) :=
  ⟨rfl, addPoint_record [rootCall, childCall] 1 childCall rfl⟩

/-! ## Growth of an arena -/

theorem ensureColLoop_of_lt {Size kSizeIncrement : Nat} (index : Nat) (junk : Junk) (fuel : Nat)
    (g : GrowableColumns Size kSizeIncrement) (h : index < g.cols) :
    GrowableColumns.ensureColLoop index junk fuel g = g := by
  cases fuel with
  | zero => rfl
  | succ fuel =>
    unfold GrowableColumns.ensureColLoop
    rw [if_neg (by omega)]

/-- The number of columns the loop of `ensureCol` ends with, for the increment 8. -/
theorem ensureColLoop_growth {Size : Nat} (index : Nat) (junk : Junk) (fuel : Nat) :
    ∀ g : GrowableColumns Size SizeIncrement, g.cols ≤ index → index < g.cols + fuel →
      ∃ k, 1 ≤ k ∧ (GrowableColumns.ensureColLoop index junk fuel g).cols = g.cols + 8 * k ∧
        g.cols + 8 * (k - 1) ≤ index ∧ index < g.cols + 8 * k := by
  induction fuel with
  | zero => intro g h1 h2; omega
  | succ fuel ih =>
    intro g h1 h2
    have hres : (g.conservativeResize (g.cols + SizeIncrement) junk).cols = g.cols + 8 :=
      GrowableColumns.conservativeResize_cols g _ junk (Nat.le_add_right _ _)
    unfold GrowableColumns.ensureColLoop
    rw [if_pos h1]
    by_cases hdone : index < g.cols + 8
    · rw [ensureColLoop_of_lt index junk fuel _ (by rw [hres]; exact hdone)]
      exact ⟨1, le_refl _, by rw [hres], by omega, by omega⟩
    · obtain ⟨k, hk1, hk2, hk3, hk4⟩ :=
        ih (g.conservativeResize (g.cols + SizeIncrement) junk) (by rw [hres]; omega)
          (by rw [hres]; omega)
      rw [hres] at hk2 hk3 hk4
      exact ⟨k + 1, by omega, by rw [hk2]; omega, by
        have : k + 1 - 1 = (k - 1) + 1 := by omega
        rw [this]
        omega, by omega⟩

/-- Claim C20: for the view of a point, each existence predicate is true exactly
when the corresponding slot reference of the index record differs from the sentinel
`UINT16_MAX`. -/
theorem has_iff_slot_not_invalid (s : MultiTrajectory) (istate : Nat) (d : IndexData)
    (hd : s.m_index[istate]? = some d) :
    ∃ p, s.getPoint istate = .ok p ∧ p.m_data = d ∧
      (p.hasPredicted = true ↔ d.ipredicted ≠ UINT16_MAX) ∧
      (p.hasFiltered = true ↔ d.ifiltered ≠ UINT16_MAX) ∧
      (p.hasSmoothed = true ↔ d.ismoothed ≠ UINT16_MAX) ∧
      (p.hasUncalibrated = true ↔ d.iuncalibrated ≠ UINT16_MAX) ∧
      (p.hasCalibrated = true ↔ d.icalibrated ≠ UINT16_MAX) := by
  refine ⟨_, getPoint_eq_ok s istate d hd, rfl, ?_, ?_, ?_, ?_, ?_⟩ <;>
    simp [TrackStateProxy.hasPredicted, TrackStateProxy.hasFiltered, TrackStateProxy.hasSmoothed,
      TrackStateProxy.hasUncalibrated, TrackStateProxy.hasCalibrated, kInvalid]

/-- Claim C20, witness: point 1 of the end-to-end scenario. -/
theorem has_iff_slot_not_invalid_witness :
    (({} : MultiTrajectory).addPoints [rootCall, childCall]).2.m_index[1]?
      = some (newIndexData childCall 1) ∧
    ∃ p, (({} : MultiTrajectory).addPoints [rootCall, childCall]).2.getPoint 1 = .ok p ∧
      p.m_data = newIndexData childCall 1 ∧
      (p.hasPredicted = true ↔ (newIndexData childCall 1).ipredicted ≠ UINT16_MAX) ∧
      (p.hasFiltered = true ↔ (newIndexData childCall 1).ifiltered ≠ UINT16_MAX) ∧
      (p.hasSmoothed = true ↔ (newIndexData childCall 1).ismoothed ≠ UINT16_MAX) ∧
      (p.hasUncalibrated = true ↔ (newIndexData childCall 1).iuncalibrated ≠ UINT16_MAX) ∧
      (p.hasCalibrated = true ↔ (newIndexData childCall 1).icalibrated ≠ UINT16_MAX) :=
  ⟨twoPointStore_index_1, has_iff_slot_not_invalid _ 1 _ twoPointStore_index_1⟩

/-! ## Effective measurement views -/

theorem head_of_le (v : List Scalar) (d : Nat) (h : d ≤ v.length) :
    head v d = .ok (v.take d) ∧ (v.take d).length = d := by
  unfold head
  rw [if_pos h, List.length_take]
  exact ⟨rfl, Nat.min_eq_left h⟩

theorem topLeftCorner_of_le {Size : Nat} (m : CovarianceMap Size) (d : Nat) (h : d ≤ Size) :
    ∃ ec, m.topLeftCorner d d = .ok ec ∧ ec.length = d ∧
      ∀ (i j : Nat) (hi : i < d) (hj : j < d),
        (ec.getD j []).length = d ∧
        (ec.getD j []).getD i 0
          = m.coeff ⟨i, lt_of_lt_of_le hi h⟩ ⟨j, lt_of_lt_of_le hj h⟩ := by
  refine ⟨_, by unfold CovarianceMap.topLeftCorner; rw [if_pos ⟨h, h⟩], by simp, ?_⟩
  intro i j hi hj
  simp only [List.getD_eq_getElem?_getD, List.getElem?_map, List.getElem?_range hj,
    Option.map_some', Option.getD_some, List.length_map, List.length_range,
    List.getElem?_range hi, CovarianceMap.coeff]
  exact ⟨trivial, trivial⟩

/-- Claim C17: for a view whose measurement dimension `d` is at most `M = 2`:
whenever `calibrated()` (resp. `uncalibrated()`) is a defined column of `M` rows,
`effectiveCalibrated()` (resp. `effectiveUncalibrated()`) is its first `d` rows and
has exactly `d` rows; whenever the full measurement covariance is defined, the
effective covariance has `d` columns of `d` rows and its entry `(i, j)` is entry
`(i, j)` of the full covariance. -/
theorem effective_views_truncate (p : TrackStateProxy)
    (hd : p.m_data.measdim ≤ MeasurementSizeMax) :
    (∀ v, p.calibrated = .ok v → v.length = MeasurementSizeMax →
      p.effectiveCalibrated = .ok (v.take p.m_data.measdim) ∧
      (v.take p.m_data.measdim).length = p.m_data.measdim) ∧
    (∀ v, p.uncalibrated = .ok v → v.length = MeasurementSizeMax →
      p.effectiveUncalibrated = .ok (v.take p.m_data.measdim) ∧
      (v.take p.m_data.measdim).length = p.m_data.measdim) ∧
    (∀ m, p.calibratedCovariance = .ok m →
      ∃ ec, p.effectiveCalibratedCovariance = .ok ec ∧ ec.length = p.m_data.measdim ∧
        ∀ (i j : Nat) (hi : i < p.m_data.measdim) (hj : j < p.m_data.measdim),
          (ec.getD j []).length = p.m_data.measdim ∧
          (ec.getD j []).getD i 0
            = m.coeff ⟨i, lt_of_lt_of_le hi hd⟩ ⟨j, lt_of_lt_of_le hj hd⟩) ∧
    (∀ m, p.uncalibratedCovariance = .ok m →
      ∃ ec, p.effectiveUncalibratedCovariance = .ok ec ∧ ec.length = p.m_data.measdim ∧
        ∀ (i j : Nat) (hi : i < p.m_data.measdim) (hj : j < p.m_data.measdim),
          (ec.getD j []).length = p.m_data.measdim ∧
          (ec.getD j []).getD i 0
            = m.coeff ⟨i, lt_of_lt_of_le hi hd⟩ ⟨j, lt_of_lt_of_le hj hd⟩) := by
  refine ⟨?_, ?_, ?_, ?_⟩
  · intro v hv hlen
    unfold TrackStateProxy.effectiveCalibrated
    rw [hv, except_bind_ok]
    exact head_of_le v _ (by rw [hlen]; exact hd)
  · intro v hv hlen
    unfold TrackStateProxy.effectiveUncalibrated
    rw [hv, except_bind_ok]
    exact head_of_le v _ (by rw [hlen]; exact hd)
  · intro m hm
    unfold TrackStateProxy.effectiveCalibratedCovariance
    rw [hm, except_bind_ok]
    exact topLeftCorner_of_le m _ hd
  · intro m hm
    unfold TrackStateProxy.effectiveUncalibratedCovariance
    rw [hm, except_bind_ok]
    exact topLeftCorner_of_le m _ hd

/-- Claim C17, witness: a view with `d = 1`: the effective views are the first row
and the top-left `1 x 1` block. -/
theorem effective_views_truncate_witness :
    measuredView.m_data.measdim ≤ MeasurementSizeMax ∧
    ∃ (hd : measuredView.m_data.measdim ≤ MeasurementSizeMax),
    ((∀ v, measuredView.calibrated = .ok v → v.length = MeasurementSizeMax →
      measuredView.effectiveCalibrated = .ok (v.take measuredView.m_data.measdim) ∧
      (v.take measuredView.m_data.measdim).length = measuredView.m_data.measdim) ∧
    (∀ v, measuredView.uncalibrated = .ok v → v.length = MeasurementSizeMax →
      measuredView.effectiveUncalibrated = .ok (v.take measuredView.m_data.measdim) ∧
      (v.take measuredView.m_data.measdim).length = measuredView.m_data.measdim) ∧
    (∀ m, measuredView.calibratedCovariance = .ok m →
      ∃ ec, measuredView.effectiveCalibratedCovariance = .ok ec ∧
        ec.length = measuredView.m_data.measdim ∧
        ∀ (i j : Nat) (hi : i < measuredView.m_data.measdim)
          (hj : j < measuredView.m_data.measdim),
          (ec.getD j []).length = measuredView.m_data.measdim ∧
          (ec.getD j []).getD i 0
            = m.coeff ⟨i, lt_of_lt_of_le hi hd⟩ ⟨j, lt_of_lt_of_le hj hd⟩) ∧
    (∀ m, measuredView.uncalibratedCovariance = .ok m →
      ∃ ec, measuredView.effectiveUncalibratedCovariance = .ok ec ∧
        ec.length = measuredView.m_data.measdim ∧
        ∀ (i j : Nat) (hi : i < measuredView.m_data.measdim)
          (hj : j < measuredView.m_data.measdim),
          (ec.getD j []).length = measuredView.m_data.measdim ∧
          (ec.getD j []).getD i 0
            = m.coeff ⟨i, lt_of_lt_of_le hi hd⟩ ⟨j, lt_of_lt_of_le hj hd⟩)) ∧
    measuredView.calibrated = .ok [7, 8] ∧
    measuredView.effectiveCalibrated = .ok [7] ∧
    measuredView.effectiveUncalibrated = .ok [5] ∧
    measuredView.calibratedCovariance = .ok ⟨[11, 12, 13, 14]⟩ ∧
    measuredView.effectiveCalibratedCovariance = .ok [[11]] ∧
    measuredView.effectiveUncalibratedCovariance = .ok [[1]] :=
  ⟨by decide, by decide, effective_views_truncate measuredView (by decide),
    by decide, by decide, by decide, by decide, by decide, by decide⟩

/-! ## Accessing a slot that is not present -/

theorem col_eq_dite {Size kSizeIncrement : Nat} (g : GrowableColumns Size kSizeIncrement)
    (i : Nat) :
    g.col i = if h : i < g.data.length then .ok (g.data[i]) else .error .undefinedBehaviour := by
  unfold GrowableColumns.col
  by_cases h : i < g.data.length
  · rw [List.getElem?_eq_getElem h, dif_pos h]
  · rw [List.getElem?_eq_none (by omega), dif_neg h]

theorem filtered_of_view (s : MultiTrajectory) (i slot : Nat) (d : IndexData)
    (x : List Scalar) (hs : d.ifiltered = slot) (hx : s.m_params.data[slot]? = some x) :
    TrackStateProxy.filtered ⟨s, i, d⟩ = .ok x := by
  subst hs
  exact col_eq_ok _ _ _ hx

theorem slot_of_has_false (x : Nat) (h : (x != kInvalid) = false) : x = 65535 := by
  simpa [kInvalid, UINT16_MAX] using h

/-- Claim C18, counterexample: in a store of 65537 points (the arenas then hold more
than 65535 columns) point 0 has no filtered slot, yet `filtered()` of point 0 does
not fail: it returns `[1,0,0,0,0,0]`, the content of arena column 65535, which is
the column `predicted()` of point 65535 reads. -/
theorem filtered_of_absent_slot_returns_data :
    (lateStore.getPoint 0).map TrackStateProxy.hasFiltered = .ok false ∧
    (lateStore.getPoint 0).bind TrackStateProxy.filtered = .ok [1, 0, 0, 0, 0, 0] ∧
    (lateStore.getPoint 65535).bind TrackStateProxy.predicted = .ok [1, 0, 0, 0, 0, 0] ∧
    (lateStore.getPoint 0).bind TrackStateProxy.filtered ≠ .error .SlotNotPresent := by
  have h0 := getPoint_eq_ok _ 0 _ (lateStore_index_first 0 (by decide))
  have h1 := getPoint_eq_ok _ 65535 _ (lateStore_index_first 65535 (by decide))
  have hcol := lateStore_column_first 65535 (by decide)
  have hf : (lateStore.getPoint 0).bind TrackStateProxy.filtered = .ok [1, 0, 0, 0, 0, 0] := by
    rw [h0, except_bind_ok]
    exact filtered_of_view _ _ 65535 _ _ rfl hcol
  refine ⟨?_, hf, ?_, ?_⟩
  · rw [h0]
    rfl
  · rw [h1, except_bind_ok]
    exact predicted_of_view _ _ 65535 _ _ rfl hcol
  · rw [hf]
    intro h
    cases h

/-- Claim C18, amended: the accessors of the optional slots make no presence check.
For a view whose `hasFiltered` (resp. `hasSmoothed`, `hasUncalibrated`,
`hasCalibrated`) is false, the accessor and its covariance counterpart read column
65535 of their arena without a check: the content of that column when the arena
holds more than 65535 columns, undefined behaviour otherwise; `SlotNotPresent` is
never raised. -/
theorem absent_slot_reads_column_65535 (p : TrackStateProxy) :
    (p.hasFiltered = false →
      p.filtered = p.m_traj.m_params.col 65535 ∧
      p.filteredCovariance = (p.m_traj.m_cov.col 65535).map CovarianceMap.mk) ∧
    (p.hasSmoothed = false →
      p.smoothed = p.m_traj.m_params.col 65535 ∧
      p.smoothedCovariance = (p.m_traj.m_cov.col 65535).map CovarianceMap.mk) ∧
    (p.hasUncalibrated = false →
      p.uncalibrated = p.m_traj.m_meas.col 65535 ∧
      p.uncalibratedCovariance = (p.m_traj.m_measCov.col 65535).map CovarianceMap.mk) ∧
    (p.hasCalibrated = false →
      p.calibrated = p.m_traj.m_meas.col 65535 ∧
      p.calibratedCovariance = (p.m_traj.m_measCov.col 65535).map CovarianceMap.mk) ∧
    (∀ (Size k : Nat) (g : GrowableColumns Size k),
      (g.col 65535 =
        if h : 65535 < g.data.length then .ok (g.data[65535]) else .error .undefinedBehaviour) ∧
      g.col 65535 ≠ .error .SlotNotPresent) := by
  refine ⟨?_, ?_, ?_, ?_, ?_⟩
  · intro h
    have hs := slot_of_has_false _ h
    unfold TrackStateProxy.filtered TrackStateProxy.filteredCovariance
    rw [hs]
    exact ⟨rfl, rfl⟩
  · intro h
    have hs := slot_of_has_false _ h
    unfold TrackStateProxy.smoothed TrackStateProxy.smoothedCovariance
    rw [hs]
    exact ⟨rfl, rfl⟩
  · intro h
    have hs := slot_of_has_false _ h
    unfold TrackStateProxy.uncalibrated TrackStateProxy.uncalibratedCovariance
    rw [hs]
    exact ⟨rfl, rfl⟩
  · intro h
    have hs := slot_of_has_false _ h
    unfold TrackStateProxy.calibrated TrackStateProxy.calibratedCovariance
    rw [hs]
    exact ⟨rfl, rfl⟩
  · intro Size k g
    refine ⟨col_eq_dite g 65535, ?_⟩
    rw [col_eq_dite]
    split <;> intro h <;> cases h

/-- Claim C18, witness: in the two-point scenario the child has no filtered slot
and `filtered()` of it is an unchecked read outside the eight columns of the arena. -/
theorem absent_slot_reads_column_65535_witness :
    (twoPointStore.getPoint 1).map TrackStateProxy.hasFiltered = .ok false ∧
    (twoPointStore.getPoint 1).bind TrackStateProxy.filtered = .error .undefinedBehaviour ∧
    ((⟨twoPointStore, 1, newIndexData childCall 1⟩ : TrackStateProxy).hasFiltered = false →
      (⟨twoPointStore, 1, newIndexData childCall 1⟩ : TrackStateProxy).filtered
        = twoPointStore.m_params.col 65535 ∧
      (⟨twoPointStore, 1, newIndexData childCall 1⟩ : TrackStateProxy).filteredCovariance
        = (twoPointStore.m_cov.col 65535).map CovarianceMap.mk) :=
  ⟨by decide, by decide,
    (absent_slot_reads_column_65535 ⟨twoPointStore, 1, newIndexData childCall 1⟩).1⟩

/-! ## Traversal with writable views -/

theorem writeCoeff_error {Size kSizeIncrement : Nat} (g : GrowableColumns Size kSizeIncrement)
    (slot pos : Nat) (value : Scalar) (e : Fault)
    (h : g.writeCoeff slot pos value = .error e) : e = .undefinedBehaviour := by
  unfold GrowableColumns.writeCoeff at h
  split at h
  · split at h
    · cases h
    · cases h; rfl
  · cases h; rfl

theorem except_map_eq_ok {ε α β : Type} (x : Except ε α) (f : α → β) (b : β)
    (h : x.map f = .ok b) : ∃ a, x = .ok a ∧ f a = b := by
  cases x with
  | error e => cases h
  | ok a => exact ⟨a, rfl, by cases h; rfl⟩

theorem except_map_eq_error {ε α β : Type} (x : Except ε α) (f : α → β) (e : ε)
    (h : x.map f = .error e) : x = .error e := by
  cases x with
  | error e2 => cases h; rfl
  | ok a => cases h

/-- A coefficient write leaves the index as it is. -/
theorem applyWrite_m_index (s s1 : MultiTrajectory) (p : TrackStateProxy) (w : Write)
    (h : s.applyWrite p w = .ok s1) : s1.m_index = s.m_index := by
  unfold applyWrite at h
  split at h <;>
    (obtain ⟨g, -, hg⟩ := except_map_eq_ok _ _ _ h
     rw [← hg])

theorem applyWrite_error (s : MultiTrajectory) (p : TrackStateProxy) (w : Write) (e : Fault)
    (h : s.applyWrite p w = .error e) : e = .undefinedBehaviour := by
  unfold applyWrite at h
  split at h <;> exact writeCoeff_error _ _ _ _ _ (except_map_eq_error _ _ _ h)

theorem applyWrites_m_index (p : TrackStateProxy) (ws : List Write) :
    ∀ s s1 : MultiTrajectory, s.applyWrites p ws = .ok s1 → s1.m_index = s.m_index := by
  induction ws with
  | nil =>
    intro s s1 h
    unfold applyWrites at h
    cases h
    rfl
  | cons w ws ih =>
    intro s s1 h
    unfold applyWrites at h
    cases hw : s.applyWrite p w with
    | error e => rw [hw] at h; cases h
    | ok s2 =>
      rw [hw] at h
      rw [ih s2 s1 h, applyWrite_m_index s s2 p w hw]

theorem applyWrites_error (p : TrackStateProxy) (ws : List Write) :
    ∀ (s : MultiTrajectory) (e : Fault), s.applyWrites p ws = .error e →
      e = .undefinedBehaviour := by
  induction ws with
  | nil =>
    intro s e h
    unfold applyWrites at h
    cases h
  | cons w ws ih =>
    intro s e h
    unfold applyWrites at h
    cases hw : s.applyWrite p w with
    | error e2 =>
      rw [hw] at h
      cases h
      exact applyWrite_error s p w _ hw
    | ok s2 =>
      rw [hw] at h
      exact ih s2 e h

theorem applyBackwards_succ {σ : Type} (callable : σ → TrackStateProxy → σ × List Write)
    (fuel : Nat) (s s1 : MultiTrajectory) (p : Nat) (acc : σ) (d : IndexData)
    (h : s.m_index[p]? = some d)
    (hw : s.applyWrites ⟨s, p, d⟩ (callable acc ⟨s, p, d⟩).2 = .ok s1) :
    s.applyBackwards callable (fuel + 1) p acc =
      if d.iprevious = kInvalid then some (.ok ((callable acc ⟨s, p, d⟩).1, s1))
      else s1.applyBackwards callable fuel d.iprevious (callable acc ⟨s, p, d⟩).1 := by
  have h1 : s1.m_index[p]? = some d := by
    rw [applyWrites_m_index _ _ s s1 hw]
    exact h
  rw [applyBackwards, getPoint_eq_ok s p d h]
  simp only [hw, h1]

theorem applyBackwards_out_of_range {σ : Type} (callable : σ → TrackStateProxy → σ × List Write)
    (fuel : Nat) (s : MultiTrajectory) (p : Nat) (acc : σ) (h : s.m_index[p]? = none) :
    s.applyBackwards callable (fuel + 1) p acc = some (.error .undefinedBehaviour) := by
  rw [applyBackwards]
  simp only [getPoint, h]

theorem visitBackwards_out_of_range {σ : Type} (callable : σ → TrackStateProxy → σ)
    (fuel : Nat) (s : MultiTrajectory) (p : Nat) (acc : σ) (h : s.m_index[p]? = none) :
    s.visitBackwards callable (fuel + 1) p acc = some (.error .undefinedBehaviour) := by
  rw [visitBackwards]
  simp only [getPoint, h]

/-- The traversal that threads the store, run with a visitor that writes nothing. -/
theorem applyBackwards_without_writes {σ : Type} (s : MultiTrajectory)
    (f : σ → TrackStateProxy → σ) (fuel : Nat) :
    ∀ (iendpoint : Nat) (acc : σ),
      s.applyBackwards (fun a v => (f a v, [])) fuel iendpoint acc
        = (s.visitBackwards f fuel iendpoint acc).map (Except.map (fun r => (r, s))) := by
  induction fuel with
  | zero => intro e acc; rfl
  | succ fuel ih =>
    intro e acc
    cases hd : s.m_index[e]? with
    | none =>
      rw [applyBackwards_out_of_range _ _ _ _ _ hd, visitBackwards_out_of_range _ _ _ _ _ hd]
      rfl
    | some d =>
      rw [applyBackwards_succ (fun a v => (f a v, [])) fuel s s e acc d hd rfl,
        visitBackwards_succ s f fuel e acc d hd]
      by_cases hroot : d.iprevious = kInvalid
      · rw [if_pos hroot, if_pos hroot]
        rfl
      · rw [if_neg hroot, if_neg hroot]
        exact ih _ _

/-- Every view the read-only traversal hands out is the view `getPoint` returns on
the store the traversal started with. -/
theorem visitBackwards_views_of_store (s : MultiTrajectory) (fuel : Nat) :
    ∀ (iendpoint : Nat) (acc r : List TrackStateProxy),
      s.visitBackwards collectViews fuel iendpoint acc = some (.ok r) →
      ∃ views, r = acc ++ views ∧ ∀ v ∈ views, s.getPoint v.index = .ok v ∧ v.m_traj = s := by
  induction fuel with
  | zero => intro e acc r h; cases h
  | succ fuel ih =>
    intro e acc r h
    cases hd : s.m_index[e]? with
    | none =>
      rw [visitBackwards_out_of_range _ _ _ _ _ hd] at h
      cases h
    | some d =>
      rw [visitBackwards_succ s _ fuel e acc d hd] at h
      have hv : ∀ v ∈ [(⟨s, e, d⟩ : TrackStateProxy)], s.getPoint v.index = .ok v ∧ v.m_traj = s := by
        intro v hv
        rw [List.mem_singleton] at hv
        subst hv
        exact ⟨getPoint_eq_ok s e d hd, rfl⟩
      by_cases hroot : d.iprevious = kInvalid
      · rw [if_pos hroot] at h
        have hr : collectViews acc ⟨s, e, d⟩ = r := by cases h; rfl
        exact ⟨[⟨s, e, d⟩], hr.symm, hv⟩
      · rw [if_neg hroot] at h
        obtain ⟨views, h1, h2⟩ := ih _ _ _ h
        refine ⟨⟨s, e, d⟩ :: views, ?_, ?_⟩
        · rw [h1]
          simp [collectViews]
        · intro v hmem
          rcases List.mem_cons.mp hmem with hmem | hmem
          · exact hv v (by rw [hmem]; exact List.mem_singleton.mpr rfl)
          · exact h2 v hmem

/-- Claim C14: `visitBackwards` does not mutate the store. Its visitor receives
read-only views and so makes no write; the traversal that threads the store through
the loop, run with such a visitor, yields the result of `visitBackwards` together
with the store it started from, so index records and all four arenas are identical
before and after; and every view handed to the visitor is bound to that store. -/
theorem visitBackwards_does_not_mutate {σ : Type} (s : MultiTrajectory) (iendpoint fuel : Nat)
    (f : σ → TrackStateProxy → σ) (acc : σ) :
    s.applyBackwards (fun a v => (f a v, [])) fuel iendpoint acc
      = (s.visitBackwards f fuel iendpoint acc).map (Except.map (fun r => (r, s))) ∧
    (∀ r s1, s.applyBackwards (fun a v => (f a v, [])) fuel iendpoint acc = some (.ok (r, s1)) →
      s.visitBackwards f fuel iendpoint acc = some (.ok r) ∧
      s1.m_index = s.m_index ∧ s1.m_params = s.m_params ∧ s1.m_cov = s.m_cov ∧
      s1.m_meas = s.m_meas ∧ s1.m_measCov = s.m_measCov) ∧
    (∀ views, s.visitBackwards collectViews fuel iendpoint [] = some (.ok views) →
      ∀ v ∈ views, v.m_traj = s) := by
  have h := applyBackwards_without_writes s f fuel iendpoint acc
  refine ⟨h, ?_, ?_⟩
  · intro r s1 h1
    rw [h] at h1
    cases hv : s.visitBackwards f fuel iendpoint acc with
    | none => rw [hv] at h1; cases h1
    | some x =>
      rw [hv] at h1
      cases x with
      | error e => cases h1
      | ok r0 =>
        have h2 : (r0, s) = (r, s1) := by
          cases h1
          rfl
        cases h2
        exact ⟨rfl, rfl, rfl, rfl, rfl, rfl⟩
  · intro views hviews v hv
    obtain ⟨vs, h1, h2⟩ := visitBackwards_views_of_store s fuel iendpoint [] views hviews
    rw [h1] at hv
    exact (h2 v (by simpa using hv)).2

theorem applyBackwards_write_error {σ : Type} (callable : σ → TrackStateProxy → σ × List Write)
    (fuel : Nat) (s : MultiTrajectory) (p : Nat) (acc : σ) (d : IndexData) (e : Fault)
    (h : s.m_index[p]? = some d)
    (hw : s.applyWrites ⟨s, p, d⟩ (callable acc ⟨s, p, d⟩).2 = .error e) :
    s.applyBackwards callable (fuel + 1) p acc = some (.error e) := by
  rw [applyBackwards, getPoint_eq_ok s p d h]
  simp only [hw]

/-- Writes of the visitor do not change the path of the traversal: unless a write
falls outside the storage, the instrumented traversal records the indices the
read-only traversal visits. -/
theorem applyBackwards_indices_or_fault {σ : Type} (s : MultiTrajectory)
    (g : σ → TrackStateProxy → σ × List Write) (fuel : Nat) :
    ∀ (s1 : MultiTrajectory) (e : Nat) (acc : σ) (tr : List Nat), s1.m_index = s.m_index →
      passedIndices (s1.applyBackwards (traced g) fuel e (acc, tr))
          = s.visitBackwards collectIndices fuel e tr ∨
        s1.applyBackwards (traced g) fuel e (acc, tr) = some (.error .undefinedBehaviour) := by
  induction fuel with
  | zero => intro s1 e acc tr _; left; rfl
  | succ fuel ih =>
    intro s1 e acc tr hidx
    cases hd : s.m_index[e]? with
    | none =>
      right
      exact applyBackwards_out_of_range _ _ _ _ _ (by rw [hidx]; exact hd)
    | some d =>
      have hd1 : s1.m_index[e]? = some d := by rw [hidx]; exact hd
      cases hw : s1.applyWrites ⟨s1, e, d⟩ ((traced g) (acc, tr) ⟨s1, e, d⟩).2 with
      | error x =>
        right
        rw [applyBackwards_write_error _ _ _ _ _ _ x hd1 hw,
          applyWrites_error _ _ _ _ hw]
      | ok s2 =>
        rw [applyBackwards_succ _ fuel s1 s2 e (acc, tr) d hd1 hw,
          visitBackwards_succ s _ fuel e tr d hd]
        by_cases hroot : d.iprevious = kInvalid
        · left
          rw [if_pos hroot, if_pos hroot]
          rfl
        · rw [if_neg hroot, if_neg hroot]
          exact ih s2 _ _ _ (by rw [applyWrites_m_index _ _ s1 s2 hw]; exact hidx)

theorem set_set_length (data : List (List Scalar)) (slot pos : Nat) (value : Scalar)
    (c : List Scalar) (h : data[slot]? = some c) (j : Nat) :
    ((data.set slot (c.set pos value))[j]?).map List.length = (data[j]?).map List.length := by
  rw [List.getElem?_set]
  by_cases hj : slot = j
  · subst hj
    have hlt : slot < data.length := (List.getElem?_eq_some.mp h).1
    simp [hlt, h]
  · simp [hj]

theorem writeCoeff_inBounds {Size kSizeIncrement : Nat} (g : GrowableColumns Size kSizeIncrement)
    (slot pos : Nat) (value : Scalar) (n : Nat)
    (h : (g.data[slot]?).map List.length = some n) (hpos : pos < n) :
    ∃ g2 : GrowableColumns Size kSizeIncrement, g.writeCoeff slot pos value = .ok g2 ∧
      ∀ j : Nat, (g2.data[j]?).map List.length = (g.data[j]?).map List.length := by
  cases hc : g.data[slot]? with
  | none => rw [hc] at h; cases h
  | some c =>
    rw [hc] at h
    have hn : c.length = n := Option.some.inj h
    refine ⟨⟨g.data.set slot (c.set pos value)⟩, ?_, set_set_length g.data slot pos value c hc⟩
    unfold GrowableColumns.writeCoeff
    rw [hc]
    simp only []
    rw [if_pos (by omega)]

/-- A write that addresses an existing coefficient succeeds and keeps the index and
the shape of all arenas. -/
theorem applyWrite_inBounds (s s1 : MultiTrajectory) (v : TrackStateProxy) (w : Write)
    (hshape : ∀ a j, colLength s1 a j = colLength s a j) (hb : w.InBounds s v) :
    ∃ s2, s1.applyWrite v w = .ok s2 ∧ ∀ a j, colLength s2 a j = colLength s a j := by
  obtain ⟨n, hn, hpos⟩ := hb
  rw [← hshape] at hn
  unfold applyWrite
  cases hA : w.accessor.arena with
  | params =>
    rw [hA] at hn
    obtain ⟨g2, hg, hlen⟩ := writeCoeff_inBounds s1.m_params _ w.pos w.value n hn hpos
    refine ⟨{ s1 with m_params := g2 }, by simp only [hg]; rfl, ?_⟩
    intro a j
    rw [← hshape]
    cases a
    · exact hlen j
    · rfl
    · rfl
    · rfl
  | cov =>
    rw [hA] at hn
    obtain ⟨g2, hg, hlen⟩ := writeCoeff_inBounds s1.m_cov _ w.pos w.value n hn hpos
    refine ⟨{ s1 with m_cov := g2 }, by simp only [hg]; rfl, ?_⟩
    intro a j
    rw [← hshape]
    cases a
    · rfl
    · exact hlen j
    · rfl
    · rfl
  | meas =>
    rw [hA] at hn
    obtain ⟨g2, hg, hlen⟩ := writeCoeff_inBounds s1.m_meas _ w.pos w.value n hn hpos
    refine ⟨{ s1 with m_meas := g2 }, by simp only [hg]; rfl, ?_⟩
    intro a j
    rw [← hshape]
    cases a
    · rfl
    · rfl
    · exact hlen j
    · rfl
  | measCov =>
    rw [hA] at hn
    obtain ⟨g2, hg, hlen⟩ := writeCoeff_inBounds s1.m_measCov _ w.pos w.value n hn hpos
    refine ⟨{ s1 with m_measCov := g2 }, by simp only [hg]; rfl, ?_⟩
    intro a j
    rw [← hshape]
    cases a
    · rfl
    · rfl
    · rfl
    · exact hlen j

theorem applyWrites_inBounds (s : MultiTrajectory) (v : TrackStateProxy) (ws : List Write) :
    ∀ s1 : MultiTrajectory, (∀ a j, colLength s1 a j = colLength s a j) →
      (∀ w ∈ ws, w.InBounds s v) →
      ∃ s2, s1.applyWrites v ws = .ok s2 ∧ ∀ a j, colLength s2 a j = colLength s a j := by
  induction ws with
  | nil => intro s1 h _; exact ⟨s1, rfl, h⟩
  | cons w ws ih =>
    intro s1 h hb
    obtain ⟨s2, h1, h2⟩ := applyWrite_inBounds s s1 v w h (hb w (List.mem_cons_self _ _))
    obtain ⟨s3, h3, h4⟩ := ih s2 h2 (fun w2 hw2 => hb w2 (List.mem_cons_of_mem _ hw2))
    refine ⟨s3, ?_, h4⟩
    unfold applyWrites
    rw [h1]
    exact h3

/-- With a visitor whose writes address existing coefficients, the instrumented
traversal records exactly the indices the read-only traversal visits. -/
theorem applyBackwards_indices_inBounds {σ : Type} (s : MultiTrajectory)
    (g : σ → TrackStateProxy → σ × List Write)
    (hb : ∀ (a : σ) (v : TrackStateProxy), ∀ w ∈ (g a v).2, w.InBounds s v) (fuel : Nat) :
    ∀ (s1 : MultiTrajectory) (e : Nat) (acc : σ) (tr : List Nat), s1.m_index = s.m_index →
      (∀ a j, colLength s1 a j = colLength s a j) →
      passedIndices (s1.applyBackwards (traced g) fuel e (acc, tr))
        = s.visitBackwards collectIndices fuel e tr := by
  induction fuel with
  | zero => intro s1 e acc tr _ _; rfl
  | succ fuel ih =>
    intro s1 e acc tr hidx hshape
    cases hd : s.m_index[e]? with
    | none =>
      rw [applyBackwards_out_of_range _ _ _ _ _ (by rw [hidx]; exact hd),
        visitBackwards_out_of_range _ _ _ _ _ hd]
      rfl
    | some d =>
      have hd1 : s1.m_index[e]? = some d := by rw [hidx]; exact hd
      obtain ⟨s2, hw, hshape2⟩ := applyWrites_inBounds s ⟨s1, e, d⟩
        ((traced g) (acc, tr) ⟨s1, e, d⟩).2 s1 hshape (hb acc ⟨s1, e, d⟩)
      rw [applyBackwards_succ _ fuel s1 s2 e (acc, tr) d hd1 hw,
        visitBackwards_succ s _ fuel e tr d hd]
      by_cases hroot : d.iprevious = kInvalid
      · rw [if_pos hroot, if_pos hroot]
        rfl
      · rw [if_neg hroot, if_neg hroot]
        exact ih s2 _ _ _ (by rw [applyWrites_m_index _ _ s1 s2 hw]; exact hidx) hshape2

/-- Claim C15: `applyBackwards` performs the traversal of `visitBackwards`. For every
store, endpoint, visitor and fuel, the indices passed to the visitor by
`applyBackwards` are the indices `visitBackwards` visits from the same endpoint, in
the same order (both traversals also run out of fuel together and both are undefined
for an endpoint outside the index), unless a write of the visitor falls outside the
storage, which is undefined behaviour; with a visitor whose writes all address
existing coefficients the two sequences are equal without exception. -/
theorem applyBackwards_same_traversal {σ : Type} (s : MultiTrajectory) (iendpoint fuel : Nat)
    (g : σ → TrackStateProxy → σ × List Write) (acc : σ) :
    (passedIndices (s.applyBackwards (traced g) fuel iendpoint (acc, []))
        = s.visitBackwards collectIndices fuel iendpoint [] ∨
      s.applyBackwards (traced g) fuel iendpoint (acc, []) = some (.error .undefinedBehaviour)) ∧
    ((∀ (a : σ) (v : TrackStateProxy), ∀ w ∈ (g a v).2, w.InBounds s v) →
      passedIndices (s.applyBackwards (traced g) fuel iendpoint (acc, []))
        = s.visitBackwards collectIndices fuel iendpoint []) :=
  ⟨applyBackwards_indices_or_fault s g fuel s iendpoint acc [] rfl,
    fun hb => applyBackwards_indices_inBounds s g hb fuel s iendpoint acc [] rfl
      (fun _ _ => rfl)⟩

theorem markPredicted_inBounds (a : Unit) (v : TrackStateProxy) :
    ∀ w ∈ (markPredicted a v).2, w.InBounds twoPointStore v := by
  intro w hw
  unfold markPredicted at hw
  by_cases h : v.m_data.ipredicted < 2
  · simp only [h, if_true, List.mem_singleton] at hw
    subst hw
    refine ⟨6, ?_, by decide⟩
    show colLength twoPointStore .params v.m_data.ipredicted = some 6
    have h2 : v.m_data.ipredicted = 0 ∨ v.m_data.ipredicted = 1 := by omega
    rcases h2 with h2 | h2 <;> rw [h2] <;> decide
  · simp only [h, if_false] at hw
    cases hw

/-- Claim C15, witness: in the end-to-end scenario a visitor that overwrites row 0
of the predicted parameters is passed the points 1 and 0, as `visitBackwards` is, and
its writes are in the store afterwards. -/
theorem applyBackwards_same_traversal_witness :
    (∀ (a : Unit) (v : TrackStateProxy), ∀ w ∈ (markPredicted a v).2,
      w.InBounds twoPointStore v) ∧
    passedIndices (twoPointStore.applyBackwards (traced markPredicted) 2 1 ((), []))
      = twoPointStore.visitBackwards collectIndices 2 1 [] ∧
    twoPointStore.visitBackwards collectIndices 2 1 [] = some (.ok [1, 0]) ∧
    (twoPointStore.applyBackwards markPredicted 2 1 ()).map
        (Except.map (fun r => (r.2.getPoint 0).bind TrackStateProxy.predicted))
      = some (.ok (.ok [9, 0, 0, 0, 0, 0])) :=
  ⟨markPredicted_inBounds,
    (applyBackwards_same_traversal twoPointStore 1 2 markPredicted ()).2 markPredicted_inBounds,
    by decide, by decide⟩

/-! ## Branch sharing -/

/-- In a store whose links decrease the read-only traversal visits its endpoint
first. -/
theorem visitBackwards_trace_head (s : MultiTrajectory) (hdec : LinksDecrease s)
    (fuel p : Nat) (acc : List TrackStateProxy) (d : IndexData)
    (hd : s.m_index[p]? = some d) (hfuel : p < fuel) :
    ∃ rest, s.visitBackwards collectViews fuel p acc = some (.ok (acc ++ ⟨s, p, d⟩ :: rest)) := by
  cases fuel with
  | zero => omega
  | succ fuel =>
    have hp : p < s.m_index.length := (List.getElem?_eq_some.mp hd).1
    rw [visitBackwards_succ s _ fuel p acc d hd]
    by_cases hroot : d.iprevious = kInvalid
    · exact ⟨[], by rw [if_pos hroot]; rfl⟩
    · have hlt : d.iprevious < p := (hdec p d hd).resolve_left hroot
      obtain ⟨views, h1, -⟩ :=
        visitBackwards_trace s hdec fuel d.iprevious (collectViews acc ⟨s, p, d⟩)
          (by omega) (by omega)
      refine ⟨views, ?_⟩
      rw [if_neg hroot, h1]
      simp [collectViews]

/-- Below the point `q` the visitor `writePredictedAt q` writes nothing, so the
traversal returns the store it was given. -/
theorem applyBackwards_writePredictedAt_below (q pos : Nat) (x : Scalar) (t : MultiTrajectory)
    (hdec : LinksDecrease t) (fuel : Nat) :
    ∀ e : Nat, e < q → e < t.m_index.length → e < fuel →
      t.applyBackwards (writePredictedAt q pos x) fuel e () = some (.ok ((), t)) := by
  induction fuel with
  | zero => intro e _ _ h; omega
  | succ fuel ih =>
    intro e heq hlen hfuel
    have hd : t.m_index[e]? = some t.m_index[e] := List.getElem?_eq_getElem hlen
    have hw : t.applyWrites ⟨t, e, t.m_index[e]⟩
        ((writePredictedAt q pos x) () ⟨t, e, t.m_index[e]⟩).2 = .ok t := by
      have hne : ¬ e = q := by omega
      simp only [writePredictedAt, TrackStateProxy.index, hne, if_false]
      rfl
    rw [applyBackwards_succ _ fuel t t e () _ hd hw]
    by_cases hroot : t.m_index[e].iprevious = kInvalid
    · rw [if_pos hroot]
    · have hlt : t.m_index[e].iprevious < e := (hdec e _ hd).resolve_left hroot
      rw [if_neg hroot]
      exact ih _ (by omega) (by omega) (by omega)

/-- In a store whose previous links decrease, let `p1` and `p2` both have the parent
`q`, whose predicted slot is the allocated column `colp`. A visitor of `applyBackwards`
started at `p1` that assigns `x` to row `pos` of `predicted()` at `q` leaves a store in
which `getPoint(q).predicted()` is `colp` with row `pos` replaced, and the read-only
traversal started at `p2` reads that column at `q`. -/
theorem predicted_write_visible (s : MultiTrajectory) (hdec : LinksDecrease s)
    (p1 p2 q pos : Nat) (x : Scalar) (d1 d2 dq : IndexData) (colp : List Scalar)
    (h1 : s.m_index[p1]? = some d1) (h1q : d1.iprevious = q)
    (h2 : s.m_index[p2]? = some d2) (h2q : d2.iprevious = q)
    (hqv : q ≠ kInvalid) (hq : s.m_index[q]? = some dq)
    (hf : s.m_params.data[dq.ipredicted]? = some colp) (hpos : pos < colp.length) :
    ∃ s1, s.applyBackwards (writePredictedAt q pos x) (p1 + 1) p1 () = some (.ok ((), s1)) ∧
      (s1.getPoint q).bind TrackStateProxy.predicted = .ok (colp.set pos x) ∧
      (colp.set pos x)[pos]? = some x ∧
      ∃ views, s1.visitBackwards collectViews (p2 + 1) p2 [] = some (.ok views) ∧
        ∃ v ∈ views, v.index = q ∧ v.predicted = .ok (colp.set pos x) := by
  have hq1 : q < p1 := (hdec p1 d1 h1).resolve_left (by rw [h1q]; exact hqv) |> (h1q ▸ ·)
  have hq2 : q < p2 := (hdec p2 d2 h2).resolve_left (by rw [h2q]; exact hqv) |> (h2q ▸ ·)
  have hqlen : q < s.m_index.length := (List.getElem?_eq_some.mp hq).1
  have hslot : dq.ipredicted < s.m_params.data.length := (List.getElem?_eq_some.mp hf).1
  -- the store after the write
  let s1 : MultiTrajectory :=
    { s with m_params := ⟨s.m_params.data.set dq.ipredicted (colp.set pos x)⟩ }
  have hidx : s1.m_index = s.m_index := rfl
  have hdec1 : LinksDecrease s1 := hdec
  have hcol : s1.m_params.data[dq.ipredicted]? = some (colp.set pos x) := by
    show (s.m_params.data.set dq.ipredicted (colp.set pos x))[dq.ipredicted]? = _
    rw [List.getElem?_set]
    simp [hslot]
  have hpred : TrackStateProxy.predicted ⟨s1, q, dq⟩ = .ok (colp.set pos x) :=
    predicted_of_view s1 q dq.ipredicted dq _ rfl hcol
  -- first iteration: point p1, no write
  have hw1 : s.applyWrites ⟨s, p1, d1⟩ ((writePredictedAt q pos x) () ⟨s, p1, d1⟩).2
      = .ok s := by
    have hne : ¬ p1 = q := by omega
    simp only [writePredictedAt, TrackStateProxy.index, hne, if_false]
    rfl
  -- second iteration: point q, the write
  have hw2 : s.applyWrites ⟨s, q, dq⟩ ((writePredictedAt q pos x) () ⟨s, q, dq⟩).2
      = .ok s1 := by
    simp only [writePredictedAt, TrackStateProxy.index, if_true]
    simp only [applyWrites, applyWrite, Accessor.arena, Accessor.slot,
      GrowableColumns.writeCoeff, hf, hpos, if_true]
    rfl
  have hfuel : p1 = (p1 - 1) + 1 := by omega
  have happly : s.applyBackwards (writePredictedAt q pos x) (p1 + 1) p1 ()
      = some (.ok ((), s1)) := by
    rw [applyBackwards_succ _ p1 s s p1 () d1 h1 hw1, if_neg (by rw [h1q]; exact hqv), h1q,
      hfuel, applyBackwards_succ _ (p1 - 1) s s1 q () dq hq hw2]
    by_cases hroot : dq.iprevious = kInvalid
    · rw [if_pos hroot]
    · have hlt : dq.iprevious < q := (hdec q dq hq).resolve_left hroot
      rw [if_neg hroot]
      exact applyBackwards_writePredictedAt_below q pos x s1 hdec1 (p1 - 1) _ hlt
        (by rw [hidx]; omega) (by omega)
  refine ⟨s1, happly, ?_, ?_, ?_⟩
  · rw [getPoint_eq_ok s1 q dq hq, except_bind_ok]
    exact hpred
  · rw [List.getElem?_set]
    simp [hpos]
  · obtain ⟨rest, hrest⟩ := visitBackwards_trace_head s1 hdec1 p2 q
      (collectViews [] ⟨s1, p2, d2⟩) dq hq hq2
    refine ⟨collectViews [] ⟨s1, p2, d2⟩ ++ ⟨s1, q, dq⟩ :: rest, ?_, ⟨s1, q, dq⟩, ?_, rfl, hpred⟩
    · rw [visitBackwards_succ s1 _ p2 p2 [] d2 h2, if_neg (by rw [h2q]; exact hqv), h2q]
      exact hrest
    · simp

/-- Claim C16, counterexample: points 1 and 2 are both created with the parent 0.
`addPoint` gives a point a predicted slot and no other, so point 0 has no filtered
slot: its `ifiltered` is the invalid index 65535, `filtered()` maps column 65535 of an
arena of 8 columns, and the assignment to the filtered slot that the visitor makes at
point 0 during `applyBackwards` started at point 1 is outside the storage. -/
theorem filtered_write_at_shared_parent_is_undefined :
    (sharedParentStore.m_index[1]?).map IndexData.iprevious = some 0 ∧
    (sharedParentStore.m_index[2]?).map IndexData.iprevious = some 0 ∧
    (sharedParentStore.m_index[0]?).map IndexData.ifiltered = some kInvalid ∧
    (sharedParentStore.getPoint 0).map TrackStateProxy.hasFiltered = .ok false ∧
    sharedParentStore.m_params.cols = 8 ∧
    (sharedParentStore.getPoint 0).bind TrackStateProxy.filtered
      = .error .undefinedBehaviour ∧
    sharedParentStore.applyBackwards (writeFilteredAt 0 0 42) 2 1 ()
      = some (.error .undefinedBehaviour) := by
  refine ⟨by decide, by decide, by decide, by decide, by decide, by decide, by decide⟩

/-- Claim C16, amended: branch sharing. In a store built by `addPoint` calls whose
parent argument is absent or the index of an already-created point, let `p1` and `p2`
both be created with the parent `q` (below 65535). A mutation to the predicted slot of
`q`, the slot `addPoint` gives a point, made by the visitor during `applyBackwards`
started at `p1` (it assigns `x` to row `pos`), is observable via `getPoint(q)`, and is
what the traversal later started at `p2` reads when it reaches `q`. -/
theorem shared_parent_mutation_visible (calls : List (AddPointCall nparams))
    (hvalid : ∀ (k : Nat) (c : AddPointCall nparams), calls[k]? = some c →
      c.iprevious = SIZE_MAX ∨ c.iprevious < k)
    (p1 p2 q pos : Nat) (x : Scalar) (c1 c2 : AddPointCall nparams)
    (h1 : calls[p1]? = some c1) (h1q : c1.iprevious = q)
    (h2 : calls[p2]? = some c2) (h2q : c2.iprevious = q)
    (hq : q < 65535) (hpos : pos < ParametersSize) :
    ∃ (colp : List Scalar) (s1 : MultiTrajectory),
      ((({} : MultiTrajectory).addPoints calls).2.getPoint q).bind TrackStateProxy.predicted
        = .ok colp ∧
      (({} : MultiTrajectory).addPoints calls).2.applyBackwards (writePredictedAt q pos x)
        (p1 + 1) p1 () = some (.ok ((), s1)) ∧
      (s1.getPoint q).bind TrackStateProxy.predicted = .ok (colp.set pos x) ∧
      (colp.set pos x)[pos]? = some x ∧
      ∃ views, s1.visitBackwards collectViews (p2 + 1) p2 [] = some (.ok views) ∧
        ∃ v ∈ views, v.index = q ∧ v.predicted = .ok (colp.set pos x) := by
  have hdec := linksDecrease_of_valid_parents calls hvalid
  have hne : q ≠ SIZE_MAX := by
    unfold SIZE_MAX
    omega
  have hlink : ∀ (p : Nat) (c : AddPointCall nparams), c.iprevious = q →
      (newIndexData c p).iprevious = q := by
    intro p c hc
    simp only [newIndexData, hc, hne, ne_eq, not_false_eq_true, if_true]
    exact toUInt16_of_lt q (by omega)
  have hq1 : q < p1 := by
    rcases hvalid p1 c1 h1 with h | h
    · exact absurd (h1q ▸ h) hne
    · exact h1q ▸ h
  have hp1 : p1 < calls.length := (List.getElem?_eq_some.mp h1).1
  have hcq : calls[q]? = some calls[q] := List.getElem?_eq_getElem (by omega)
  have hi1 : (({} : MultiTrajectory).addPoints calls).2.m_index[p1]?
      = some (newIndexData c1 p1) := by
    rw [addPoints_default_getElem?, h1]
    rfl
  have hi2 : (({} : MultiTrajectory).addPoints calls).2.m_index[p2]?
      = some (newIndexData c2 p2) := by
    rw [addPoints_default_getElem?, h2]
    rfl
  have hiq : (({} : MultiTrajectory).addPoints calls).2.m_index[q]?
      = some (newIndexData calls[q] q) := by
    rw [addPoints_default_getElem?, hcq]
    rfl
  have hslot : (newIndexData calls[q] q).ipredicted = q := toUInt16_of_lt q (by omega)
  have hcol := (addPoints_columns calls ({} : MultiTrajectory) q calls[q] default_arenasCover
    hcq).1
  have hzero : ({} : MultiTrajectory).m_index.length + q = q := Nat.zero_add q
  rw [hzero] at hcol
  have hlen : (assignHead nparams calls[q].trackParameters.parameters
      (List.replicate ParametersSize 0)).length = ParametersSize := by
    rw [assignHead_length, List.length_replicate]
  obtain ⟨s1, a1, a2, a3, a4⟩ :=
    predicted_write_visible _ hdec p1 p2 q pos x _ _ _ _ hi1 (hlink p1 c1 h1q) hi2
      (hlink p2 c2 h2q) (by unfold kInvalid UINT16_MAX; omega) hiq (by rw [hslot]; exact hcol)
      (by rw [hlen]; exact hpos)
  refine ⟨_, s1, ?_, a1, a2, a3, a4⟩
  rw [getPoint_eq_ok _ q _ hiq, except_bind_ok]
  exact predicted_of_view _ q q _ _ hslot hcol

theorem sharedParent_parents_created (k : Nat) (c : AddPointCall 6)
    (h : [rootCall, childCall, childCall][k]? = some c) :
    c.iprevious = SIZE_MAX ∨ c.iprevious < k := by
  match k with
  | 0 =>
    have h2 : rootCall = c := Option.some.inj h
    subst h2
    left
    rfl
  | 1 =>
    have h2 : childCall = c := Option.some.inj h
    subst h2
    right
    decide
  | 2 =>
    have h2 : childCall = c := Option.some.inj h
    subst h2
    right
    decide
  | k + 3 => cases h

/-- Claim C16, witness: points 1 and 2 share the parent 0. The visitor started at
point 1 sets row 0 of `predicted()` of point 0 to 42; the traversal started at point 2
reads the changed column at point 0. -/
theorem shared_parent_mutation_visible_witness :
    sharedParentStore = (({} : MultiTrajectory).addPoints [rootCall, childCall, childCall]).2 ∧
    (sharedParentStore.getPoint 0).bind TrackStateProxy.predicted = .ok [1, 0, 0, 0, 0, 0] ∧
    (sharedParentStore.applyBackwards (writePredictedAt 0 0 42) 2 1 ()).map
        (Except.map (fun r => (r.2.getPoint 0).bind TrackStateProxy.predicted))
      = some (.ok (.ok [42, 0, 0, 0, 0, 0])) ∧
    ∃ (colp : List Scalar) (s1 : MultiTrajectory),
      (sharedParentStore.getPoint 0).bind TrackStateProxy.predicted = .ok colp ∧
      sharedParentStore.applyBackwards (writePredictedAt 0 0 42) (1 + 1) 1 ()
        = some (.ok ((), s1)) ∧
      (s1.getPoint 0).bind TrackStateProxy.predicted = .ok (colp.set 0 42) ∧
      (colp.set 0 42)[0]? = some 42 ∧
      ∃ views, s1.visitBackwards collectViews (2 + 1) 2 [] = some (.ok views) ∧
        ∃ v ∈ views, v.index = 0 ∧ v.predicted = .ok (colp.set 0 42) :=
  ⟨rfl, by decide, by decide,
    shared_parent_mutation_visible [rootCall, childCall, childCall]
      sharedParent_parents_created 1 2 0 0 42 childCall childCall rfl rfl rfl rfl (by decide)
      (by decide)⟩

/-! ## Index, reference surface and links of a point -/

/-- Claim C21: in every store built by `addPoint` calls, for every call `i` of the
sequence: the call returned `i`, `getPoint(i).index()` is `i` and
`getPoint(i).referenceSurface()` is the surface reference passed to that call; the
same holds after any further `addPoint` calls. -/
theorem index_and_referenceSurface (calls later : List (AddPointCall nparams)) (i : Nat)
    (c : AddPointCall nparams) (hc : calls[i]? = some c) :
    (({} : MultiTrajectory).addPoints calls).1[i]? = some i ∧
    (∃ v, (({} : MultiTrajectory).addPoints calls).2.getPoint i = .ok v ∧ v.index = i ∧
      v.referenceSurface = c.trackParameters.referenceSurface) ∧
    (∃ v, (({} : MultiTrajectory).addPoints (calls ++ later)).2.getPoint i = .ok v ∧
      v.index = i ∧ v.referenceSurface = c.trackParameters.referenceSurface) := by
  have hi : i < calls.length := (List.getElem?_eq_some.mp hc).1
  have hd : (({} : MultiTrajectory).addPoints calls).2.m_index[i]? = some (newIndexData c i) := by
    rw [addPoints_default_getElem?, hc]
    rfl
  have hd2 : (({} : MultiTrajectory).addPoints (calls ++ later)).2.m_index[i]?
      = some (newIndexData c i) := by
    rw [addPoints_default_getElem?, List.getElem?_append_left hi, hc]
    rfl
  refine ⟨?_, ⟨_, getPoint_eq_ok _ i _ hd, rfl, rfl⟩, ⟨_, getPoint_eq_ok _ i _ hd2, rfl, rfl⟩⟩
  rw [addPoints_fst]
  show (List.range' 0 calls.length)[i]? = some i
  rw [← List.range_eq_range', List.getElem?_range hi]

/-- Claim C21, witness: point 1 of the end-to-end scenario, also after a third call. -/
theorem index_and_referenceSurface_witness :
    [rootCall, childCall][1]? = some childCall ∧
    (({} : MultiTrajectory).addPoints [rootCall, childCall]).1[1]? = some 1 ∧
    (∃ v, (({} : MultiTrajectory).addPoints [rootCall, childCall]).2.getPoint 1 = .ok v ∧
      v.index = 1 ∧ v.referenceSurface = childCall.trackParameters.referenceSurface) ∧
    (∃ v, (({} : MultiTrajectory).addPoints ([rootCall, childCall] ++ [grandChildCall])).2.getPoint 1
        = .ok v ∧
      v.index = 1 ∧ v.referenceSurface = childCall.trackParameters.referenceSurface) :=
  ⟨rfl, index_and_referenceSurface [rootCall, childCall] [grandChildCall] 1 childCall rfl⟩

/-- In a store whose links decrease the read-only traversal from `p` visits at most
`p + 1` points, with strictly decreasing indices, starting with `p`. -/
theorem visitBackwards_indices (s : MultiTrajectory) (hdec : LinksDecrease s) (fuel : Nat) :
    ∀ (p : Nat) (acc : List Nat), p < s.m_index.length → p < fuel →
      ∃ idx : List Nat,
        s.visitBackwards collectIndices fuel p acc = some (.ok (acc ++ idx)) ∧
        idx.length ≤ p + 1 ∧ (∀ i ∈ idx, i ≤ p) ∧
        idx.Pairwise (fun a b => b < a) ∧ idx.head? = some p := by
  induction fuel with
  | zero => intro p acc _ h; omega
  | succ fuel ih =>
    intro p acc hp hfuel
    have hd : s.m_index[p]? = some s.m_index[p] := List.getElem?_eq_getElem hp
    rw [visitBackwards_succ s _ fuel p acc _ hd]
    by_cases hroot : s.m_index[p].iprevious = kInvalid
    · refine ⟨[p], by simp [hroot, collectIndices, TrackStateProxy.index], by simp, ?_, by simp,
        rfl⟩
      intro i hi
      rw [List.mem_singleton] at hi
      omega
    · have hlt : s.m_index[p].iprevious < p := (hdec p _ hd).resolve_left hroot
      obtain ⟨idx, h1, h2, h3, h4, -⟩ :=
        ih s.m_index[p].iprevious (collectIndices acc ⟨s, p, s.m_index[p]⟩) (by omega) (by omega)
      refine ⟨p :: idx, ?_, ?_, ?_, ?_, rfl⟩
      · rw [if_neg hroot, h1]
        simp [collectIndices, TrackStateProxy.index]
      · simp only [List.length_cons]
        omega
      · intro i hi
        rcases List.mem_cons.mp hi with hi | hi
        · omega
        · have := h3 i hi
          omega
      · refine List.pairwise_cons.mpr ⟨?_, h4⟩
        intro i hi
        have := h3 i hi
        omega

/-- With a visitor whose writes at the views of the points of the store address
existing coefficients, the instrumented traversal records exactly the indices the
read-only traversal visits. -/
theorem applyBackwards_indices_of_point_writes {σ : Type} (s : MultiTrajectory)
    (g : σ → TrackStateProxy → σ × List Write)
    (hb : ∀ (a : σ) (s1 : MultiTrajectory) (k : Nat) (d : IndexData), s.m_index[k]? = some d →
      ∀ w ∈ (g a ⟨s1, k, d⟩).2, w.InBounds s ⟨s1, k, d⟩) (fuel : Nat) :
    ∀ (s1 : MultiTrajectory) (e : Nat) (acc : σ) (tr : List Nat), s1.m_index = s.m_index →
      (∀ a j, colLength s1 a j = colLength s a j) →
      passedIndices (s1.applyBackwards (traced g) fuel e (acc, tr))
        = s.visitBackwards collectIndices fuel e tr := by
  induction fuel with
  | zero => intro s1 e acc tr _ _; rfl
  | succ fuel ih =>
    intro s1 e acc tr hidx hshape
    cases hd : s.m_index[e]? with
    | none =>
      rw [applyBackwards_out_of_range _ _ _ _ _ (by rw [hidx]; exact hd),
        visitBackwards_out_of_range _ _ _ _ _ hd]
      rfl
    | some d =>
      have hd1 : s1.m_index[e]? = some d := by rw [hidx]; exact hd
      obtain ⟨s2, hw, hshape2⟩ := applyWrites_inBounds s ⟨s1, e, d⟩
        ((traced g) (acc, tr) ⟨s1, e, d⟩).2 s1 hshape (hb acc s1 e d hd)
      rw [applyBackwards_succ _ fuel s1 s2 e (acc, tr) d hd1 hw,
        visitBackwards_succ s _ fuel e tr d hd]
      by_cases hroot : d.iprevious = kInvalid
      · rw [if_pos hroot, if_pos hroot]
        rfl
      · rw [if_neg hroot, if_neg hroot]
        exact ih s2 _ _ _ (by rw [applyWrites_m_index _ _ s1 s2 hw]; exact hidx) hshape2

/-- Claim C25: in every store built by `addPoint` calls whose parent argument is
absent or the index of an already-created point, every stored previous link is the
root mark or strictly smaller than the point's own index; hence `visitBackwards`
started at `e` terminates within `e + 1` iterations, visits strictly decreasing
indices starting with `e` and calls the visitor at most `e + 1` times. For every
visitor `applyBackwards` started at `e` ends within `e + 1` iterations too: it passes
the same indices, or a write of the visitor falls outside the storage, which is
undefined behaviour; it passes the same indices whenever the writes the visitor makes
at the views of the points of the store address existing coefficients. -/
theorem backward_traversal_bound {σ : Type} (calls : List (AddPointCall nparams))
    (hvalid : ∀ (k : Nat) (c : AddPointCall nparams), calls[k]? = some c →
      c.iprevious = SIZE_MAX ∨ c.iprevious < k)
    (e : Nat) (he : e < calls.length) (g : σ → TrackStateProxy → σ × List Write) (acc : σ) :
    (∀ (k : Nat) (d : IndexData),
      (({} : MultiTrajectory).addPoints calls).2.m_index[k]? = some d →
        d.iprevious = kInvalid ∨ d.iprevious < k) ∧
    ∃ idx : List Nat,
      (({} : MultiTrajectory).addPoints calls).2.visitBackwards collectIndices (e + 1) e []
        = some (.ok idx) ∧
      (passedIndices ((({} : MultiTrajectory).addPoints calls).2.applyBackwards (traced g)
          (e + 1) e (acc, [])) = some (.ok idx) ∨
        (({} : MultiTrajectory).addPoints calls).2.applyBackwards (traced g) (e + 1) e (acc, [])
          = some (.error .undefinedBehaviour)) ∧
      ((∀ (a : σ) (s1 : MultiTrajectory) (k : Nat) (d : IndexData),
          (({} : MultiTrajectory).addPoints calls).2.m_index[k]? = some d →
          ∀ w ∈ (g a ⟨s1, k, d⟩).2,
            w.InBounds (({} : MultiTrajectory).addPoints calls).2 ⟨s1, k, d⟩) →
        passedIndices ((({} : MultiTrajectory).addPoints calls).2.applyBackwards (traced g)
          (e + 1) e (acc, [])) = some (.ok idx)) ∧
      idx.length ≤ e + 1 ∧ idx.Pairwise (fun a b => b < a) ∧ idx.head? = some e := by
  have hdec := linksDecrease_of_valid_parents calls hvalid
  refine ⟨hdec, ?_⟩
  obtain ⟨idx, h1, h2, -, h4, h5⟩ := visitBackwards_indices _ hdec (e + 1) e []
    (by rw [addPoints_default_length]; exact he) (by omega)
  rw [List.nil_append] at h1
  refine ⟨idx, h1, ?_, ?_, h2, h4, h5⟩
  · rcases applyBackwards_indices_or_fault _ g (e + 1) _ e acc [] rfl with h | h
    · left
      rw [h]
      exact h1
    · right
      exact h
  · intro hb
    rw [applyBackwards_indices_of_point_writes _ g hb (e + 1) _ e acc [] rfl (fun _ _ => rfl)]
    exact h1

/-- The writes of `overwritePredicted` at the views of the two points of the
end-to-end scenario address row 0 of their predicted columns. -/
theorem overwritePredicted_inBounds (a : Unit) (s1 : MultiTrajectory) (k : Nat) (d : IndexData)
    (hd : (({} : MultiTrajectory).addPoints [rootCall, childCall]).2.m_index[k]? = some d) :
    ∀ w ∈ (overwritePredicted a ⟨s1, k, d⟩).2,
      w.InBounds (({} : MultiTrajectory).addPoints [rootCall, childCall]).2 ⟨s1, k, d⟩ := by
  intro w hw
  simp only [overwritePredicted, List.mem_singleton] at hw
  subst hw
  match k with
  | 0 =>
    have h2 : newIndexData rootCall 0 = d := Option.some.inj hd
    subst h2
    exact ⟨6, (by decide : colLength (({} : MultiTrajectory).addPoints
      [rootCall, childCall]).2 .params 0 = some 6), by decide⟩
  | 1 =>
    have h2 : newIndexData childCall 1 = d := Option.some.inj hd
    subst h2
    exact ⟨6, (by decide : colLength (({} : MultiTrajectory).addPoints
      [rootCall, childCall]).2 .params 1 = some 6), by decide⟩
  | k + 2 => cases hd

/-- Claim C25, witness: the end-to-end scenario, traversed from point 1 by a visitor
that overwrites row 0 of the predicted parameters at every point. -/
theorem backward_traversal_bound_witness :
    (∀ (k : Nat) (c : AddPointCall 6), [rootCall, childCall][k]? = some c →
      c.iprevious = SIZE_MAX ∨ c.iprevious < k) ∧
    1 < [rootCall, childCall].length ∧
    (({} : MultiTrajectory).addPoints [rootCall, childCall]).2.visitBackwards
      collectIndices (1 + 1) 1 [] = some (.ok [1, 0]) ∧
    passedIndices ((({} : MultiTrajectory).addPoints [rootCall, childCall]).2.applyBackwards
      (traced overwritePredicted) (1 + 1) 1 ((), [])) = some (.ok [1, 0]) := by
  obtain ⟨_, idx, h1, _, h3, _⟩ :=
    backward_traversal_bound [rootCall, childCall] scenario_parents_created 1 (by decide)
      overwritePredicted ()
  have hidx : idx = [1, 0] := by
    have h : (({} : MultiTrajectory).addPoints [rootCall, childCall]).2.visitBackwards
        collectIndices (1 + 1) 1 [] = some (.ok [1, 0]) := by decide
    rw [h] at h1
    cases h1
    rfl
  subst hidx
  exact ⟨scenario_parents_created, by decide, h1, h3 overwritePredicted_inBounds⟩

/-- Claim C26, counterexample: a point created with the parent argument 65535 is
recorded with the invalid link of a root, on the empty store as well as in a store
where point 65535 exists. -/
theorem parent_65535_recorded_as_root :
    lateChildCall.iprevious = 65535 ∧ lateChildCall.iprevious ≠ SIZE_MAX ∧
    ((({} : MultiTrajectory).afterCall lateChildCall).m_index[0]?).map IndexData.iprevious
      = some kInvalid ∧
    (lateStore.m_index[65536]?).map IndexData.iprevious = some kInvalid := by
  refine ⟨rfl, by decide, by decide, ?_⟩
  rw [lateStore_index_last]
  rfl

/-- Claim C26, amended: when no parent is given (`iprevious = SIZE_MAX`) the stored
previous link is the invalid link; for every other `iprevious` it is `iprevious`
modulo `2 ^ 16`. The point is therefore recorded as a root exactly when `iprevious`
is congruent to 65535 modulo 65536; a point created with a parent below 65535 is
recorded with that parent, never with the invalid link. -/
theorem stored_previous_link (s : MultiTrajectory) (c : AddPointCall nparams) :
    ∃ r, (s.addPoint c.trackParameters c.iprevious c.junkParams c.junkCov).2.m_index
          = s.m_index ++ [r] ∧
      (c.iprevious = SIZE_MAX → r.iprevious = kInvalid) ∧
      (c.iprevious ≠ SIZE_MAX → r.iprevious = c.iprevious % 65536) ∧
      (r.iprevious = kInvalid ↔ c.iprevious % 65536 = 65535) ∧
      (c.iprevious < 65535 → r.iprevious = c.iprevious ∧ r.iprevious ≠ kInvalid) := by
  refine ⟨newIndexData c s.m_index.length, addPoint_m_index s c, ?_, ?_, ?_, ?_⟩
  · intro h
    simp [newIndexData, h]
  · intro h
    simp [newIndexData, h, toUInt16]
  · by_cases h : c.iprevious = SIZE_MAX
    · simp [newIndexData, h, SIZE_MAX, kInvalid, UINT16_MAX]
    · simp only [newIndexData, h, ne_eq, not_false_eq_true, if_true, toUInt16, kInvalid,
        UINT16_MAX]
  · intro h
    have hne : c.iprevious ≠ SIZE_MAX := by
      simp only [SIZE_MAX]
      omega
    simp only [newIndexData, hne, ne_eq, not_false_eq_true, if_true, toUInt16, kInvalid,
      UINT16_MAX]
    omega

/-! ## Size of the arenas -/

theorem ensureCol_cols_chunked {Size : Nat} (g : GrowableColumns Size SizeIncrement) (n : Nat)
    (junk : Junk) (h : g.cols = 8 * ((n + 7) / 8)) :
    (g.ensureCol n junk).cols = 8 * ((n + 1 + 7) / 8) := by
  by_cases hlt : n < g.cols
  · have h2 : g.ensureCol n junk = g := ensureColLoop_of_lt n junk (n + 1) g hlt
    rw [h2]
    omega
  · obtain ⟨k, hk1, hk2, hk3, hk4⟩ := ensureColLoop_growth n junk (n + 1) g (by omega) (by omega)
    show (GrowableColumns.ensureColLoop n junk (n + 1) g).cols = _
    rw [hk2]
    omega

theorem afterCall_cols (s : MultiTrajectory) (c : AddPointCall nparams) :
    (s.afterCall c).m_params.cols = (s.m_params.ensureCol s.m_index.length c.junkParams).cols ∧
    (s.afterCall c).m_cov.cols = (s.m_cov.ensureCol s.m_index.length c.junkCov).cols := by
  unfold afterCall addPoint GrowableColumns.cols
  simp only [GrowableColumns.setZero]
  refine ⟨by rw [GrowableColumns.modifyCol_data_length, GrowableColumns.modifyCol_data_length],
    ?_⟩
  cases c.trackParameters.covariance with
  | none =>
    simp only []
    rw [GrowableColumns.modifyCol_data_length]
  | some cov =>
    simp only []
    rw [GrowableColumns.modifyCol_data_length, GrowableColumns.modifyCol_data_length]

theorem addPoints_cols_chunked (calls : List (AddPointCall nparams)) :
    ∀ s : MultiTrajectory,
      s.m_params.cols = 8 * ((s.m_index.length + 7) / 8) →
      s.m_cov.cols = 8 * ((s.m_index.length + 7) / 8) →
      (s.addPoints calls).2.m_params.cols = 8 * ((s.m_index.length + calls.length + 7) / 8) ∧
      (s.addPoints calls).2.m_cov.cols = 8 * ((s.m_index.length + calls.length + 7) / 8) := by
  induction calls with
  | nil => intro s h1 h2; exact ⟨h1, h2⟩
  | cons c cs ih =>
    intro s h1 h2
    rw [addPoints_cons]
    have hc := afterCall_cols s c
    have h := ih (s.afterCall c)
      (by rw [hc.1, afterCall_length]; exact ensureCol_cols_chunked _ _ _ h1)
      (by rw [hc.2, afterCall_length]; exact ensureCol_cols_chunked _ _ _ h2)
    rw [afterCall_length] at h
    have hs : s.m_index.length + 1 + cs.length = s.m_index.length + (c :: cs).length := by
      simp only [List.length_cons]
      omega
    rw [hs] at h
    exact h

/-- Claim C27: after `n` `addPoint` calls on an empty store the parameter arena and
the covariance arena have the same number of columns, `8 * ceil(n / 8)`; that number
is at least the number of points, and a further call never decreases it. -/
theorem arena_size_invariant (calls : List (AddPointCall nparams)) (c : AddPointCall nparams) :
    (({} : MultiTrajectory).addPoints calls).2.m_params.cols = 8 * ((calls.length + 7) / 8) ∧
    (({} : MultiTrajectory).addPoints calls).2.m_cov.cols = 8 * ((calls.length + 7) / 8) ∧
    (({} : MultiTrajectory).addPoints calls).2.m_index.length
      ≤ (({} : MultiTrajectory).addPoints calls).2.m_params.cols ∧
    (({} : MultiTrajectory).addPoints calls).2.m_params.cols
      ≤ ((({} : MultiTrajectory).addPoints calls).2.addPoint c.trackParameters c.iprevious
          c.junkParams c.junkCov).2.m_params.cols ∧
    (({} : MultiTrajectory).addPoints calls).2.m_cov.cols
      ≤ ((({} : MultiTrajectory).addPoints calls).2.addPoint c.trackParameters c.iprevious
          c.junkParams c.junkCov).2.m_cov.cols := by
  have h := addPoints_cols_chunked calls ({} : MultiTrajectory) rfl rfl
  have h0 : ({} : MultiTrajectory).m_index.length + calls.length = calls.length := by
    show 0 + calls.length = calls.length
    omega
  rw [h0] at h
  have hlen := addPoints_default_length calls
  have hc := afterCall_cols (({} : MultiTrajectory).addPoints calls).2 c
  have h1 := ensureCol_cols_chunked _ _ c.junkParams (hlen ▸ h.1)
  have h2 := ensureCol_cols_chunked _ _ c.junkCov (hlen ▸ h.2)
  unfold afterCall at hc
  refine ⟨h.1, h.2, ?_, ?_, ?_⟩
  · rw [h.1, hlen]
    omega
  · rw [hc.1, h1, h.1, hlen]
    omega
  · rw [hc.2, h2, h.2, hlen]
    omega

end MultiTrajectory

/-! ## Binning data: neighbouring bins -/

namespace BinningData

theorem sizeAdd_one (bin : Nat) (h : bin + 1 < 18446744073709551616) : sizeAdd bin 1 = bin + 1 := by
  unfold sizeAdd
  omega

theorem sizeSub_of_le (a b : Nat) (hb : b ≤ a) : sizeSub a b = a - b := by
  unfold sizeSub
  rw [if_pos hb]

theorem option_cases (o : BinningOption) : o = .«open» ∨ o = .closed := by
  cases o
  · exact Or.inl rfl
  · exact Or.inr rfl

/-- Claim C22: `decrement` and `increment` return true exactly when they changed the
bin. For bins and bin counts that are `size_t` values, `decrement` maps a positive bin
to `bin - 1` and bin 0 to 0 (open) or `m_bins - 1` (closed); `increment` maps `bin` to
`bin + 1` when `bin + 1 < m_bins` and otherwise to `bin` (open) or 0 (closed), where
for the largest `size_t` the sum `bin + 1` is the wrapped value 0; and a bin below
`m_bins` stays below `m_bins`. -/
theorem decrement_increment_contract (self : BinningData) (bin : Nat)
    (hbin : bin < 18446744073709551616) (hbins : self.fields.m_bins < 18446744073709551616) :
    ((self.decrement bin).1 = true ↔ (self.decrement bin).2 ≠ bin) ∧
    ((self.increment bin).1 = true ↔ (self.increment bin).2 ≠ bin) ∧
    (0 < bin → (self.decrement bin).2 = bin - 1) ∧
    (bin = 0 → self.fields.option = .«open» → (self.decrement bin).2 = 0) ∧
    (bin = 0 → self.fields.option = .closed → 1 ≤ self.fields.m_bins →
      (self.decrement bin).2 = self.fields.m_bins - 1) ∧
    (bin + 1 < self.fields.m_bins → (self.increment bin).2 = bin + 1) ∧
    (¬ bin + 1 < self.fields.m_bins → bin + 1 < 18446744073709551616 →
      self.fields.option = .«open» → (self.increment bin).2 = bin) ∧
    (¬ bin + 1 < self.fields.m_bins → bin + 1 < 18446744073709551616 →
      self.fields.option = .closed → (self.increment bin).2 = 0) ∧
    (bin + 1 = 18446744073709551616 → 1 ≤ self.fields.m_bins →
      (self.increment bin).2 = 0 ∧ 0 = sizeAdd bin 1) ∧
    (bin < self.fields.m_bins →
      (self.decrement bin).2 < self.fields.m_bins ∧
      (self.increment bin).2 < self.fields.m_bins) := by
  refine ⟨?_, ?_, ?_, ?_, ?_, ?_, ?_, ?_, ?_, ?_⟩
  · simp only [decrement, bne_iff_ne, ne_eq]
    exact ⟨fun h e => h e.symm, fun h e => h e.symm⟩
  · simp only [increment, bne_iff_ne, ne_eq]
    exact ⟨fun h e => h e.symm, fun h e => h e.symm⟩
  · intro h
    simp [decrement, h]
  · intro h ho
    simp [decrement, h, ho]
  · intro h ho h1
    simp only [decrement, h, ho]
    simp [sizeSub_of_le _ 1 h1]
  · intro h
    have h1 : sizeAdd bin 1 = bin + 1 := sizeAdd_one bin (by omega)
    simp [increment, h1, h]
  · intro h h2 ho
    have h1 : sizeAdd bin 1 = bin + 1 := sizeAdd_one bin h2
    simp [increment, h1, h, ho]
  · intro h h2 ho
    have h1 : sizeAdd bin 1 = bin + 1 := sizeAdd_one bin h2
    simp [increment, h1, h, ho]
  · intro h h1
    have h0 : sizeAdd bin 1 = 0 := by
      unfold sizeAdd
      omega
    have h2 : 0 < self.fields.m_bins := h1
    simp [increment, h0, h2]
  · intro h
    have h1 : sizeAdd bin 1 = bin + 1 := sizeAdd_one bin (by omega)
    have h2 : sizeSub self.fields.m_bins 1 = self.fields.m_bins - 1 :=
      sizeSub_of_le _ 1 (by omega)
    constructor
    · simp only [decrement, h2]
      split_ifs <;> omega
    · simp only [increment, h1]
      split_ifs <;> omega

theorem decrement_increment_contract_witness :
    (closedThree.decrement 0).2 = 2 ∧ (closedThree.increment 2).2 = 0 ∧
    (closedThree.decrement 0).1 = true ∧ (openThree.increment 2).1 = false := by
  have h := decrement_increment_contract closedThree 0 (by decide) (by decide)
  have h2 := decrement_increment_contract closedThree 2 (by decide) (by decide)
  refine ⟨h.2.2.2.2.1 rfl rfl (by decide), h2.2.2.2.2.2.2.2.1 (by decide) (by decide) rfl, ?_, ?_⟩
  · exact h.1.2 (by rw [h.2.2.2.2.1 rfl rfl (by decide)]; decide)
  · decide

/-- Claim C23: for an open binning and a bin below `m_bins`, `neighbourRange(bin)` is
strictly ascending and holds exactly the bins `b < m_bins` at distance at most one from
`bin`: three bins in the interior, two at either end, only `bin` when there is a
single bin. -/
theorem neighbourRange_open (self : BinningData) (bin : Nat)
    (hopen : self.fields.option = .«open») (hbins : self.fields.m_bins < 18446744073709551616)
    (hbin : bin < self.fields.m_bins) :
    (self.neighbourRange bin).Pairwise (fun a b => a < b) ∧
    (∀ b : Nat, b ∈ self.neighbourRange bin ↔
      b < self.fields.m_bins ∧ b ≤ bin + 1 ∧ bin ≤ b + 1) ∧
    (0 < bin → bin + 1 < self.fields.m_bins →
      self.neighbourRange bin = [bin - 1, bin, bin + 1]) ∧
    (bin = 0 → 1 < self.fields.m_bins → self.neighbourRange bin = [0, 1]) ∧
    (0 < bin → bin + 1 = self.fields.m_bins → self.neighbourRange bin = [bin - 1, bin]) ∧
    (self.fields.m_bins = 1 → self.neighbourRange bin = [bin]) := by
  have h1 : sizeAdd bin 1 = bin + 1 := sizeAdd_one bin (by omega)
  by_cases h0 : 0 < bin
  · by_cases hl : bin + 1 < self.fields.m_bins
    · have hr : self.neighbourRange bin = [bin - 1, bin, bin + 1] := by
        have hne : ¬ bin = bin - 1 := by omega
        simp [neighbourRange, decrement, increment, h1, h0, hl, hne]
      rw [hr]
      refine ⟨?_, ?_, fun _ _ => rfl, ?_, ?_, ?_⟩
      · simp
        omega
      · intro b
        simp
        omega
      · intro h
        omega
      · intro _ h
        omega
      · intro h
        omega
    · have hr : self.neighbourRange bin = [bin - 1, bin] := by
        have hne : ¬ bin = bin - 1 := by omega
        simp [neighbourRange, decrement, increment, h1, h0, hl, hne, hopen]
      rw [hr]
      refine ⟨?_, ?_, ?_, ?_, fun _ _ => rfl, ?_⟩
      · simp
        omega
      · intro b
        simp
        omega
      · intro _ h
        omega
      · intro h
        omega
      · intro h
        omega
  · have hz : bin = 0 := by omega
    subst hz
    by_cases hl : 1 < self.fields.m_bins
    · have hr : self.neighbourRange 0 = [0, 1] := by
        simp [neighbourRange, decrement, increment, sizeAdd, hl, hopen]
      rw [hr]
      refine ⟨?_, ?_, ?_, fun _ _ => rfl, ?_, ?_⟩
      · simp
      · intro b
        simp
        omega
      · intro h
        omega
      · intro h
        omega
      · intro h
        omega
    · have hr : self.neighbourRange 0 = [0] := by
        simp [neighbourRange, decrement, increment, sizeAdd, hl, hopen]
      rw [hr]
      refine ⟨?_, ?_, ?_, ?_, ?_, fun _ => rfl⟩
      · simp
      · intro b
        simp
        omega
      · intro h
        omega
      · intro _ h
        omega
      · intro h
        omega

theorem neighbourRange_open_witness :
    openThree.neighbourRange 0 = [0, 1] ∧ openThree.neighbourRange 1 = [0, 1, 2] ∧
    openThree.neighbourRange 2 = [1, 2] :=
  ⟨(neighbourRange_open openThree 0 rfl (by decide) (by decide)).2.2.2.1 rfl (by decide),
   (neighbourRange_open openThree 1 rfl (by decide) (by decide)).2.2.1 (by decide) (by decide),
   (neighbourRange_open openThree 2 rfl (by decide) (by decide)).2.2.2.2.1 (by decide)
     (by decide)⟩

end BinningData

end Acts

/-! ## The telescope detector element: aligned and nominal transform -/

namespace ActsExamples.Telescope

open Acts

namespace TelescopeDetectorElement

/-- An element without aligned transforms hands back its nominal transform. -/
theorem transform_of_no_aligned (self : TelescopeDetectorElement) (gctx : ContextType)
    (h : self.m_alignedTransforms = []) : self.transform gctx = self.nominalTransform gctx := by
  simp [transform, h]

/-- An aligned transform stored for the interval of the context is handed back. -/
theorem transform_of_aligned (self : TelescopeDetectorElement) (gctx : ContextType)
    (t : Transform3) (h : self.m_alignedTransforms[gctx.iov]? = some (some t)) :
    self.transform gctx = .ok t := by
  have hne : self.m_alignedTransforms.length ≠ 0 := by
    intro h0
    rw [List.length_eq_zero] at h0
    rw [h0] at h
    simp at h
  simp [transform, hne, h]

/-- Claim C24 (the code at the failing input): after `addAlignedTransform(7, 1)` on an
element with nominal transform 100, `transform` hands back 7 for interval of validity
1, but for interval 0, for which nothing was added, it dereferences the null pointer
the loop of `addAlignedTransform` stored, and for interval 2 it reads past the end of
the vector; in neither case does it reach `nominalTransform`, which is 100. -/
theorem transform_not_found_is_unchecked :
    nominalElement.addAlignedTransform (some 7) 1 3 = some (.ok alignedAtOne) ∧
    alignedAtOne.transform ⟨1⟩ = .ok 7 ∧
    alignedAtOne.nominalTransform ⟨0⟩ = .ok 100 ∧
    alignedAtOne.transform ⟨0⟩ = .error .undefinedBehaviour ∧
    alignedAtOne.transform ⟨2⟩ = .error .undefinedBehaviour := by
  decide

end TelescopeDetectorElement

end ActsExamples.Telescope

/-! ## Binning data: the boundary searches -/

namespace Acts

namespace BinningData

theorem getD_lt_of_pairwise (l : List Rat) (h : l.Pairwise (fun a b => a < b)) (i j : Nat)
    (hij : i < j) (hj : j < l.length) : l.getD i 0 < l.getD j 0 := by
  have hi : i < l.length := by omega
  rw [List.getD_eq_getElem?_getD, List.getD_eq_getElem?_getD, List.getElem?_eq_getElem hi,
    List.getElem?_eq_getElem hj]
  exact List.pairwise_iff_getElem.mp h i j hi hj hij

theorem getD_of_getElem? (l : List Rat) (i : Nat) (x : Rat) (h : l[i]? = some x) :
    l.getD i 0 = x := by
  rw [List.getD_eq_getElem?_getD, h]
  rfl

theorem getElem?_of_lt (l : List Rat) (i : Nat) (h : i < l.length) :
    l[i]? = some (l.getD i 0) := by
  rw [List.getD_eq_getElem?_getD, List.getElem?_eq_getElem h]
  rfl

/-- The linear search at a finite value, with the comparisons of rationals. -/
theorem searchInVectorWithBoundary_finite (value : Rat) (bData : BinningData) :
    searchInVectorWithBoundary (FloatValue.finite value) bData =
      if value ≤ bData.fields.m_boundaries.getD 0 0 then
        (if bData.fields.option = .closed then sizeSub bData.fields.m_bins 1 else 0)
      else if value ≥ bData.fields.max then
        (if bData.fields.option = .closed then 0 else sizeSub bData.fields.m_bins 1)
      else sizeSub (searchInVectorLoop (FloatValue.finite value) bData.fields.m_boundaries 0) 1 :=
  rfl

/-- The binary search at a finite value, with the comparisons of rationals. -/
theorem binarySearchWithBoundary_finite (value : Rat) (bData : BinningData) :
    binarySearchWithBoundary (FloatValue.finite value) bData =
      if value ≤ bData.fields.m_boundaries.getD 0 0 then
        (if bData.fields.option = .closed then sizeSub bData.fields.m_bins 1 else 0)
      else if value ≥ bData.fields.max then
        (if bData.fields.option = .closed then 0 else sizeSub bData.fields.m_boundaries.length 2)
      else
        binarySearchLoop (FloatValue.finite value) bData.fields.m_boundaries
          bData.fields.m_boundaries.length bData.fields.m_boundaries.length 0 :=
  rfl

/-- The loop of the linear search leaves `bin` at the first boundary greater than the
value, or past the last boundary when there is none. -/
theorem searchInVectorLoop_spec (value : Rat) :
    ∀ (l : List Rat) (c : Nat),
      c ≤ searchInVectorLoop value l c ∧ searchInVectorLoop value l c ≤ c + l.length ∧
      (∀ i : Nat, i < searchInVectorLoop value l c - c → l.getD i 0 ≤ value) ∧
      (searchInVectorLoop value l c - c < l.length →
        value < l.getD (searchInVectorLoop value l c - c) 0) := by
  intro l
  induction l with
  | nil =>
    intro c
    simp [searchInVectorLoop]
  | cons x rest ih =>
    intro c
    by_cases hx : x > value
    · have hx2 : (FloatValue.finite value).lt x := hx
      simp only [searchInVectorLoop, if_pos hx2]
      refine ⟨le_refl _, by omega, ?_, ?_⟩
      · intro i hi
        omega
      · intro _
        simpa using hx
    · have hx2 : ¬ (FloatValue.finite value).lt x := hx
      simp only [searchInVectorLoop, if_neg hx2]
      obtain ⟨h1, h2, h3, h4⟩ := ih (c + 1)
      refine ⟨by omega, by simp only [List.length_cons]; omega, ?_, ?_⟩
      · intro i hi
        cases i with
        | zero => simpa using not_lt.mp hx
        | succ i =>
          have := h3 i (by omega)
          simpa using this
      · intro hlt
        have hr : searchInVectorLoop value rest (c + 1) - c =
            (searchInVectorLoop value rest (c + 1) - (c + 1)) + 1 := by omega
        rw [hr]
        simp only [List.length_cons] at hlt
        have := h4 (by omega)
        simpa using this

/-- Between the outer boundaries the linear search ends in a bin whose boundaries
enclose the value. -/
theorem searchInVectorLoop_encloses (value : Rat) (l : List Rat) (hlen : 2 ≤ l.length)
    (hlow : l.getD 0 0 < value) (hhigh : value < l.getD (l.length - 1) 0) :
    sizeSub (searchInVectorLoop value l 0) 1 + 1 < l.length ∧
    l.getD (sizeSub (searchInVectorLoop value l 0) 1) 0 ≤ value ∧
    value < l.getD (sizeSub (searchInVectorLoop value l 0) 1 + 1) 0 := by
  obtain ⟨_, h2, h3, h4⟩ := searchInVectorLoop_spec value l 0
  simp only [Nat.sub_zero, Nat.zero_add] at h2 h3 h4
  have hr1 : 1 ≤ searchInVectorLoop value l 0 := by
    by_contra hc
    have h0 : searchInVectorLoop value l 0 = 0 := by omega
    rw [h0] at h4
    have := h4 (by omega)
    exact absurd hlow (not_lt.mpr (le_of_lt this))
  have hr2 : searchInVectorLoop value l 0 < l.length := by
    by_contra hc
    have := h3 (l.length - 1) (by omega)
    exact absurd hhigh (not_lt.mpr this)
  rw [sizeSub_of_le _ 1 hr1]
  have hk : searchInVectorLoop value l 0 - 1 + 1 = searchInVectorLoop value l 0 := by omega
  rw [hk]
  exact ⟨hr2, h3 _ (by omega), h4 hr2⟩

/-- Once `nabove - nbelow` iterations are available, more fuel does not change the
result of the bisection: the loop is left by its condition. -/
theorem binarySearchLoop_fuel (value : FloatValue) (b : List Rat) :
    ∀ (fuel1 fuel2 nabove nbelow : Nat), nbelow ≤ nabove → nabove - nbelow ≤ fuel1 →
      nabove - nbelow ≤ fuel2 →
      binarySearchLoop value b fuel1 nabove nbelow = binarySearchLoop value b fuel2 nabove nbelow := by
  intro fuel1
  induction fuel1 with
  | zero =>
    intro fuel2 nabove nbelow hle h1 _
    have hs : ¬ sizeSub nabove nbelow > 1 := by
      rw [sizeSub_of_le _ _ hle]
      omega
    cases fuel2 with
    | zero => rfl
    | succ f2 => simp only [binarySearchLoop, if_neg hs]
  | succ f1 ih =>
    intro fuel2 nabove nbelow hle h1 h2
    cases fuel2 with
    | zero =>
      have hs : ¬ sizeSub nabove nbelow > 1 := by
        rw [sizeSub_of_le _ _ hle]
        omega
      simp only [binarySearchLoop, if_neg hs]
    | succ f2 =>
      simp only [binarySearchLoop]
      by_cases hs : sizeSub nabove nbelow > 1
      · have hs2 : nabove - nbelow > 1 := by
          rw [sizeSub_of_le _ _ hle] at hs
          exact hs
        rw [if_pos hs, if_pos hs]
        split_ifs
        · rfl
        · exact ih f2 _ _ (by omega) (by omega) (by omega)
        · exact ih f2 _ _ (by omega) (by omega) (by omega)
      · rw [if_neg hs, if_neg hs]

/-- The bisection keeps the value between the boundaries below `nbelow` and below
`nabove`, and ends in a bin whose lower boundary is the value or whose boundaries
enclose it. -/
theorem binarySearchLoop_spec (value : Rat) (b : List Rat) :
    ∀ (fuel nabove nbelow : Nat), nabove - nbelow ≤ fuel → nbelow < nabove →
      nabove ≤ b.length → b.getD 0 0 < value → (1 ≤ nbelow → b.getD (nbelow - 1) 0 < value) →
      value < b.getD (nabove - 1) 0 →
      binarySearchLoop value b fuel nabove nbelow + 1 < b.length ∧
      (value = b.getD (binarySearchLoop value b fuel nabove nbelow) 0 ∨
        (b.getD (binarySearchLoop value b fuel nabove nbelow) 0 < value ∧
          value < b.getD (binarySearchLoop value b fuel nabove nbelow + 1) 0)) := by
  intro fuel
  induction fuel with
  | zero =>
    intro nabove nbelow h1 h2
    omega
  | succ f ih =>
    intro nabove nbelow hf hlt hlen h0 hbelow habove
    simp only [binarySearchLoop]
    rw [sizeSub_of_le _ _ (le_of_lt hlt)]
    by_cases hs : nabove - nbelow > 1
    · rw [if_pos hs]
      have hm1 : nbelow < (nabove + nbelow) / 2 := by omega
      have hm2 : (nabove + nbelow) / 2 < nabove := by omega
      rw [sizeSub_of_le _ 1 (by omega)]
      by_cases he : value = b.getD ((nabove + nbelow) / 2 - 1) 0
      · have he2 : (FloatValue.finite value).eq (b.getD ((nabove + nbelow) / 2 - 1) 0) := he
        rw [if_pos he2]
        exact ⟨by omega, Or.inl he⟩
      · have he2 : ¬ (FloatValue.finite value).eq (b.getD ((nabove + nbelow) / 2 - 1) 0) := he
        rw [if_neg he2]
        by_cases hl : value < b.getD ((nabove + nbelow) / 2 - 1) 0
        · have hl2 : (FloatValue.finite value).lt (b.getD ((nabove + nbelow) / 2 - 1) 0) := hl
          rw [if_pos hl2]
          exact ih _ _ (by omega) hm1 (by omega) h0 hbelow hl
        · have hl2 : ¬ (FloatValue.finite value).lt (b.getD ((nabove + nbelow) / 2 - 1) 0) :=
            hl
          rw [if_neg hl2]
          refine ih _ _ (by omega) hm2 hlen h0 (fun _ => ?_) habove
          exact lt_of_le_of_ne (not_lt.mp hl) (fun h => he h.symm)
    · rw [if_neg hs]
      have hab : nabove = nbelow + 1 := by omega
      by_cases hz : nbelow = 0
      · subst hz
        subst hab
        exact absurd habove (not_lt.mpr (le_of_lt h0))
      · rw [sizeSub_of_le _ 1 (by omega)]
        have hk : nbelow - 1 + 1 = nbelow := by omega
        have hk2 : nabove - 1 = nbelow := by omega
        rw [hk]
        rw [hk2] at habove
        exact ⟨by omega, Or.inr ⟨hbelow (by omega), habove⟩⟩

/-- In a strictly increasing boundary vector at most one bin encloses a value. -/
theorem enclosing_bin_unique (l : List Rat) (h : l.Pairwise (fun a b => a < b)) (value : Rat)
    (j k : Nat) (hj : j + 1 < l.length) (hk : k + 1 < l.length)
    (hj1 : l.getD j 0 ≤ value) (hj2 : value < l.getD (j + 1) 0)
    (hk1 : l.getD k 0 ≤ value) (hk2 : value < l.getD (k + 1) 0) : j = k := by
  by_contra hne
  rcases Nat.lt_or_gt_of_ne hne with hlt | hgt
  · have h1 : l.getD (j + 1) 0 ≤ l.getD k 0 := by
      rcases Nat.eq_or_lt_of_le (Nat.succ_le_of_lt hlt) with he | hl
      · rw [← he]
      · exact le_of_lt (getD_lt_of_pairwise l h _ _ hl (by omega))
    exact absurd (lt_of_lt_of_le hj2 (le_trans h1 hk1)) (lt_irrefl _)
  · have h1 : l.getD (k + 1) 0 ≤ l.getD j 0 := by
      rcases Nat.eq_or_lt_of_le (Nat.succ_le_of_lt hgt) with he | hl
      · rw [← he]
      · exact le_of_lt (getD_lt_of_pairwise l h _ _ hl (by omega))
    exact absurd (lt_of_lt_of_le hk2 (le_trans h1 hj1)) (lt_irrefl _)

end BinningData

end Acts

/-! ## Binning data: the constructors -/

namespace Acts

namespace BinningData

theorem make_fields (f : BinningFields) (s : Option BinningData) : (make f s).fields = f := by
  cases s <;> rfl

theorem make_subBinningData (f : BinningFields) (s : Option BinningData) :
    (make f s).subBinningData = s := by
  cases s <;> rfl

/-- The member `checkSubStructure()` sets the total bins and the total boundaries and
nothing else. -/
theorem checkSubStructure_fields (f f2 : BinningFields) (s : Option BinningData)
    (h : checkSubStructure f s = .ok f2) :
    f2.type = f.type ∧ f2.option = f.option ∧ f2.min = f.min ∧ f2.max = f.max ∧
    f2.step = f.step ∧ f2.zdim = f.zdim ∧ f2.subBinningAdditive = f.subBinningAdditive ∧
    f2.m_bins = f.m_bins ∧ f2.m_boundaries = f.m_boundaries ∧
    (s = none → f2.m_totalBins = f.m_totalBins) ∧
    (∀ sub, s = some sub → f.subBinningAdditive = true →
      f2.m_totalBins = sizeSub (f.m_bins + sub.bins) 1) ∧
    (∀ sub, s = some sub → f.subBinningAdditive = false →
      f2.m_totalBins = f.m_bins * sub.bins) := by
  cases s with
  | none =>
    simp only [checkSubStructure, Except.ok.injEq] at h
    subst h
    simp
  | some sub =>
    simp only [checkSubStructure] at h
    by_cases ha : f.subBinningAdditive = true
    · rw [if_pos ha] at h
      cases hb : sub.boundaries with
      | nil =>
        rw [hb] at h
        cases h
      | cons sBinMin subRest =>
        rw [hb] at h
        obtain ⟨total, _, ht⟩ := MultiTrajectory.except_map_eq_ok _ _ _ h
        subst ht
        simp [ha]
    · rw [if_neg ha] at h
      simp only [Except.ok.injEq] at h
      subst h
      simp [ha]

/-- What the constructor for arbitrary binning stores. -/
theorem arbitrary_fields (bOption : BinningOption) (bBoundaries : List Rat)
    (sBinData : Option BinningData) (bData : BinningData)
    (h : arbitrary bOption bBoundaries sBinData = .ok bData) :
    2 ≤ bBoundaries.length ∧ bData.fields.type = .arbitrary ∧ bData.fields.option = bOption ∧
    bData.fields.m_boundaries = bBoundaries ∧ bData.fields.m_bins = bBoundaries.length - 1 ∧
    bData.fields.min = bBoundaries.getD 0 0 ∧
    bData.fields.max = bBoundaries.getD (bBoundaries.length - 1) 0 ∧
    bData.fields.zdim = (bBoundaries.length == 2) ∧ bData.fields.subBinningAdditive = true ∧
    bData.subBinningData = sBinData := by
  unfold arbitrary at h
  by_cases hl : bBoundaries.length > 1
  · rw [if_pos hl] at h
    obtain ⟨f2, hf2, hb⟩ := MultiTrajectory.except_map_eq_ok _ _ _ h
    subst hb
    obtain ⟨h1, h2, h3, h4, _, h6, h7, h8, h9, _⟩ := checkSubStructure_fields _ _ _ hf2
    rw [make_fields, make_subBinningData, h1, h2, h3, h4, h6, h7, h8, h9]
    exact ⟨hl, rfl, rfl, rfl, sizeSub_of_le _ 1 (by omega), rfl, rfl, rfl, rfl, rfl⟩
  · rw [if_neg hl] at h
    cases h

/-- What the constructor for equidistant binning stores. -/
theorem equidistant_fields (bOption : BinningOption) (bBins : Nat) (bMin bMax : Rat)
    (sBinData : Option BinningData) (sBinAdditive : Bool) (bData : BinningData)
    (h : equidistant bOption bBins bMin bMax sBinData sBinAdditive = .ok bData) :
    bData.fields.type = .equidistant ∧ bData.fields.option = bOption ∧
    bData.fields.m_bins = bBins ∧ bData.fields.min = bMin ∧ bData.fields.max = bMax ∧
    bData.fields.step = (bMax - bMin) / (bBins : Rat) ∧ bData.fields.zdim = (bBins == 1) ∧
    bData.fields.subBinningAdditive = sBinAdditive ∧ bData.subBinningData = sBinData := by
  unfold equidistant at h
  obtain ⟨f2, hf2, hb⟩ := MultiTrajectory.except_map_eq_ok _ _ _ h
  subst hb
  obtain ⟨h1, h2, h3, h4, h5, h6, h7, h8, _, _⟩ := checkSubStructure_fields _ _ _ hf2
  rw [make_fields, make_subBinningData, h1, h2, h3, h4, h5, h6, h7, h8]
  exact ⟨rfl, rfl, rfl, rfl, rfl, rfl, rfl, rfl, rfl⟩

/-- Claim C30: on an object the constructor for arbitrary binning made of strictly
increasing boundaries `b[0..n]`, `searchInVectorWithBoundary(value)` returns, for
`b[0] < value < b[n]`, the one bin `k` with `b[k] <= value < b[k+1]`; for
`value <= b[0]` it returns 0 (open) or `n - 1` (closed), and for `value >= b[n]` it
returns `n - 1` (open) or 0 (closed). -/
theorem searchInVectorWithBoundary_spec (bOption : BinningOption) (bBoundaries : List Rat)
    (sBinData : Option BinningData) (bData : BinningData) (value : Rat)
    (hctor : arbitrary bOption bBoundaries sBinData = .ok bData)
    (hincr : bBoundaries.Pairwise (fun a b => a < b)) :
    ∀ b0 bn : Rat, bBoundaries[0]? = some b0 →
      bBoundaries[bBoundaries.length - 1]? = some bn →
      (b0 < value → value < bn →
        searchInVectorWithBoundary value bData + 1 < bBoundaries.length ∧
        (∃ lo hi : Rat, bBoundaries[searchInVectorWithBoundary value bData]? = some lo ∧
          bBoundaries[searchInVectorWithBoundary value bData + 1]? = some hi ∧
          lo ≤ value ∧ value < hi) ∧
        (∀ (j : Nat) (lo hi : Rat), bBoundaries[j]? = some lo → bBoundaries[j + 1]? = some hi →
          lo ≤ value → value < hi → j = searchInVectorWithBoundary value bData)) ∧
      (value ≤ b0 → searchInVectorWithBoundary value bData =
        (if bOption = .«open» then 0 else bBoundaries.length - 2)) ∧
      (bn ≤ value → searchInVectorWithBoundary value bData =
        (if bOption = .«open» then bBoundaries.length - 2 else 0)) := by
  intro b0 bn hb0 hbn
  obtain ⟨hlen, _, hopt, hbd, hbins, _, hmax, _, _, _⟩ := arbitrary_fields _ _ _ _ hctor
  have h0 : bBoundaries.getD 0 0 = b0 := getD_of_getElem? _ _ _ hb0
  have hn : bBoundaries.getD (bBoundaries.length - 1) 0 = bn := getD_of_getElem? _ _ _ hbn
  have hlt : b0 < bn := by
    rw [← h0, ← hn]
    exact getD_lt_of_pairwise _ hincr _ _ (by omega) (by omega)
  have hs1 : sizeSub (bBoundaries.length - 1) 1 = bBoundaries.length - 2 := by
    rw [sizeSub_of_le _ 1 (by omega)]
    omega
  rw [searchInVectorWithBoundary_finite, hbd, hopt, hbins, hmax, h0, hn, hs1]
  refine ⟨?_, ?_, ?_⟩
  · intro hlow hhigh
    rw [if_neg (not_le.mpr hlow), if_neg (not_le.mpr hhigh)]
    obtain ⟨e1, e2, e3⟩ :=
      searchInVectorLoop_encloses value bBoundaries hlen (by rw [h0]; exact hlow)
        (by rw [hn]; exact hhigh)
    refine ⟨e1, ⟨_, _, getElem?_of_lt _ _ (by omega), getElem?_of_lt _ _ e1, e2, e3⟩, ?_⟩
    intro j lo hi hj hj1 hlo hhi
    have hjlen : j + 1 < bBoundaries.length := by
      by_contra hc
      rw [List.getElem?_eq_none (by omega)] at hj1
      cases hj1
    refine enclosing_bin_unique bBoundaries hincr value j _ hjlen e1 ?_ ?_ e2 e3
    · rw [getD_of_getElem? _ _ _ hj]
      exact hlo
    · rw [getD_of_getElem? _ _ _ hj1]
      exact hhi
  · intro hle
    rw [if_pos hle]
    cases bOption <;> simp
  · intro hge
    rw [if_neg (not_le.mpr (lt_of_lt_of_le hlt hge)), if_pos hge]
    cases bOption <;> simp

theorem searchInVectorWithBoundary_spec_witness :
    BinningData.arbitrary .closed unevenBoundaries none = .ok closedUneven ∧
    unevenBoundaries.Pairwise (fun a b => a < b) ∧
    searchInVectorWithBoundary 2 closedUneven = 1 ∧
    searchInVectorWithBoundary 0 closedUneven = 2 ∧
    searchInVectorWithBoundary 6 closedUneven = 0 := by
  have hctor : BinningData.arbitrary .closed unevenBoundaries none = .ok closedUneven := by
    decide!
  have hincr : unevenBoundaries.Pairwise (fun a b => a < b) := by
    decide!
  have h := searchInVectorWithBoundary_spec .closed unevenBoundaries none closedUneven
  refine ⟨hctor, hincr, ?_, ?_, ?_⟩
  · exact ((h 2 hctor hincr 0 6 rfl rfl).1 (by norm_num) (by norm_num)).2.2 1 1 3 rfl rfl
      (by norm_num) (by norm_num) |>.symm
  · exact (h 0 hctor hincr 0 6 rfl rfl).2.1 (le_refl _)
  · exact (h 6 hctor hincr 0 6 rfl rfl).2.2 (le_refl _)

end BinningData

end Acts

/-! ## Binning data: linear against binary search, and the range of `search` -/

namespace Acts

namespace BinningData

/-- On members as the constructor for arbitrary binning sets them, with strictly
increasing boundaries, the binary search returns at a finite value what the linear
search returns. -/
theorem binarySearch_eq_linear_of_finite (value : Rat) (bData : BinningData)
    (hlen : 2 ≤ bData.fields.m_boundaries.length)
    (hbins : bData.fields.m_bins = bData.fields.m_boundaries.length - 1)
    (hmax : bData.fields.max =
      bData.fields.m_boundaries.getD (bData.fields.m_boundaries.length - 1) 0)
    (hincr : bData.fields.m_boundaries.Pairwise (fun a b => a < b)) :
    searchInVectorWithBoundary (FloatValue.finite value) bData =
      binarySearchWithBoundary (FloatValue.finite value) bData := by
  rw [searchInVectorWithBoundary_finite, binarySearchWithBoundary_finite, hbins, hmax,
    sizeSub_of_le _ 2 hlen, sizeSub_of_le _ 1 (by omega)]
  have he : bData.fields.m_boundaries.length - 1 - 1 = bData.fields.m_boundaries.length - 2 := by
    omega
  rw [he]
  by_cases h1 : value ≤ bData.fields.m_boundaries.getD 0 0
  · rw [if_pos h1, if_pos h1]
  · rw [if_neg h1, if_neg h1]
    by_cases h2 : value ≥ bData.fields.m_boundaries.getD (bData.fields.m_boundaries.length - 1) 0
    · rw [if_pos h2, if_pos h2]
    · rw [if_neg h2, if_neg h2]
      obtain ⟨e1, e2, e3⟩ :=
        searchInVectorLoop_encloses value _ hlen (not_le.mp h1) (not_le.mp h2)
      obtain ⟨b1, b2⟩ :=
        binarySearchLoop_spec value bData.fields.m_boundaries
          bData.fields.m_boundaries.length bData.fields.m_boundaries.length 0
          (by omega) (by omega) (le_refl _) (not_le.mp h1) (fun h => by omega) (not_le.mp h2)
      refine enclosing_bin_unique _ hincr value _ _ e1 b1 e2 e3 ?_ ?_
      · rcases b2 with he2 | ⟨hl, _⟩
        · exact le_of_eq he2.symm
        · exact le_of_lt hl
      · rcases b2 with he2 | ⟨_, hh⟩
        · exact lt_of_eq_of_lt he2 (getD_lt_of_pairwise _ hincr _ _ (by omega) b1)
        · exact hh

/-- Claim C29, counterexample: at not-a-number every comparison is false. On the three
closed bins with the boundaries 0, 1, 3, 6 the linear search then walks past the last
boundary and returns 3, which is `m_bins`, and the bisection moves `nbelow` up to the
last boundary and returns 2, which is `m_bins - 1`. -/
theorem linear_and_binary_search_differ_at_nan :
    BinningData.arbitrary .closed unevenBoundaries none = .ok closedUneven ∧
    unevenBoundaries.Pairwise (fun a b => a < b) ∧
    closedUneven.bins = 3 ∧
    searchInVectorWithBoundary FloatValue.nan closedUneven = 3 ∧
    binarySearchWithBoundary FloatValue.nan closedUneven = 2 := by
  refine ⟨by decide!, by decide!, by decide, by decide!, by decide!⟩

/-- Claim C29, amended: on an object the constructor for arbitrary binning made of
strictly increasing finite boundaries (the constructor asserts that there are at least two),
for either option and every value that is not not-a-number, finite or infinite,
`searchInVectorWithBoundary` and `binarySearchWithBoundary` return the same bin, so at
every finite value the function the constructor selects at 50 bins returns what the
linear search returns. -/
theorem linear_and_binary_search_agree (bOption : BinningOption) (bBoundaries : List Rat)
    (sBinData : Option BinningData) (bData : BinningData) (value : FloatValue)
    (unspecified : Rat → Rat → Int)
    (hctor : arbitrary bOption bBoundaries sBinData = .ok bData)
    (hincr : bBoundaries.Pairwise (fun a b => a < b)) (hnan : value ≠ FloatValue.nan) :
    searchInVectorWithBoundary value bData = binarySearchWithBoundary value bData ∧
    ∀ q : Rat, bData.m_functionPtr unspecified q =
      searchInVectorWithBoundary (FloatValue.finite q) bData := by
  obtain ⟨hlen, htype, hopt, hbd, hbins, _, hmax, _, _, _⟩ := arbitrary_fields _ _ _ _ hctor
  have hlen2 : 2 ≤ bData.fields.m_boundaries.length := by rw [hbd]; exact hlen
  have hbins2 : bData.fields.m_bins = bData.fields.m_boundaries.length - 1 := by
    rw [hbd]
    exact hbins
  have hmax2 : bData.fields.max =
      bData.fields.m_boundaries.getD (bData.fields.m_boundaries.length - 1) 0 := by
    rw [hbd]
    exact hmax
  have hincr2 : bData.fields.m_boundaries.Pairwise (fun a b => a < b) := by
    rw [hbd]
    exact hincr
  have hfinite := fun q : Rat =>
    binarySearch_eq_linear_of_finite q bData hlen2 hbins2 hmax2 hincr2
  have hs : sizeSub bData.fields.m_bins 1 = sizeSub bData.fields.m_boundaries.length 2 := by
    rw [hbins2, sizeSub_of_le _ 2 hlen2, sizeSub_of_le _ 1 (by omega)]
    omega
  refine ⟨?_, ?_⟩
  · cases value with
    | nan => exact absurd rfl hnan
    | negInf =>
      unfold searchInVectorWithBoundary binarySearchWithBoundary
      rw [if_pos (show FloatValue.negInf.le _ from trivial),
        if_pos (show FloatValue.negInf.le _ from trivial)]
    | finite q => exact hfinite q
    | posInf =>
      unfold searchInVectorWithBoundary binarySearchWithBoundary
      rw [if_neg (show ¬ FloatValue.posInf.le _ from id),
        if_neg (show ¬ FloatValue.posInf.le _ from id),
        if_pos (show FloatValue.posInf.ge _ from trivial),
        if_pos (show FloatValue.posInf.ge _ from trivial), hs]
  · intro q
    unfold m_functionPtr
    rw [htype]
    simp only
    split_ifs
    · rfl
    · exact (hfinite q).symm

theorem linear_and_binary_search_agree_witness :
    BinningData.arbitrary .closed unevenBoundaries none = .ok closedUneven ∧
    unevenBoundaries.Pairwise (fun a b => a < b) ∧
    searchInVectorWithBoundary (FloatValue.finite 4) closedUneven =
      binarySearchWithBoundary (FloatValue.finite 4) closedUneven ∧
    binarySearchWithBoundary (FloatValue.finite 4) closedUneven = 2 ∧
    searchInVectorWithBoundary FloatValue.posInf closedUneven = 0 := by
  have hctor : BinningData.arbitrary .closed unevenBoundaries none = .ok closedUneven := by
    decide!
  have hincr : unevenBoundaries.Pairwise (fun a b => a < b) := by
    decide!
  exact ⟨hctor, hincr,
    (linear_and_binary_search_agree .closed unevenBoundaries none closedUneven
      (FloatValue.finite 4) leastInt hctor hincr (fun h => by cases h)).1, by decide!, by decide!⟩

end BinningData

end Acts

/-! ## Binning data: neighbours of a closed binning, and the bin centre -/

namespace Acts

namespace BinningData

/-- Claim C34, counterexample: in a closed binning with two bins the lower and the
higher neighbour of a bin are the same bin, and `neighbourRange` lists it twice. -/
theorem neighbourRange_closed_two_bins_repeats :
    BinningData.equidistant .closed 2 0 2 none false = .ok closedTwo ∧
    closedTwo.neighbourRange 0 = [1, 0, 1] ∧ closedTwo.neighbourRange 1 = [0, 1, 0] ∧
    ¬ (closedTwo.neighbourRange 0).Nodup := by
  refine ⟨by decide!, by decide, by decide, by decide⟩

/-- Claim C34, amended: for every open binning, and for every closed binning whose
number of bins is not two, `neighbourRange(bin)` lists no bin twice for every bin
below `m_bins`. -/
theorem neighbourRange_nodup (self : BinningData) (bin : Nat)
    (hcase : self.fields.option = .«open» ∨ self.fields.m_bins ≠ 2)
    (hbins : self.fields.m_bins < 18446744073709551616) (hbin : bin < self.fields.m_bins) :
    (self.neighbourRange bin).Nodup := by
  have h1 : sizeAdd bin 1 = bin + 1 := sizeAdd_one bin (by omega)
  have h2 : sizeSub self.fields.m_bins 1 = self.fields.m_bins - 1 :=
    sizeSub_of_le _ 1 (by omega)
  rcases option_cases self.fields.option with ho | hc
  · by_cases h0 : 0 < bin <;> by_cases hl : bin + 1 < self.fields.m_bins
    · have hne : ¬ bin = bin - 1 := by omega
      simp [neighbourRange, decrement, increment, h1, ho, h0, hl, hne]
      omega
    · have hne : ¬ bin = bin - 1 := by omega
      simp [neighbourRange, decrement, increment, h1, ho, h0, hl, hne]
      omega
    · have hz : bin = 0 := by omega
      subst hz
      simp [neighbourRange, decrement, increment, sizeAdd, ho, hl]
    · have hz : bin = 0 := by omega
      subst hz
      simp [neighbourRange, decrement, increment, sizeAdd, ho, hl]
  · have hno : ¬ self.fields.option = .«open» := by
      rw [hc]
      decide
    have hne : self.fields.m_bins ≠ 2 := by
      rcases hcase with h | h
      · exact absurd h hno
      · exact h
    by_cases h0 : 0 < bin <;> by_cases hl : bin + 1 < self.fields.m_bins
    · have hne : ¬ bin = bin - 1 := by omega
      simp [neighbourRange, decrement, increment, h1, h0, hl, hne]
      omega
    · have hne : ¬ bin = bin - 1 := by omega
      have hne0 : ¬ bin = 0 := by omega
      simp [neighbourRange, decrement, increment, h1, hno, h0, hl, hne, hne0]
      omega
    · have hz : bin = 0 := by omega
      subst hz
      have hm : ¬ 0 = self.fields.m_bins - 1 := by omega
      have hl1 : 1 < self.fields.m_bins := by omega
      simp [neighbourRange, decrement, increment, sizeAdd, h2, hno, hl1, hm]
      omega
    · have hz : bin = 0 := by omega
      subst hz
      have hm : self.fields.m_bins - 1 = 0 := by omega
      have hl1 : ¬ 1 < self.fields.m_bins := by omega
      simp [neighbourRange, decrement, increment, sizeAdd, h2, hno, hl1, hm]

theorem neighbourRange_nodup_witness :
    (closedThree.neighbourRange 0).Nodup ∧ closedThree.neighbourRange 0 = [2, 0, 1] :=
  ⟨neighbourRange_nodup closedThree 0 (Or.inr (by decide)) (by decide) (by decide), by decide⟩

/-- Below the last boundary `center` is the midpoint of the two boundaries of the
bin. -/
theorem center_of_lt (self : BinningData) (bin : Nat) (lo hi : Rat)
    (hlo : self.boundaries[bin]? = some lo) (hhi : self.boundaries[bin + 1]? = some hi) :
    self.center bin = .ok (1 / 2 * (lo + hi)) := by
  have hlen : bin + 1 < self.boundaries.length := by
    by_contra hc
    rw [List.getElem?_eq_none (by omega)] at hhi
    cases hhi
  unfold center
  rw [if_pos (by omega), hlo, hhi]

/-- From the number of boundaries on `center` is 0. -/
theorem center_of_ge (self : BinningData) (bin : Nat) (h : self.boundaries.length ≤ bin) :
    self.center bin = .ok 0 := by
  unfold center
  rw [if_neg (by omega)]

/-- Claim C33 (the code at the failing input): in the binning with three bins that the
constructor for equidistant binning makes of the interval from 0 to 3, `boundaries()`
has four entries; `center(2)` is the midpoint 5/2 and `center(4)` is 0, but
`center(3)`, for the first bin that is not below `bins()`, passes the guard
`bin < bvals.size()` and reads `bvals[4]`, past the end of the vector. -/
theorem center_reads_past_the_end :
    BinningData.equidistant .«open» 3 0 3 none false = .ok openThree ∧
    openThree.bins = 3 ∧ openThree.boundaries = [0, 1, 2, 3] ∧
    openThree.center 2 = .ok (5 / 2) ∧
    openThree.center 3 = .error .undefinedBehaviour ∧
    openThree.center 4 = .ok 0 := by
  refine ⟨by decide!, by decide, by decide, by decide!, by decide!, by decide!⟩

end BinningData

/-! ## Boundary surfaces handed to the sorter -/

namespace TrackingVolume

/-- The loop appends to what it has collected the surfaces whose representation is
not the excluded object, in their order. -/
theorem compatibleBoundariesLoop_eq_filter (excludeObject : Option Nat) :
    ∀ (bSurfaces nonExcludedBoundaries : List BoundarySurfaceT),
      compatibleBoundariesLoop excludeObject bSurfaces nonExcludedBoundaries =
        nonExcludedBoundaries ++
          bSurfaces.filter (fun b => decide (excludeObject ≠ some b.surfaceRepresentation)) := by
  intro bSurfaces
  induction bSurfaces with
  | nil =>
    intro acc
    simp [compatibleBoundariesLoop]
  | cons b rest ih =>
    intro acc
    by_cases h : excludeObject = some b.surfaceRepresentation
    · have hc : (excludeObject.isSome && (excludeObject == some b.surfaceRepresentation))
          = true := by
        rw [h]
        simp
      simp only [compatibleBoundariesLoop, hc, if_true]
      rw [ih, List.filter_cons_of_neg (by simpa using h)]
    · have hc : ¬ (excludeObject.isSome && (excludeObject == some b.surfaceRepresentation))
          = true := by
        simp [h]
      simp only [compatibleBoundariesLoop, if_neg hc]
      rw [ih, List.filter_cons_of_pos (by simpa using h), List.append_assoc]
      rfl

/-- Claim C36: `compatibleBoundaries` returns what the sorter returns for the
parameters, the options, the corrector and the list of the volume's boundary surfaces
whose surface representation is not `options.startObject`, in their original order;
when `startObject` is null the sorter gets every boundary surface. -/
theorem compatibleBoundaries_hands_non_excluded
    {parameters_t options_t corrector_t result_t : Type}
    (self : TrackingVolume) (parameters : parameters_t) (options : options_t)
    (startObject : options_t → Option Nat) (corrfnc : corrector_t)
    (sorter : List BoundarySurfaceT → parameters_t → options_t → corrector_t → result_t) :
    self.compatibleBoundaries parameters options startObject corrfnc sorter =
      sorter (self.boundarySurfaces.filter
        (fun b => decide (startObject options ≠ some b.surfaceRepresentation)))
        parameters options corrfnc ∧
    (self.boundarySurfaces.filter
      (fun b => decide (startObject options ≠ some b.surfaceRepresentation))).Sublist
        self.boundarySurfaces ∧
    (startObject options = none →
      self.compatibleBoundaries parameters options startObject corrfnc sorter =
        sorter self.boundarySurfaces parameters options corrfnc) := by
  have h := compatibleBoundariesLoop_eq_filter (startObject options) self.boundarySurfaces []
  rw [List.nil_append] at h
  refine ⟨?_, List.filter_sublist _, ?_⟩
  · unfold compatibleBoundaries
    rw [h]
  · intro hnone
    unfold compatibleBoundaries
    rw [h, hnone]
    simp

end TrackingVolume

end Acts

/-! ## The telescope detector element: adding an aligned transform -/

namespace ActsExamples.Telescope

open Acts

namespace TelescopeDetectorElement

/-- For the largest `unsigned int` as interval of validity the condition `ic <= iov`
of the loop never fails. -/
theorem addAlignedTransformLoop_diverges :
    ∀ (fuel ic : Nat) (transforms : List (Option Transform3)),
      ic < 4294967296 → addAlignedTransformLoop 4294967295 fuel ic transforms = none := by
  intro fuel
  induction fuel with
  | zero =>
    intro ic transforms _
    rfl
  | succ f ih =>
    intro ic transforms hic
    simp only [addAlignedTransformLoop]
    rw [if_pos (by omega)]
    exact ih _ _ (Nat.mod_lt _ (by decide))

/-- For a smaller interval of validity the loop pushes null pointers until the vector
has `iov + 1` entries, and is left by its condition. -/
theorem addAlignedTransformLoop_result (iov : Nat) (hiov : iov < 4294967295) :
    ∀ (fuel : Nat) (transforms : List (Option Transform3)),
      transforms.length < 4294967296 → iov + 1 - transforms.length < fuel →
      addAlignedTransformLoop iov fuel transforms.length transforms =
        some (transforms ++ List.replicate (iov + 1 - transforms.length) none) := by
  intro fuel
  induction fuel with
  | zero =>
    intro transforms _ h
    omega
  | succ f ih =>
    intro transforms hlen hf
    simp only [addAlignedTransformLoop]
    by_cases hc : transforms.length ≤ iov
    · rw [if_pos hc]
      have hmod : (transforms.length + 1) % 4294967296 = (transforms ++ [none]).length := by
        rw [List.length_append, List.length_singleton]
        omega
      rw [hmod, ih (transforms ++ [none])
        (by rw [List.length_append, List.length_singleton]; omega)
        (by rw [List.length_append, List.length_singleton]; omega)]
      rw [List.length_append, List.length_singleton, List.append_assoc]
      have hk : iov + 1 - transforms.length = (iov + 1 - (transforms.length + 1)) + 1 := by
        omega
      rw [hk, List.replicate_succ]
      rfl
    · rw [if_neg hc]
      have hk : iov + 1 - transforms.length = 0 := by omega
      rw [hk]
      simp

/-- Started at 0 for the interval of validity 0, the loop pushes one null pointer. -/
theorem addAlignedTransformLoop_once (transforms : List (Option Transform3)) :
    addAlignedTransformLoop 0 2 0 transforms = some (transforms ++ [none]) := by
  simp only [addAlignedTransformLoop]
  rw [if_pos (le_refl 0), if_neg (by decide)]

theorem crowdedElement_length : crowdedElement.m_alignedTransforms.length = 4294967296 :=
  List.length_replicate _ _

/-- Claim C35, counterexample: for the interval of validity 4294967295, the largest
`unsigned int`, the loop of `addAlignedTransform` never ends, with whatever number of
iterations: the vector never gets its 4294967296 entries and the transform is never
stored. And on an element with 4294967296 entries the loop counter starts at 0, so
`addAlignedTransform(7, 0)` appends an entry although `max(old size, iov + 1)` is the
old size. -/
theorem addAlignedTransform_largest_iov_diverges :
    nominalElement.alignedTransforms = [] ∧
    (∀ fuel : Nat, nominalElement.addAlignedTransform (some 7) 4294967295 fuel = none) ∧
    crowdedElement.alignedTransforms.length = 4294967296 ∧
    ∃ after : TelescopeDetectorElement,
      crowdedElement.addAlignedTransform (some 7) 0 2 = some (.ok after) ∧
      after.alignedTransforms.length = 4294967297 := by
  refine ⟨rfl, fun fuel => ?_, ?_, ?_⟩
  · unfold addAlignedTransform
    rw [addAlignedTransformLoop_diverges fuel _ _ (Nat.mod_lt _ (by decide))]
    rfl
  · exact crowdedElement_length
  · have hmod : crowdedElement.m_alignedTransforms.length % 4294967296 = 0 := by
      rw [crowdedElement_length]
    have hpos : 0 < (crowdedElement.m_alignedTransforms ++ [none]).length := by
      rw [List.length_append, List.length_singleton]
      omega
    refine ⟨{ crowdedElement with m_alignedTransforms :=
      (List.set (crowdedElement.m_alignedTransforms ++ [none]) 0 (some 7)) }, ?_, ?_⟩
    · unfold addAlignedTransform
      rw [hmod, addAlignedTransformLoop_once]
      simp only [Option.map_some']
      rw [if_pos hpos]
    · unfold alignedTransforms
      rw [List.length_set, List.length_append, List.length_singleton, crowdedElement_length]

/-- Claim C35, amended: for an interval of validity below 4294967295 and an element
with fewer than 4294967296 aligned transforms, `addAlignedTransform(t, iov)` returns
(with `iov + 2` iterations or more at hand); afterwards `alignedTransforms()` has
`max(old size, iov + 1)` entries, entry `iov` is `t`, every other entry that existed
before is unchanged, every entry newly created below `iov` is null, and the nominal
transform is as before. -/
theorem addAlignedTransform_effect (self : TelescopeDetectorElement)
    (alignedTransform : Option Transform3) (iov fuel : Nat) (hiov : iov < 4294967295)
    (hsize : self.m_alignedTransforms.length < 4294967296) (hfuel : iov + 2 ≤ fuel) :
    ∃ after : TelescopeDetectorElement,
      self.addAlignedTransform alignedTransform iov fuel = some (.ok after) ∧
      after.alignedTransforms.length = max self.alignedTransforms.length (iov + 1) ∧
      after.alignedTransforms[iov]? = some alignedTransform ∧
      (∀ j : Nat, j < self.alignedTransforms.length → j ≠ iov →
        after.alignedTransforms[j]? = self.alignedTransforms[j]?) ∧
      (∀ j : Nat, self.alignedTransforms.length ≤ j → j < iov →
        after.alignedTransforms[j]? = some none) ∧
      after.m_elementTransform = self.m_elementTransform := by
  have hloop := addAlignedTransformLoop_result iov hiov fuel self.m_alignedTransforms hsize
    (by omega)
  have hlen : (self.m_alignedTransforms ++
      List.replicate (iov + 1 - self.m_alignedTransforms.length) none).length =
      max self.m_alignedTransforms.length (iov + 1) := by
    rw [List.length_append, List.length_replicate]
    omega
  have hin : iov < (self.m_alignedTransforms ++
      List.replicate (iov + 1 - self.m_alignedTransforms.length) none).length := by
    rw [hlen]
    omega
  refine ⟨{ self with m_alignedTransforms := (List.set (self.m_alignedTransforms ++
      List.replicate (iov + 1 - self.m_alignedTransforms.length) none) iov alignedTransform) },
    ?_, ?_, ?_, ?_, ?_, rfl⟩
  · unfold addAlignedTransform
    rw [Nat.mod_eq_of_lt hsize, hloop]
    simp only [Option.map_some']
    rw [if_pos hin]
  · simp only [alignedTransforms, List.length_set]
    exact hlen
  · simp only [alignedTransforms]
    rw [List.getElem?_set, if_pos rfl]
    simp
    omega
  · intro j hj hne
    simp only [alignedTransforms] at hj ⊢
    rw [List.getElem?_set, if_neg (fun h => hne h.symm), List.getElem?_append_left hj]
  · intro j hj hlt
    simp only [alignedTransforms] at hj ⊢
    rw [List.getElem?_set, if_neg (by omega), List.getElem?_append_right hj,
      List.getElem?_replicate, if_pos (by omega)]

theorem addAlignedTransform_effect_witness :
    nominalElement.addAlignedTransform (some 7) 1 3 = some (.ok alignedAtOne) ∧
    ∃ after : TelescopeDetectorElement,
      alignedAtOne.addAlignedTransform (some 9) 3 5 = some (.ok after) ∧
      after.alignedTransforms.length = 4 ∧ after.alignedTransforms[3]? = some (some 9) ∧
      after.alignedTransforms[1]? = some (some 7) ∧ after.alignedTransforms[2]? = some none := by
  refine ⟨by decide, ?_⟩
  obtain ⟨after, h1, h2, h3, h4, h5, _⟩ :=
    addAlignedTransform_effect alignedAtOne (some 9) 3 5 (by decide) (by decide) (by decide)
  exact ⟨after, h1, h2, h3, h4 1 (by decide) (by decide), h5 2 (by decide) (by decide)⟩

end TelescopeDetectorElement

end ActsExamples.Telescope

/-! ## Binning data: bins and boundaries with a sub binning -/

namespace Acts

namespace BinningData

/-- A master boundary that is not the first sub boundary is pushed back. -/
theorem additiveLoop_cons_of_no_match (sBinMin : Rat) (subBinBoundaries : List Rat) (x : Rat)
    (rest total : List Rat) (hx : ¬ |x - sBinMin| < 1 / 1000000000) :
    additiveLoop sBinMin subBinBoundaries (x :: rest) total =
      additiveLoop sBinMin subBinBoundaries rest (total ++ [x]) := by
  cases rest with
  | nil => simp only [additiveLoop, if_neg hx]
  | cons y rest2 => simp only [additiveLoop, if_neg hx]

/-- Master boundaries none of which is the first sub boundary are all pushed back. -/
theorem additiveLoop_of_no_match (sBinMin : Rat) (subBinBoundaries : List Rat) :
    ∀ (l total : List Rat), (∀ z ∈ l, ¬ |z - sBinMin| < 1 / 1000000000) →
      additiveLoop sBinMin subBinBoundaries l total = .ok (total ++ l) := by
  intro l
  induction l with
  | nil =>
    intro total _
    simp [additiveLoop]
  | cons x rest ih =>
    intro total h
    rw [additiveLoop_cons_of_no_match _ _ _ _ _ (h x (List.mem_cons_self _ _)),
      ih _ (fun z hz => h z (List.mem_cons_of_mem _ hz)), List.append_assoc]
    rfl

/-- When one master boundary, not the last, is the first sub boundary, the sub
boundaries are put in front and the master boundary after it is left out. -/
theorem additiveLoop_of_one_match (sBinMin : Rat) (subBinBoundaries : List Rat)
    (pre post : List Rat) (x y : Rat) (total : List Rat)
    (hpre : ∀ z ∈ pre, ¬ |z - sBinMin| < 1 / 1000000000)
    (hx : |x - sBinMin| < 1 / 1000000000)
    (hpost : ∀ z ∈ post, ¬ |z - sBinMin| < 1 / 1000000000) :
    additiveLoop sBinMin subBinBoundaries (pre ++ x :: y :: post) total =
      .ok (subBinBoundaries ++ (total ++ pre) ++ post) := by
  induction pre generalizing total with
  | nil =>
    simp only [List.nil_append, additiveLoop, if_pos hx]
    rw [additiveLoop_of_no_match _ _ _ _ hpost]
    simp
  | cons p pre2 ih =>
    rw [List.cons_append, additiveLoop_cons_of_no_match _ _ _ _ _
      (hpre p (List.mem_cons_self _ _)), ih _ (fun z hz => hpre z (List.mem_cons_of_mem _ hz))]
    simp

/-- The number of entries of a list that joins lists of one length. -/
theorem length_flatMap_of_const {α β : Type} (g : α → List β) (c : Nat)
    (hg : ∀ a, (g a).length = c) : ∀ l : List α, (l.flatMap g).length = l.length * c := by
  intro l
  induction l with
  | nil => simp
  | cons a rest ih =>
    rw [List.flatMap_cons, List.length_append, ih, hg, List.length_cons, Nat.succ_mul]
    omega

/-- What `checkSubStructure()` stores as total boundaries when there is a sub
binning. -/
theorem checkSubStructure_boundaries (f f2 : BinningFields) (sub : BinningData)
    (h : checkSubStructure f (some sub) = .ok f2) :
    (f.subBinningAdditive = true →
      ∃ total, additiveLoop (sub.boundaries.getD 0 0) sub.boundaries f.m_boundaries [] = .ok total ∧
        f2.m_totalBoundaries = total.insertionSort (fun a b => a ≤ b)) ∧
    (f.subBinningAdditive = false →
      f2.m_totalBoundaries =
        (f.min :: (List.range f.m_bins).flatMap (fun ib : Nat =>
          (sub.boundaries.drop 1).map (fun sb => (ib : Rat) * f.step + sb))).insertionSort
            (fun a b => a ≤ b)) := by
  simp only [checkSubStructure] at h
  by_cases ha : f.subBinningAdditive = true
  · rw [if_pos ha] at h
    refine ⟨fun _ => ?_, fun hf => absurd ha (by rw [hf]; decide)⟩
    cases hb : sub.boundaries with
    | nil =>
      rw [hb] at h
      cases h
    | cons sBinMin subRest =>
      rw [hb] at h
      obtain ⟨total, ht, hf2⟩ := MultiTrajectory.except_map_eq_ok _ _ _ h
      subst hf2
      exact ⟨total, ht, rfl⟩
  · rw [if_neg ha] at h
    refine ⟨fun hf => absurd hf ha, fun _ => ?_⟩
    simp only [Except.ok.injEq] at h
    subst h
    rfl

/-- Either constructor with a sub binning runs `checkSubStructure()` on members that
have one boundary more than bins. -/
theorem constructed_with_sub (bData sub : BinningData)
    (hctor : (∃ (bOption : BinningOption) (bBins : Nat) (bMin bMax : Rat) (sBinAdditive : Bool),
        equidistant bOption bBins bMin bMax (some sub) sBinAdditive = .ok bData) ∨
      (∃ (bOption : BinningOption) (bBoundaries : List Rat),
        arbitrary bOption bBoundaries (some sub) = .ok bData)) :
    ∃ f f2 : BinningFields, checkSubStructure f (some sub) = .ok f2 ∧ bData = withSub f2 sub ∧
      f.m_boundaries.length = f.m_bins + 1 := by
  rcases hctor with ⟨bOption, bBins, bMin, bMax, sBinAdditive, h⟩ | ⟨bOption, bBoundaries, h⟩
  · unfold equidistant at h
    obtain ⟨f2, hf2, hb⟩ := MultiTrajectory.except_map_eq_ok _ _ _ h
    exact ⟨_, f2, hf2, hb.symm, by simp⟩
  · unfold arbitrary at h
    by_cases hl : bBoundaries.length > 1
    · rw [if_pos hl] at h
      obtain ⟨f2, hf2, hb⟩ := MultiTrajectory.except_map_eq_ok _ _ _ h
      refine ⟨_, f2, hf2, hb.symm, ?_⟩
      simp only
      rw [sizeSub_of_le _ 1 (by omega)]
      omega
    · rw [if_neg hl] at h
      cases h

/-- Claim C32, counterexample: two bins of width one on the interval from 0 to 2 with
an additive sub binning of two bins on the interval from 1/2 to 3/2. No master
boundary is the first sub boundary, so no bin is replaced: `bins()` is 3 and
`boundaries()` has the 3 master boundaries, not 4 values. -/
theorem misplaced_sub_binning_boundaries :
    BinningData.equidistant .«open» 2 (1 / 2) (3 / 2) none false = .ok shiftedHalves ∧
    BinningData.equidistant .«open» 2 0 2 (some shiftedHalves) true = .ok misplacedSub ∧
    misplacedSub.bins = 3 ∧ misplacedSub.boundaries = [0, 1, 2] ∧
    misplacedSub.boundaries.length ≠ misplacedSub.bins + 1 := by
  refine ⟨by decide!, by decide!, by decide, by decide, by decide⟩

/-- Claim C32, amended: for every object constructed with a sub binning whose
`boundaries()` has `sub.bins() + 1` entries, `bins()` is `m_bins + sub.bins() - 1`
(additive) or `m_bins * sub.bins()` (multiplicative) and `boundaries()` is sorted in
non-decreasing order; it has exactly `bins() + 1` entries in the multiplicative case,
and in the additive case when one master boundary that is not the last is the first
sub boundary (within `10e-10`) and no master boundary other than that one and the one
after it is. -/
theorem bins_and_boundaries_with_sub (bData sub : BinningData)
    (hctor : (∃ (bOption : BinningOption) (bBins : Nat) (bMin bMax : Rat) (sBinAdditive : Bool),
        equidistant bOption bBins bMin bMax (some sub) sBinAdditive = .ok bData) ∨
      (∃ (bOption : BinningOption) (bBoundaries : List Rat),
        arbitrary bOption bBoundaries (some sub) = .ok bData))
    (hsub : sub.boundaries.length = sub.bins + 1) :
    bData.subBinningData = some sub ∧
    (bData.fields.subBinningAdditive = true → 1 ≤ bData.fields.m_bins + sub.bins →
      bData.bins = bData.fields.m_bins + sub.bins - 1) ∧
    (bData.fields.subBinningAdditive = false → bData.bins = bData.fields.m_bins * sub.bins) ∧
    bData.boundaries.Sorted (fun a b => a ≤ b) ∧
    (bData.fields.subBinningAdditive = false → bData.boundaries.length = bData.bins + 1) ∧
    (bData.fields.subBinningAdditive = true →
      ∀ (pre post : List Rat) (x y : Rat), bData.fields.m_boundaries = pre ++ x :: y :: post →
        (∀ z ∈ pre, ¬ |z - sub.boundaries.getD 0 0| < 1 / 1000000000) →
        |x - sub.boundaries.getD 0 0| < 1 / 1000000000 →
        (∀ z ∈ post, ¬ |z - sub.boundaries.getD 0 0| < 1 / 1000000000) →
        bData.boundaries.length = bData.bins + 1) := by
  obtain ⟨f, f2, hf2, hb, hlen⟩ := constructed_with_sub bData sub hctor
  obtain ⟨_, _, _, _, _, _, h7, h8, h9, _, h11, h12⟩ := checkSubStructure_fields _ _ _ hf2
  obtain ⟨badd, bmul⟩ := checkSubStructure_boundaries _ _ _ hf2
  subst hb
  have hfields : (withSub f2 sub).fields = f2 := rfl
  have hbins : (withSub f2 sub).bins = f2.m_totalBins := rfl
  have hbd : (withSub f2 sub).boundaries = f2.m_totalBoundaries := rfl
  rw [hfields, hbins, hbd, h7, h8, h9]
  refine ⟨rfl, ?_, ?_, ?_, ?_, ?_⟩
  · intro ha h1
    rw [h11 sub rfl ha, sizeSub_of_le _ 1 h1]
  · intro ha
    exact h12 sub rfl ha
  · by_cases ha : f.subBinningAdditive = true
    · obtain ⟨total, _, ht⟩ := badd ha
      rw [ht]
      exact List.sorted_insertionSort _ _
    · rw [bmul (by simpa using ha)]
      exact List.sorted_insertionSort _ _
  · intro ha
    rw [bmul ha, h12 sub rfl ha, List.length_insertionSort, List.length_cons,
      length_flatMap_of_const _ (sub.boundaries.length - 1)
        (fun a => by rw [List.length_map, List.length_drop]),
      List.length_range, hsub]
    simp
  · intro ha pre post x y hM hpre hx hpost
    obtain ⟨total, hloop, ht⟩ := badd ha
    rw [hM, additiveLoop_of_one_match _ _ _ _ _ _ _ hpre hx hpost] at hloop
    have htot : total = sub.boundaries ++ ([] ++ pre) ++ post := by
      cases hloop
      rfl
    have hm : f.m_bins = pre.length + post.length + 1 := by
      rw [hM] at hlen
      simp only [List.length_append, List.length_cons] at hlen
      omega
    rw [ht, h11 sub rfl ha, List.length_insertionSort, htot, sizeSub_of_le _ 1 (by omega)]
    simp only [List.length_append, List.nil_append, hsub, hm]
    omega

theorem bins_and_boundaries_with_sub_witness :
    firstBinHalved.bins = 3 ∧ firstBinHalved.boundaries = [0, 1 / 2, 1, 2] ∧
    firstBinHalved.boundaries.length = firstBinHalved.bins + 1 ∧
    fourTimesTwo.boundaries.length = fourTimesTwo.bins + 1 := by
  have h1 := bins_and_boundaries_with_sub firstBinHalved halfBins
    (Or.inl ⟨.«open», 2, 0, 2, true, by decide!⟩) (by decide)
  have h2 := bins_and_boundaries_with_sub fourTimesTwo halfBins
    (Or.inl ⟨.closed, 4, 0, 4, false, by decide!⟩) (by decide)
  refine ⟨h1.2.1 rfl (by decide), by decide!, ?_, h2.2.2.2.2.1 rfl⟩
  exact h1.2.2.2.2.2 rfl [] [2] 0 1 rfl (by simp) (by decide!) (by decide!)

end BinningData

end Acts

/-! ## Binning data: equidistant against arbitrary binning -/

namespace Acts

namespace BinningData

theorem truncate_of_nonneg (q : Rat) (h : 0 ≤ q) : truncate q = ⌊q⌋ := by
  unfold truncate
  rw [if_pos h]
  rfl

theorem truncate_nonpos (q : Rat) (h : q ≤ 0) : truncate q ≤ 0 := by
  by_cases h0 : 0 ≤ q
  · rw [truncate_of_nonneg q h0]
    have hq : q = 0 := le_antisymm h h0
    rw [hq]
    simp
  · unfold truncate
    rw [if_neg h0]
    have h1 : (0 : Int) ≤ Rat.floor (-q) := Rat.le_floor.mpr (by
      push_cast
      linarith)
    omega

theorem sizeOfInt_natCast (k : Nat) (h : k < 18446744073709551616) : sizeOfInt (k : Int) = k := by
  unfold sizeOfInt
  omega

/-- Without a sub binning `search` is 0 for a zero-dimensional object and the selected
search function otherwise. -/
theorem search_of_no_sub (bData : BinningData) (unspecified : Rat → Rat → Int) (value : Rat)
    (h : bData.subBinningData = none) :
    bData.search unspecified value =
      if bData.fields.zdim then 0 else bData.m_functionPtr unspecified value := by
  cases bData with
  | single f => rfl
  | withSub f sub => cases h

/-- The equidistant search in terms of the converted quotient. -/
theorem searchEquidistantWithBoundary_eq (value : Rat) (bData : BinningData)
    (unspecified : Rat → Rat → Int) (bin : Int)
    (hb1 : 1 ≤ bData.fields.m_bins) (hb2 : bData.fields.m_bins < 18446744073709551616)
    (hbin : quotientToInt (value - bData.fields.min) bData.fields.step unspecified = bin) :
    searchEquidistantWithBoundary value bData unspecified =
      if bData.fields.option = .closed ∧ value < bData.fields.min then bData.fields.m_bins - 1
      else if bData.fields.option = .closed ∧ value > bData.fields.max then 0
      else if bin < 0 then (if bData.fields.option = .«open» then 0 else bData.fields.m_bins - 1)
      else if bin ≤ ((bData.fields.m_bins - 1 : Nat) : Int) then bin.toNat
      else (if bData.fields.option = .«open» then bData.fields.m_bins - 1 else 0) := by
  unfold searchEquidistantWithBoundary
  rw [hbin, sizeSub_of_le _ 1 hb1]
  simp only
  by_cases c1 : bData.fields.option = .closed ∧ value < bData.fields.min
  · rw [if_pos c1, if_pos c1]
  · rw [if_neg c1, if_neg c1]
    by_cases c2 : bData.fields.option = .closed ∧ value > bData.fields.max
    · rw [if_pos c2, if_pos c2]
    · rw [if_neg c2, if_neg c2]
      by_cases c3 : bin < 0
      · rw [if_pos c3, if_pos c3]
        by_cases c4 : bData.fields.option = .«open»
        · simp only [c4, if_true]
          rw [if_pos (by omega)]
          unfold sizeOfInt
          omega
        · simp only [c4, if_false]
          rw [if_pos (le_refl _)]
          exact sizeOfInt_natCast _ (by omega)
      · rw [if_neg c3, if_neg c3]
        by_cases c5 : bin ≤ ((bData.fields.m_bins - 1 : Nat) : Int)
        · rw [if_pos c5, if_pos c5]
          unfold sizeOfInt
          omega
        · rw [if_neg c5, if_neg c5]

/-- The function the constructor for arbitrary binning selects returns what the linear
search returns when the boundaries are strictly increasing. -/
theorem m_functionPtr_of_arbitrary (bData : BinningData) (unspecified : Rat → Rat → Int)
    (value : Rat) (htype : bData.fields.type = .arbitrary)
    (hlen : 2 ≤ bData.fields.m_boundaries.length)
    (hbins : bData.fields.m_bins = bData.fields.m_boundaries.length - 1)
    (hmax : bData.fields.max =
      bData.fields.m_boundaries.getD (bData.fields.m_boundaries.length - 1) 0)
    (hincr : bData.fields.m_boundaries.Pairwise (fun a b => a < b)) :
    bData.m_functionPtr unspecified value =
      searchInVectorWithBoundary (FloatValue.finite value) bData := by
  unfold m_functionPtr
  rw [htype]
  simp only
  split_ifs
  · rfl
  · exact (binarySearch_eq_linear_of_finite value bData hlen hbins hmax hincr).symm

/-- Between the outer boundaries the linear search returns the bin whose boundaries
enclose the value. -/
theorem searchInVectorLoop_of_encloses (value : Rat) (l : List Rat)
    (hincr : l.Pairwise (fun a b => a < b)) (k : Nat) (hk : k + 1 < l.length)
    (hlo : l.getD k 0 ≤ value) (hhi : value < l.getD (k + 1) 0) :
    sizeSub (searchInVectorLoop value l 0) 1 = k := by
  have h0 : l.getD 0 0 ≤ l.getD k 0 := by
    rcases Nat.eq_zero_or_pos k with hz | hp
    · rw [hz]
    · exact le_of_lt (getD_lt_of_pairwise l hincr _ _ hp (by omega))
  have hn : l.getD (k + 1) 0 ≤ l.getD (l.length - 1) 0 := by
    rcases Nat.eq_or_lt_of_le (Nat.le_sub_one_of_lt hk) with he | hl
    · rw [he]
    · exact le_of_lt (getD_lt_of_pairwise l hincr _ _ hl (by omega))
  by_cases hv : l.getD 0 0 < value
  · obtain ⟨e1, e2, e3⟩ :=
      searchInVectorLoop_encloses value l (by omega) hv (lt_of_lt_of_le hhi hn)
    exact enclosing_bin_unique l hincr value _ _ e1 hk e2 e3 hlo hhi
  · have hk0 : k = 0 := by
      by_contra hne
      have := getD_lt_of_pairwise l hincr 0 k (by omega) (by omega)
      exact hv (lt_of_lt_of_le this hlo)
    subst hk0
    obtain ⟨_, _, h3, h4⟩ := searchInVectorLoop_spec value l 0
    simp only [Nat.sub_zero] at h3 h4
    have hr2 : searchInVectorLoop value l 0 ≤ 1 := by
      by_contra hc
      have := h3 1 (by omega)
      exact absurd hhi (not_lt.mpr this)
    have hr1 : 1 ≤ searchInVectorLoop value l 0 := by
      by_contra hc
      have hz : searchInVectorLoop value l 0 = 0 := by omega
      rw [hz] at h4
      have := h4 (by omega)
      exact absurd hlo (not_le.mpr this)
    rw [sizeSub_of_le _ 1 hr1]
    omega

end BinningData

end Acts

namespace Acts

namespace BinningData

theorem equidistantBoundaries_getD (n : Nat) (bMin bMax : Rat) (i : Nat) (hi : i ≤ n) :
    ((List.range (n + 1)).map
      (fun i : Nat => bMin + (i : Rat) * (bMax - bMin) / (n : Rat))).getD i 0 =
      bMin + (i : Rat) * ((bMax - bMin) / (n : Rat)) := by
  rw [List.getD_eq_getElem?_getD, List.getElem?_map, List.getElem?_range (by omega)]
  simp only [Option.map_some', Option.getD_some]
  rw [mul_div_assoc]

theorem equidistantBoundaries_pairwise (n : Nat) (bMin bMax : Rat) (hn : 1 ≤ n)
    (hlt : bMin < bMax) :
    ((List.range (n + 1)).map
      (fun i : Nat => bMin + (i : Rat) * (bMax - bMin) / (n : Rat))).Pairwise
        (fun a b => a < b) := by
  refine List.Pairwise.map _ (fun a b hab => ?_) (List.pairwise_lt_range _)
  have hN : (0 : Rat) < (n : Rat) := by exact_mod_cast hn
  have hstep : 0 < (bMax - bMin) / (n : Rat) := div_pos (sub_pos.mpr hlt) hN
  have hab2 : (a : Rat) < (b : Rat) := by exact_mod_cast hab
  rw [mul_div_assoc, mul_div_assoc]
  have := mul_lt_mul_of_pos_right hab2 hstep
  linarith

/-- The equidistant search and the linear search over the equidistant boundaries, in
terms of the converted quotient `bin`. -/
theorem equidistant_eq_linear_core (o : BinningOption) (n : Nat) (bMin bMax value : Rat)
    (bin : Int) (B : List Rat) (hn2 : 2 ≤ n) (hlt : bMin < bMax)
    (hB : B = (List.range (n + 1)).map
      (fun i : Nat => bMin + (i : Rat) * (bMax - bMin) / (n : Rat)))
    (hbin : (o = .closed → bMin ≤ value ∧ value ≤ bMax) →
      bin = truncate ((value - bMin) / ((bMax - bMin) / (n : Rat))))
    (hne : ¬ (o = .closed ∧ value = bMin)) :
    (if o = .closed ∧ value < bMin then n - 1
      else if o = .closed ∧ value > bMax then 0
      else if bin < 0 then (if o = .«open» then 0 else n - 1)
      else if bin ≤ ((n - 1 : Nat) : Int) then bin.toNat
      else (if o = .«open» then n - 1 else 0)) =
    (if value ≤ bMin then (if o = .closed then n - 1 else 0)
      else if value ≥ bMax then (if o = .closed then 0 else n - 1)
      else sizeSub (searchInVectorLoop value B 0) 1) := by
  have hN : (0 : Rat) < (n : Rat) := by
    have : 0 < n := by omega
    exact_mod_cast this
  have hstep : 0 < (bMax - bMin) / (n : Rat) := div_pos (sub_pos.mpr hlt) hN
  have hnstep : (n : Rat) * ((bMax - bMin) / (n : Rat)) = bMax - bMin := by
    field_simp
  have hBlen : B.length = n + 1 := by
    rw [hB, List.length_map, List.length_range]
  have hBinc : B.Pairwise (fun a b => a < b) := by
    rw [hB]
    exact equidistantBoundaries_pairwise n bMin bMax (by omega) hlt
  have hBk : ∀ k : Nat, k ≤ n → B.getD k 0 = bMin + (k : Rat) * ((bMax - bMin) / (n : Rat)) := by
    intro k hk
    rw [hB]
    exact equidistantBoundaries_getD n bMin bMax k hk
  rcases lt_trichotomy value bMin with ha | hb | hc
  · -- below the range
    have hq : (value - bMin) / ((bMax - bMin) / (n : Rat)) ≤ 0 :=
      le_of_lt (div_neg_of_neg_of_pos (sub_neg.mpr ha) hstep)
    rw [if_pos (le_of_lt ha)]
    cases o with
    | closed => simp [ha]
    | «open» =>
      have hb0 : bin ≤ 0 := by
        rw [hbin (fun h => by cases h)]
        exact truncate_nonpos _ hq
      simp only [reduceCtorEq, false_and, if_false, if_true]
      split_ifs <;> omega
  · -- at the lower end
    cases o with
    | closed => exact absurd ⟨rfl, hb⟩ hne
    | «open» =>
      have hb0 : bin = 0 := by
        rw [hbin (fun h => by cases h), hb, sub_self, zero_div]
        rw [truncate_of_nonneg _ (le_refl _)]
        simp
      rw [if_pos (le_of_eq hb), hb0]
      simp only [reduceCtorEq, false_and, if_false, if_true]
      split_ifs <;> omega
  · rw [if_neg (not_le.mpr hc)]
    rcases lt_trichotomy value bMax with hd | he | hf
    · -- inside the range
      have hq0 : 0 ≤ (value - bMin) / ((bMax - bMin) / (n : Rat)) :=
        div_nonneg (le_of_lt (sub_pos.mpr hc)) (le_of_lt hstep)
      have hqn : (value - bMin) / ((bMax - bMin) / (n : Rat)) < (n : Rat) := by
        rw [div_lt_iff₀ hstep, hnstep]
        linarith
      have hbin2 : bin = ⌊(value - bMin) / ((bMax - bMin) / (n : Rat))⌋ := by
        rw [hbin (fun _ => ⟨le_of_lt hc, le_of_lt hd⟩), truncate_of_nonneg _ hq0]
      obtain ⟨k, hk⟩ := Int.eq_ofNat_of_zero_le (Int.floor_nonneg.mpr hq0)
      have hkn : k < n := by
        have h1 : ⌊(value - bMin) / ((bMax - bMin) / (n : Rat))⌋ < (n : Int) := by
          rw [Int.floor_lt]
          exact_mod_cast hqn
        rw [hk] at h1
        exact_mod_cast h1
      have hk1 : (k : Rat) ≤ (value - bMin) / ((bMax - bMin) / (n : Rat)) := by
        have := Int.floor_le ((value - bMin) / ((bMax - bMin) / (n : Rat)))
        rw [hk] at this
        exact_mod_cast this
      have hk2 : (value - bMin) / ((bMax - bMin) / (n : Rat)) < (k : Rat) + 1 := by
        have := Int.lt_floor_add_one ((value - bMin) / ((bMax - bMin) / (n : Rat)))
        rw [hk] at this
        exact_mod_cast this
      have hlo : B.getD k 0 ≤ value := by
        rw [hBk k (by omega)]
        have := (le_div_iff₀ hstep).mp hk1
        linarith
      have hhi : value < B.getD (k + 1) 0 := by
        rw [hBk (k + 1) (by omega)]
        have := (div_lt_iff₀ hstep).mp hk2
        push_cast
        linarith
      rw [if_neg (not_le.mpr hd),
        searchInVectorLoop_of_encloses value B hBinc k (by omega) hlo hhi, hbin2, hk]
      have c1 : ¬ (o = BinningOption.closed ∧ value < bMin) := fun h => absurd h.2 (not_lt.mpr (le_of_lt hc))
      have c2 : ¬ (o = BinningOption.closed ∧ value > bMax) := fun h => absurd h.2 (not_lt.mpr (le_of_lt hd))
      rw [if_neg c1, if_neg c2, if_neg (by omega), if_pos (by omega)]
      simp
    · -- at the upper end
      have hbn : bin = (n : Int) := by
        have hq : (value - bMin) / ((bMax - bMin) / (n : Rat)) = (n : Rat) := by
          rw [he, div_eq_iff (ne_of_gt hstep), hnstep]
        rw [hbin (fun _ => ⟨le_of_lt hc, le_of_eq he⟩), hq, truncate_of_nonneg _ (le_of_lt hN)]
        exact Int.floor_natCast n
      have c1 : ¬ (o = BinningOption.closed ∧ value < bMin) := fun h => absurd h.2 (not_lt.mpr (le_of_lt hc))
      have c2 : ¬ (o = BinningOption.closed ∧ value > bMax) := fun h => absurd h.2 (not_lt.mpr (le_of_eq he))
      rw [if_pos (le_of_eq he.symm), if_neg c1, if_neg c2, hbn, if_neg (by omega),
        if_neg (by omega)]
      cases o <;> simp
    · -- above the range
      rw [if_pos (le_of_lt hf)]
      cases o with
      | closed => simp [hf, not_lt.mpr (le_of_lt hc)]
      | «open» =>
        have hq : (n : Rat) ≤ (value - bMin) / ((bMax - bMin) / (n : Rat)) := by
          rw [le_div_iff₀ hstep, hnstep]
          linarith
        have hbn : (n : Int) ≤ bin := by
          rw [hbin (fun h => by cases h), truncate_of_nonneg _ (le_trans (le_of_lt hN) hq),
            Int.le_floor]
          exact_mod_cast hq
        simp only [reduceCtorEq, false_and, if_false, if_true]
        rw [if_neg (by omega), if_neg (by omega)]

end BinningData

end Acts

namespace Acts

namespace BinningData

/-- Claim C31, counterexample: with two closed bins on the interval from 0 to 2, the
value 0 (the lower end) is in bin 0 for the equidistant binning, whatever a float
conversion gives, and in bin 1 for the arbitrary binning of the same boundaries
0, 1, 2. And with two open bins the value 10000000000, whose quotient by the step does
not fit an `int`, is in bin 1 for the arbitrary binning and in bin 0 for the
equidistant binning when the conversion gives the least `int`. Every float operation
of the constructor and of the search is exact on these inputs. -/
theorem equidistant_and_arbitrary_differ :
    ((List.range (2 + 1)).map
      (fun i : Nat => (0 : Rat) + (i : Rat) * (2 - 0) / ((2 : Nat) : Rat))) = twoUnitBoundaries ∧
    BinningData.equidistant .closed 2 0 2 none false = .ok closedTwo ∧
    BinningData.arbitrary .closed twoUnitBoundaries none = .ok closedTwoArbitrary ∧
    (∀ unspecified : Rat → Rat → Int, closedTwo.search unspecified 0 = 0) ∧
    (∀ unspecified : Rat → Rat → Int, closedTwoArbitrary.search unspecified 0 = 1) ∧
    BinningData.equidistant .«open» 2 0 2 none false = .ok openTwo ∧
    BinningData.arbitrary .«open» twoUnitBoundaries none = .ok openTwoArbitrary ∧
    openTwo.search leastInt 10000000000 = 0 ∧
    openTwoArbitrary.search leastInt 10000000000 = 1 ∧
    exactEquidistant 2 0 2 = true ∧ exactSearch 2 0 2 0 = true ∧
    exactSearch 2 0 2 10000000000 = true := by
  refine ⟨by decide!, by decide!, by decide!, ?_, ?_, by decide!, by decide!, by decide!,
    by decide!, by decide!, by decide!, by decide!⟩
  · intro unspecified
    have hq : quotientToInt ((0 : Rat) - closedTwo.fields.min) closedTwo.fields.step unspecified
        = 0 := by
      have hmin : closedTwo.fields.min = 0 := rfl
      have hstep : closedTwo.fields.step = 1 := rfl
      rw [hmin, hstep]
      unfold quotientToInt
      rw [if_neg (by decide!), if_pos (by decide!)]
      decide!
    have hs : closedTwo.search unspecified 0 =
        searchEquidistantWithBoundary 0 closedTwo unspecified := rfl
    rw [hs, searchEquidistantWithBoundary_eq 0 closedTwo unspecified 0 (by decide) (by decide) hq]
    decide!
  · intro unspecified
    have hs : closedTwoArbitrary.search unspecified 0 =
        searchInVectorWithBoundary 0 closedTwoArbitrary := rfl
    rw [hs]
    decide!

/-- In the arithmetic of the definitions the two binnings return the same bin wherever
the conversion of the quotient is exact, the lower end of a closed binning apart. -/
theorem search_equidistant_eq_arbitrary (bOption : BinningOption) (n : Nat)
    (bMin bMax value : Rat) (unspecified : Rat → Rat → Int) (equi arb : BinningData)
    (hn : 1 ≤ n) (hsize : n < 18446744073709551616) (hlt : bMin < bMax)
    (hequi : equidistant bOption n bMin bMax none false = .ok equi)
    (harb : arbitrary bOption ((List.range (n + 1)).map
      (fun i : Nat => bMin + (i : Rat) * (bMax - bMin) / (n : Rat))) none = .ok arb)
    (hconv : (bOption = .closed → bMin ≤ value ∧ value ≤ bMax) →
      quotientToInt (value - bMin) ((bMax - bMin) / (n : Rat)) unspecified =
        truncate ((value - bMin) / ((bMax - bMin) / (n : Rat))))
    (hne : ¬ (bOption = .closed ∧ 2 ≤ n ∧ value = bMin)) :
    equi.search unspecified value = arb.search unspecified value := by
  obtain ⟨et, eo, eb, emin, emax, estep, ez, _, esub⟩ := equidistant_fields _ _ _ _ _ _ _ hequi
  obtain ⟨_, aty, ao, abd, abins, _, amax, az, _, asub⟩ := arbitrary_fields _ _ _ _ harb
  have hBlen : ((List.range (n + 1)).map
      (fun i : Nat => bMin + (i : Rat) * (bMax - bMin) / (n : Rat))).length = n + 1 := by
    rw [List.length_map, List.length_range]
  have hN : (n : Rat) ≠ 0 := by
    have : 0 < n := hn
    exact_mod_cast (Nat.pos_iff_ne_zero.mp this)
  have hB0 : ((List.range (n + 1)).map
      (fun i : Nat => bMin + (i : Rat) * (bMax - bMin) / (n : Rat))).getD 0 0 = bMin := by
    rw [equidistantBoundaries_getD n bMin bMax 0 (by omega)]
    simp
  have hBn : ((List.range (n + 1)).map
      (fun i : Nat => bMin + (i : Rat) * (bMax - bMin) / (n : Rat))).getD n 0 = bMax := by
    rw [equidistantBoundaries_getD n bMin bMax n (le_refl _)]
    field_simp
  rw [hBlen, Nat.add_sub_cancel] at abins amax
  rw [hBn] at amax
  rw [search_of_no_sub _ _ _ esub, search_of_no_sub _ _ _ asub, ez, az, hBlen]
  by_cases h1 : n = 1
  · have hz1 : (n == 1) = true := by simpa using h1
    have hz2 : (n + 1 == 2) = true := by simpa using h1
    rw [hz1, hz2]
    simp only [if_true]
  · have hn2 : 2 ≤ n := by omega
    have hz1 : (n == 1) = false := by simpa using h1
    have hz2 : (n + 1 == 2) = false := by simpa using h1
    rw [hz1, hz2]
    simp only [Bool.false_eq_true, if_false]
    have hfp : equi.m_functionPtr unspecified value =
        searchEquidistantWithBoundary value equi unspecified := by
      unfold m_functionPtr
      rw [et]
    rw [hfp, m_functionPtr_of_arbitrary arb unspecified value aty
        (by rw [abd, hBlen]; omega) (by rw [abd, hBlen, Nat.add_sub_cancel]; exact abins)
        (by rw [abd, hBlen, Nat.add_sub_cancel, hBn]; exact amax)
        (by rw [abd]; exact equidistantBoundaries_pairwise n bMin bMax hn hlt),
      searchEquidistantWithBoundary_eq value equi unspecified _ (by rw [eb]; omega)
        (by rw [eb]; exact hsize) rfl]
    rw [searchInVectorWithBoundary_finite, eo, emin, emax, estep, eb, ao, abd, abins, amax, hB0,
      sizeSub_of_le n 1 hn]
    exact equidistant_eq_linear_core bOption n bMin bMax value _ _ hn2 hlt rfl
      (fun h => hconv h) (fun h => hne ⟨h.1, hn2, h.2⟩)

/-- Claim C31, amended: for every option, every bin count `n >= 1` with `n - 1` in the
range of `int`, every `min < max` and every value on which the float operations of the constructor and of the
search are exact (`exactEquidistant`, `exactSearch`) and for which the conversion of
`(value - min) / step` to `int` is exact (for the closed option this is only needed for
values from `min` to `max`), the step of the equidistant binning, the boundaries
`min + i * (max - min) / n` of the arbitrary binning and the quotient the equidistant
search converts are floats, so that the rational arithmetic of the definitions is the
float arithmetic of the source, and the two binnings return the same bin from
`search(value)`, except for the closed option with two or more bins at `value = min`. -/
theorem equidistant_and_arbitrary_agree (bOption : BinningOption) (n : Nat)
    (bMin bMax value : Rat) (unspecified : Rat → Rat → Int) (equi arb : BinningData)
    (hn : 1 ≤ n) (hsize : n ≤ 2147483648) (hlt : bMin < bMax)
    (hexact : exactEquidistant n bMin bMax = true)
    (hvalue : exactSearch n bMin bMax value = true)
    (hequi : equidistant bOption n bMin bMax none false = .ok equi)
    (harb : arbitrary bOption ((List.range (n + 1)).map
      (fun i : Nat => bMin + (i : Rat) * (bMax - bMin) / (n : Rat))) none = .ok arb)
    (hconv : (bOption = .closed → bMin ≤ value ∧ value ≤ bMax) →
      quotientToInt (value - bMin) ((bMax - bMin) / (n : Rat)) unspecified =
        truncate ((value - bMin) / ((bMax - bMin) / (n : Rat))))
    (hne : ¬ (bOption = .closed ∧ 2 ≤ n ∧ value = bMin)) :
    representable equi.fields.step = true ∧
    (∀ x ∈ arb.fields.m_boundaries, representable x = true) ∧
    representable ((value - equi.fields.min) / equi.fields.step) = true ∧
    equi.search unspecified value = arb.search unspecified value := by
  obtain ⟨_, _, _, emin, _, estep, _, _, _⟩ := equidistant_fields _ _ _ _ _ _ _ hequi
  obtain ⟨_, _, _, abd, _, _, _, _, _, _⟩ := arbitrary_fields _ _ _ _ harb
  unfold exactEquidistant at hexact
  unfold exactSearch at hvalue
  simp only [Bool.and_eq_true, List.all_eq_true, List.mem_range] at hexact hvalue
  refine ⟨?_, ?_, ?_,
    search_equidistant_eq_arbitrary bOption n bMin bMax value unspecified equi arb hn
      (by omega) hlt hequi harb hconv hne⟩
  · rw [estep]
    exact hexact.1.2
  · intro x hx
    rw [abd, List.mem_map] at hx
    obtain ⟨i, hi, rfl⟩ := hx
    rw [mul_div_assoc]
    exact (hexact.2 i (List.mem_range.mp hi)).1.2
  · rw [emin, estep]
    exact hvalue.2

theorem equidistant_and_arbitrary_agree_witness :
    exactEquidistant 2 0 2 = true ∧ exactSearch 2 0 2 (3 / 2) = true ∧
    closedTwo.search leastInt (3 / 2) = closedTwoArbitrary.search leastInt (3 / 2) ∧
    closedTwoArbitrary.search leastInt (3 / 2) = 1 :=
  ⟨by decide!, by decide!,
    (equidistant_and_arbitrary_agree .closed 2 0 2 (3 / 2) leastInt closedTwo closedTwoArbitrary
      (by decide) (by decide) (by decide!) (by decide!) (by decide!) (by decide!) (by decide!)
      (fun _ => by decide!) (by decide!)).2.2.2, by decide!⟩

end BinningData

end Acts
